import Mathlib

/-! # processDyna: text-to-binary conversion of nodal displacement output

A shallow embedding of `postC/processDyna.c` and proofs about it.

* C strings are lists of characters; a buffer is the list of its bytes and
  `cstr` reads the string in it.  The lines of the input are text without
  `NUL` characters.
* The input file is the list of lines that `getline` returns, the newline
  included, so `numChars` is the length of a line.  Both passes and the
  `grep` count read the same lines.
* A `double` is an exact number (a rational where the code computes it, a
  real in the statements about the clamp); of the rounding to `double` only
  the underflow to zero is modelled (`flushToZero`), and the narrowing of a
  value to `float` is not.  The `float` loop counter of `writeNodeIDs` takes
  integer values only and is modelled exactly.
* The line buffer of the conversion loop is part of its state: `getline`
  overwrites the start of the buffer and keeps the bytes behind the
  terminator, and the field copies read the buffer, not the line.  The bytes
  that `malloc` left in it are a parameter `mem` of `main`.
* The output file is the list of values handed to `fwrite`; failures of the
  file system (`fopen`, `malloc`, `fwrite`, `fseek`, `popen`) are outside the
  model.
-/

namespace ProcessDyna

/-! ## Format constants (the `#define`s of the source) -/

def NUM_DIMS : Int := 4
def NUM_CHARS : Nat := 15
def XDISP_START : Nat := 10
def YDISP_START : Nat := 22
def ZDISP_START : Nat := 34
def EXP_START : Nat := 9
def NUM_DISP_CHARS : Nat := 12
def LINE : Nat := 160

/-- The constant `MIN_VALUE`, `1E-30`. -/
def MIN_VALUE {α : Type} [LinearOrderedField α] : α := 1 / 10 ^ 30

/-- The constant `MAX_VALUE`, `1E30`. -/
def MAX_VALUE {α : Type} [LinearOrderedField α] : α := 10 ^ 30

/-! ## Range clamp -/

/-- The clamp `main` applies to `temp` after each `atof` (the same nested
`if` is written out for the x, the y and the z component):
```
if (temp < 0) {
    if (fabs(temp) < MIN_VALUE) temp = -MIN_VALUE;
    else if (fabs(temp) > MAX_VALUE) temp = -MAX_VALUE;
}
else {
    if (temp < MIN_VALUE) temp = MIN_VALUE;
    else if (temp > MAX_VALUE) temp = MAX_VALUE;
}
``` -/
def rangeClamp {α : Type} [LinearOrderedField α] (temp : α) : α :=
  if temp < 0 then
    if |temp| < MIN_VALUE then -MIN_VALUE
    else if |temp| > MAX_VALUE then -MAX_VALUE
    else temp
  else
    if temp < MIN_VALUE then MIN_VALUE
    else if temp > MAX_VALUE then MAX_VALUE
    else temp


/-! ## C strings and character buffers -/

/-- The terminating byte of a C string. -/
def NUL : Char := Char.ofNat 0

/-- The C string held in a buffer: the bytes before the first `NUL`. -/
def cstr (buf : List Char) : List Char := buf.takeWhile (fun c => c != NUL)

/-- Whether `strchr(s, c)` is not `NULL`: the character occurs in the C string
that starts at `s` (`c` is never `NUL` in this program). -/
def strchr (s : List Char) (c : Char) : Bool := (cstr s).contains c

/-- Whether `strstr(hay, needle)` is not `NULL`: the needle starts at some
position of the haystack. -/
def strstr : List Char → List Char → Bool
  | [], needle => needle.isEmpty
  | c :: cs, needle => needle.isPrefixOf (c :: cs) || strstr cs needle

/-- The call `strncpy(dst, src, n)`: the first `n` characters of the C string
`src`, padded with `NUL` up to `n` bytes when the string is shorter, overwrite
the first `n` bytes of `dst`; the rest of `dst` is kept. -/
def strncpy (dst src : List Char) (n : Nat) : List Char :=
  let s := (cstr src).take n
  s ++ List.replicate (n - s.length) NUL ++ dst.drop n

/-- The ways a run leaves the modelled behaviour. -/
inductive Fault where
  /-- The program calls `exit(EXIT_FAILURE)`. -/
  | exitFailure
  /-- The program reads memory the current input did not determine (the
  variable `numNodes` when it was never assigned; for `extractField`, bytes of
  the line buffer behind the terminator of the line). -/
  | indeterminate
  /-- The text handed to `atof` is not a decimal literal (`inf`, `nan` or a
  hexadecimal literal); the model of `atof` does not compute the value that C
  returns for it. -/
  | notDecimal
  deriving DecidableEq, Repr

/-! ## Exponent repair -/

/-- The function `correctE(disp)`:
```
if ((ptr = strchr(disp + 1, '-')) == NULL) { ...; exit(EXIT_FAILURE); }
insertPos = EXP_START - 1;
strncpy(disp + insertPos, "E-100", 6);
```
The buffer `disp` has `NUM_CHARS` bytes. -/
def correctE (disp : List Char) : Except Fault (List Char) :=
  if strchr (disp.drop 1) '-' then
    let insertPos := EXP_START - 1
    .ok (disp.take insertPos ++ strncpy (disp.drop insertPos) "E-100".toList 6)
  else
    .error .exitFailure

/-- The repair step of `main`:
`if ((ptr = strchr(xdisp, 'E')) == NULL) correctE(xdisp);`. -/
def repair (disp : List Char) : Except Fault (List Char) :=
  if strchr disp 'E' then .ok disp else correctE disp

/-- The field copy of `main` from the bytes `mem` of the line buffer, for the
field that starts at byte `start`:
```
strncpy(xdisp, buf + XDISP_START, NUM_DISP_CHARS);
xdisp[NUM_DISP_CHARS] = '\0';
```
The copy starts at byte `start` whether or not the line read last reaches it:
behind the terminator of a shorter line it finds the bytes that were in the
buffer before. -/
def fieldText (disp mem : List Char) (start : Nat) : List Char :=
  (strncpy disp (mem.drop start) NUM_DISP_CHARS).set NUM_DISP_CHARS NUL

/-- The field copy as the line `buf` alone determines it (the text `getline`
returned, without `NUL`s): `fieldText` on the characters of the line when the
line reaches column `start`.  For a shorter line the copied bytes are not
bytes of the line, and the line alone does not tell the result (the loop of
`main` goes through `fieldText` on the whole buffer). -/
def extractField (disp buf : List Char) (start : Nat) : Except Fault (List Char) :=
  if start ≤ buf.length then
    .ok (fieldText disp buf start)
  else
    .error .indeterminate

/-! ## Text to number: `atoi` and `atof` -/

/-- The C `isspace` in the "C" locale: blank, `\t`, `\n`, `\v`, `\f`, `\r`. -/
def isspace (c : Char) : Bool := c == ' ' || (9 ≤ c.toNat && c.toNat ≤ 13)

/-- Value of a decimal digit character. -/
def digitVal (c : Char) : Nat := c.toNat - '0'.toNat

/-- Value of a run of decimal digits, most significant first. -/
def digitsVal (ds : List Char) : Nat := ds.foldl (fun a c => 10 * a + digitVal c) 0

/-- An optional leading sign: whether it is `-`, and the text after it. -/
def splitSign : List Char → Bool × List Char
  | '-' :: r => (true, r)
  | '+' :: r => (false, r)
  | s => (false, s)

/-- Reduction of an integer to the range of a 32-bit `int` (two's
complement), as a conversion from `long` to `int` does. -/
def wrapInt32 (i : Int) : Int := (i + 2 ^ 31) % 2 ^ 32 - 2 ^ 31

/-- The C `atoi`, as the C library computes it (`(int) strtol(s, NULL, 10)`):
leading white space, an optional sign, then the longest run of decimal digits;
`strtol` saturates at the range of a 64-bit `long`, and the conversion to
`int` keeps the low 32 bits. -/
def atoi (s : List Char) : Int :=
  let (neg, r) := splitSign (s.dropWhile isspace)
  let v : Int := digitsVal (r.takeWhile Char.isDigit)
  let l : Int := if neg then max (-v) (-(2 ^ 63)) else min v (2 ^ 63 - 1)
  wrapInt32 l

/-- Texts that `strtod` reads as something other than a decimal literal:
after the sign, a first letter of `inf`/`nan`, or the prefix `0x` of a
hexadecimal literal. -/
def isSpecial : List Char → Bool
  | c :: r =>
    c == 'i' || c == 'I' || c == 'n' || c == 'N' ||
      (c == '0' && match r with
        | x :: _ => x == 'x' || x == 'X'
        | [] => false)
  | [] => false

/-- The exponent part of a decimal literal: `e` or `E`, an optional sign and
at least one digit; anything else is no exponent. -/
def parseExp : List Char → Int
  | c :: r =>
    if c == 'e' || c == 'E' then
      let (neg, r') := splitSign r
      let ds := r'.takeWhile Char.isDigit
      if ds.isEmpty then 0 else if neg then -(digitsVal ds : Int) else (digitsVal ds : Int)
    else 0
  | [] => 0

/-- The C `atof` (`strtod(s, NULL)`) on decimal literals, as an exact rational:
leading white space, an optional sign, digits with an optional decimal point,
an optional exponent; the value is `0` when no digit is found.  For the other
texts that `strtod` knows (`isSpecial`) the result is `.error .notDecimal`:
C returns a value for them, which is not computed here.  Rounding to `double`
is not modelled here: the value is the exact one (`flushToZero` adds the one
effect of rounding that the clamp of `main` can see). -/
def atof (s : List Char) : Except Fault ℚ :=
  let (neg, s2) := splitSign (s.dropWhile isspace)
  if isSpecial s2 then .error .notDecimal
  else
    let ip := s2.takeWhile Char.isDigit
    let s3 := s2.dropWhile Char.isDigit
    let fp := match s3 with
      | '.' :: r => r.takeWhile Char.isDigit
      | _ => []
    let s4 := match s3 with
      | '.' :: r => r.dropWhile Char.isDigit
      | _ => s3
    if ip.isEmpty && fp.isEmpty then .ok 0
    else
      .ok ((if neg then -1 else 1) * ((digitsVal (ip ++ fp) : ℚ) / 10 ^ fp.length) *
        10 ^ parseExp s4)

/-- The `double` that `atof` returns for a literal of exact value `q`, as far
as the clamp of `main` can tell it from `q`.  A value of magnitude at most
`2^-1075`, half the least positive `double`, is returned as a zero; the zero
has the sign of the literal, but `temp < 0` is false for `-0.0` too, so `0`
stands for both.  A value beyond the range of `double` is returned as an
infinity, which the clamp takes to `MAX` with its sign as it does the exact
value.  Rounding inside the range is not modelled. -/
def flushToZero (q : ℚ) : ℚ := if |q| ≤ 1 / 2 ^ 1075 then 0 else q

/-- One component of a record as the line `buf` alone determines it, for the
field at column `start`: extraction, exponent repair, `atof`, clamp, each
step failing where its model ends. -/
def fieldValue (disp buf : List Char) (start : Nat) : Except Fault ℚ := do
  let d ← extractField disp buf start
  let d ← repair d
  let temp ← atof (cstr d)
  pure (rangeClamp (flushToZero temp))

/-- The text of a decimal mantissa: white space, an optional sign, digits,
and optionally a decimal point followed by digits. -/
def DecimalMantissa (s : List Char) : Prop :=
  ∃ ws sg ip tl, s = ws ++ (sg ++ (ip ++ tl)) ∧ (∀ c ∈ ws, isspace c = true) ∧
    (sg = [] ∨ sg = ['-'] ∨ sg = ['+']) ∧ (∀ c ∈ ip, c.isDigit = true) ∧
    (tl = [] ∨ ∃ fp, tl = '.' :: fp ∧ ∀ c ∈ fp, c.isDigit = true)

/-- A text that is empty or starts with the exponent marker. -/
def ExpStop (u : List Char) : Prop := u = [] ∨ ∃ r, u = 'E' :: r

/-! ## Single precision on integers -/

/-- The single-precision value nearest to the natural number `n` (ties to
the even significand), for `n` below the overflow threshold: numbers below
`2^24` are exact, larger ones keep 24 significant bits. -/
def f32Round (n : Nat) : Nat :=
  if n < 2 ^ 24 then n
  else
    let e := Nat.log2 n - 23
    let q := n / 2 ^ e
    let r := n % 2 ^ e
    if 2 * r < 2 ^ e then q * 2 ^ e
    else if 2 ^ e < 2 * r then (q + 1) * 2 ^ e
    else if q % 2 = 0 then q * 2 ^ e
    else (q + 1) * 2 ^ e

/-- The conversion of an `int` to `float`. -/
def f32OfInt (i : Int) : Int :=
  if i < 0 then -(f32Round i.natAbs : Int) else (f32Round i.toNat : Int)

/-! ## The output file -/

/-- One single-precision value handed to `fwrite`. -/
inductive Out where
  /-- The conversion to `float` of this integer. -/
  | ofInt (i : Int)
  /-- The narrowing to `float` of this `double` value. -/
  | ofDouble (q : ℚ)
  /-- The narrowing to `float` of the clamped `double` that `atof` returns for
  a text that is not a decimal literal; its value is not computed. -/
  | ofNonDecimal
  /-- The conversion of an `int` that was never assigned. -/
  | indeterminate
  deriving DecidableEq

/-- The function `writeNodeIDs(ptr, num)`:
```
float node;
for (node = 1; node <= num; node++)
    if (fwrite(&node, sizeof(float), 1, ptr) != 1) { ...; exit(EXIT_FAILURE); }
```
The counter is a `float` holding the integer `node`; the comparison converts
`num` to `float`, and `node++` rounds `node + 1` to single precision.  The
loop runs for at most `fuel` iterations; `none` means it has not returned by
then.  Write failures of the file system are outside the model. -/
def writeNodeIDsLoop : Nat → Nat → Int → Option (List Out)
  | 0, _, _ => none
  | fuel + 1, node, num =>
    if (node : Int) ≤ f32OfInt num then
      (writeNodeIDsLoop fuel (f32Round (node + 1)) num).map (fun out => Out.ofInt node :: out)
    else some []

/-- The call `writeNodeIDs(ptr, num)`, the counter starting at `1`. -/
def writeNodeIDs (fuel : Nat) (num : Int) : Option (List Out) :=
  writeNodeIDsLoop fuel 1 num

/-! ## Discovery pass -/

/-- A line of the input as `getline` returns it: its characters, the
terminating newline included (`numChars` is its length). -/
abbrev Line := List Char

/-- The test `strstr(buf, "nodal") != NULL`. -/
def hasNodal (buf : Line) : Bool := strstr buf "nodal".toList

/-- The loop of `doCount` over the lines still to read:
```
if (strstr(buf, "nodal") != NULL) { timestepRead = 1; continue; }
if (timestepRead) {
    if (numChars == 1) { timestepRead = 0; *nodes = node; ...; break; }
    else { strncpy(nodeID, buf, 10); nodeID[10] = '\0'; node = atoi(nodeID); }
}
```
The result is the value left in `*nodes`; `none` stands for a value that was
never assigned (`node` before the first data line, `*nodes` when the input
ends before the `break`). -/
def doCountLoop : List Line → Bool → Option Int → Option Int
  | [], _, _ => none
  | buf :: rest, timestepRead, node =>
    if hasNodal buf then doCountLoop rest true node
    else if timestepRead then
      if buf.length = 1 then node
      else doCountLoop rest true (some (atoi ((cstr buf).take 10)))
    else doCountLoop rest false node

/-- The count printed by `grep nodal <input> | wc -l`: the number of lines
that contain `nodal`. -/
def grepCount (lines : List Line) : Nat := lines.countP hasNodal

/-- The function `doCount`: the pair `(*nodes, *steps)`.  The step count is
`atoi(result) - 1` for the text `result` printed by `wc`, that is the number
of marker lines minus one (the count is taken to fit an `int`). -/
def doCount (lines : List Line) : Option Int × Int :=
  (doCountLoop lines false none, (grepCount lines : Int) - 1)

/-! ## Conversion pass -/

/-- The scratch buffers `xdisp`, `ydisp`, `zdisp` of `NUM_CHARS` bytes.  The
bytes they hold before a field is copied in do not matter
(`fieldOut_scratch`), so each field starts from a cleared buffer. -/
def scratch : List Char := List.replicate NUM_CHARS NUL

/-- The record as the data line `buf` alone determines it: the x, y and z
values in this order; the first failing step decides the fault. -/
def record (buf : Line) : Except Fault (List Out) := do
  let x ← fieldValue scratch buf XDISP_START
  let y ← fieldValue scratch buf YDISP_START
  let z ← fieldValue scratch buf ZDISP_START
  pure [Out.ofDouble x, Out.ofDouble y, Out.ofDouble z]

/-- The line buffer after the call `getline(&buf, &lineLength, nodout)` has
read the line `line` into a buffer that held the bytes `mem`: the characters
of the line, the terminating `NUL`, and behind it the bytes of `mem` that the
call did not overwrite.  (The buffer has `LINE + 1` bytes or more, so the
three fields lie inside it.) -/
def getline (mem : List Char) (line : Line) : List Char :=
  line ++ NUL :: mem.drop (line.length + 1)

/-- One component of a record, as `main` computes it from the bytes `mem` of
the line buffer for the field at byte `start`: the field copy, exponent repair
(the only step that can stop the program), `atof`, the clamp, the narrowing
to `float`. -/
def fieldOut (disp mem : List Char) (start : Nat) : Except Fault Out := do
  let d ← repair (fieldText disp mem start)
  match atof (cstr d) with
  | .ok temp => pure (Out.ofDouble (rangeClamp (flushToZero temp)))
  | .error _ => pure Out.ofNonDecimal

/-- The record that `main` writes from the bytes `mem` of the line buffer:
the x, y and z values in this order, or the `exit` of the first Exponent
Repair that fails (nothing is written then). -/
def recordAt (mem : List Char) : Except Fault (List Out) := do
  let x ← fieldOut scratch mem XDISP_START
  let y ← fieldOut scratch mem YDISP_START
  let z ← fieldOut scratch mem ZDISP_START
  pure [x, y, z]

/-- Where the conversion loop stands. -/
inductive Status where
  /-- The loop is reading lines (at end of input: it ended there). -/
  | reading
  /-- The loop left through `break` at the step limit. -/
  | done
  /-- The program stopped with a fault. -/
  | fault (f : Fault)
  /-- A call of `writeNodeIDs` has not returned. -/
  | hung
  deriving DecidableEq

/-- State of the conversion loop of `main`: the flag `timestepRead`, the
counter `currStep`, the values written so far, the status, and the bytes of
the line buffer `buf`.  (The counter `currLine` only feeds disabled debug
output and is left out.) -/
structure Conv where
  timestepRead : Bool
  currStep : Int
  out : List Out
  status : Status
  buf : List Char
  deriving DecidableEq

/-- One iteration of the `while (getline ...)` loop of `main`, in which
`getline` reads the line `line` into the buffer:
```
if (strstr(buf, "nodal") != NULL) {
    timestepRead = 1;
    if (currStep == timestepCount) break;
    currStep += 1;
    if (legacyNodes == 1 && currStep > 1) writeNodeIDs(outptr, numNodes);
    continue;
}
currLine++;
if (timestepRead != 0) {
    if (numChars == 1) { timestepRead = 0; currLine = 0; }
    else { ...; fwrite(dispVals, ...); }
}
```
The loop ends at the end of the input, at the `break`, when Exponent Repair
calls `exit`, or never (inside `writeNodeIDs`); a state that is not `reading`
is kept.  Write failures of the file system are outside the model. -/
def convertStep (fuel : Nat) (legacyNodes : Bool) (numNodes timestepCount : Int)
    (s : Conv) (line : Line) : Conv :=
  if s.status ≠ .reading then s
  else if hasNodal line then
    if s.currStep = timestepCount then
      { s with timestepRead := true, status := .done, buf := getline s.buf line }
    else if legacyNodes && decide (s.currStep + 1 > 1) then
      match writeNodeIDs fuel numNodes with
      | some ids =>
        { s with timestepRead := true, currStep := s.currStep + 1, out := s.out ++ ids,
                 buf := getline s.buf line }
      | none =>
        { s with timestepRead := true, currStep := s.currStep + 1, status := .hung,
                 buf := getline s.buf line }
    else { s with timestepRead := true, currStep := s.currStep + 1, buf := getline s.buf line }
  else if s.timestepRead then
    if line.length = 1 then { s with timestepRead := false, buf := getline s.buf line }
    else
      match recordAt (getline s.buf line) with
      | .ok r => { s with out := s.out ++ r, buf := getline s.buf line }
      | .error f => { s with status := .fault f, buf := getline s.buf line }
  else { s with buf := getline s.buf line }

/-- The conversion loop of `main` over all lines, from `currStep = 0` and
`timestepRead = 0`, after `out` has been written, the line buffer holding the
bytes `mem`. -/
def conversionPass (mem : List Char) (fuel : Nat) (legacyNodes : Bool)
    (numNodes timestepCount : Int) (out : List Out) (lines : List Line) : Conv :=
  lines.foldl (convertStep fuel legacyNodes numNodes timestepCount)
    { timestepRead := false, currStep := 0, out := out, status := .reading, buf := mem }

/-- The program `main` on the input `lines` (both passes read the same
lines): `doCount`, the header, the node-ID table, then the conversion loop.
The bytes `mem` are those of the line buffer that `malloc` returned, which C
leaves indeterminate. -/
def main (mem : List Char) (fuel : Nat) (legacyNodes : Bool) (lines : List Line) : Conv :=
  let header (n : Out) : List Out := [n, Out.ofInt NUM_DIMS, Out.ofInt (doCount lines).2]
  match (doCount lines).1 with
  | none =>
    { timestepRead := false, currStep := 0, out := header Out.indeterminate,
      status := .fault .indeterminate, buf := mem }
  | some numNodes =>
    match writeNodeIDs fuel numNodes with
    | none =>
      { timestepRead := false, currStep := 0, out := header (Out.ofInt numNodes),
        status := .hung, buf := mem }
    | some ids =>
      conversionPass mem fuel legacyNodes numNodes (doCount lines).2
        (header (Out.ofInt numNodes) ++ ids) lines

/-! ## Well-formed inputs -/

/-- A timestep block of the input: the marker line, the data lines, and the
line that ends the block. -/
structure Block where
  marker : Line
  data : List Line
  blank : Line

/-- The lines of a block, in file order. -/
def Block.lines (b : Block) : List Line := b.marker :: (b.data ++ [b.blank])

/-- The input file made of the given blocks. -/
def inputOf (blocks : List Block) : List Line := blocks.flatMap Block.lines

/-- Whether the three numeric fields of a data line convert without a fault. -/
def convertible (d : Line) : Bool :=
  match record d with
  | .ok _ => true
  | .error _ => false

/-- The values written for a data line (nothing when it does not convert). -/
def recordOut (d : Line) : List Out :=
  match record d with
  | .ok r => r
  | .error _ => []

/-- A well-formed block of `N` data lines: the marker line contains `nodal`,
the data lines are neither marker lines nor zero-length and convert, the
identifier field of the last one reads `N`, and a zero-length line (one
character, the newline) ends the block. -/
def WellFormedBlock (N : Nat) (b : Block) : Prop :=
  hasNodal b.marker = true ∧ b.blank.length = 1 ∧ b.data.length = N ∧
    (∀ d ∈ b.data, hasNodal d = false ∧ d.length ≠ 1 ∧ convertible d = true) ∧
    ∃ d, b.data.getLast? = some d ∧ atoi ((cstr d).take 10) = (N : Int)

/-- A line buffer of `LINE + 1` bytes as `malloc` may return it: bytes that no
line of the input determines. -/
def staleBuf : List Char := List.replicate (LINE + 1) '?'

/-- A data line with identifier `1`. -/
def dataLine : Line := "         1 1.00000E+00 1.00000E+00 1.00000E+00\n".toList

/-- A data line with identifier `16777216`. -/
def lastLine : Line := "  16777216 1.00000E+00 1.00000E+00 1.00000E+00\n".toList

/-- A block of `2^24 = 16777216` data lines, the last with identifier
`16777216`. -/
def largeBlock : Block where
  marker := "nodal\n".toList
  data := List.replicate (2 ^ 24 - 1) dataLine ++ [lastLine]
  blank := "\n".toList


/-! ## The three inline copies of the clamp -/

/-- The clamp written out for the x component (source lines 181 to 188):
```
if (temp < 0) {
    if (fabs(temp) < MIN_VALUE) temp = -MIN_VALUE;
    else if (fabs(temp) > MAX_VALUE) temp = -MAX_VALUE;
}
else {
    if (temp < MIN_VALUE) temp = MIN_VALUE;
    else if (temp > MAX_VALUE) temp = MAX_VALUE;
}
dispVals[0] = (float )temp;
``` -/
def clampX {α : Type} [LinearOrderedField α] (temp : α) : α :=
  if temp < 0 then
    if |temp| < MIN_VALUE then -MIN_VALUE
    else if |temp| > MAX_VALUE then -MAX_VALUE
    else temp
  else
    if temp < MIN_VALUE then MIN_VALUE
    else if temp > MAX_VALUE then MAX_VALUE
    else temp

/-- The clamp written out for the y component (source lines 200 to 207),
the same statements as for x, followed by `dispVals[1] = (float )temp;`. -/
def clampY {α : Type} [LinearOrderedField α] (temp : α) : α :=
  if temp < 0 then
    if |temp| < MIN_VALUE then -MIN_VALUE
    else if |temp| > MAX_VALUE then -MAX_VALUE
    else temp
  else
    if temp < MIN_VALUE then MIN_VALUE
    else if temp > MAX_VALUE then MAX_VALUE
    else temp

/-- The clamp written out for the z component (source lines 214 to 221),
the same statements as for x, followed by `dispVals[2] = (float )temp;`. -/
def clampZ {α : Type} [LinearOrderedField α] (temp : α) : α :=
  if temp < 0 then
    if |temp| < MIN_VALUE then -MIN_VALUE
    else if |temp| > MAX_VALUE then -MAX_VALUE
    else temp
  else
    if temp < MIN_VALUE then MIN_VALUE
    else if temp > MAX_VALUE then MAX_VALUE
    else temp

/-! ## Comparing outputs -/

/-- Whether an output value is a component of a displacement record. -/
def isRecordValue : Out → Bool
  | .ofDouble _ => true
  | .ofNonDecimal => true
  | _ => false

/-- The first output is the second with copies of the table `ids` inserted:
deleting these copies from the first yields the second. -/
inductive TablesInserted (ids : List Out) : List Out → List Out → Prop where
  | nil : TablesInserted ids [] []
  | keep (o : Out) {l d : List Out} : TablesInserted ids l d →
      TablesInserted ids (o :: l) (o :: d)
  | table {l d : List Out} : TablesInserted ids l d → TablesInserted ids (ids ++ l) d

/-- The node-ID table of a run of `main`: what `writeNodeIDs` writes for the
node count of the Discovery Pass (nothing when the count is unassigned or the
call does not return). -/
def nodeTable (fuel : Nat) (lines : List Line) : List Out :=
  match (doCount lines).1 with
  | some numNodes => (writeNodeIDs fuel numNodes).getD []
  | none => []

/-! ## Counting data lines -/

/-- Following the spec's words: the number of non-empty, non-marker lines
that lie between a started marker line and the next zero-length line.  The
started marker lines are the first `timestepCount` marker lines; `started`
counts them and `inSpan` tells whether a span is open. -/
def spanLineCount (timestepCount : Int) : List Line → Int → Bool → Nat
  | [], _, _ => 0
  | buf :: rest, started, inSpan =>
    if hasNodal buf then
      if started < timestepCount then spanLineCount timestepCount rest (started + 1) true
      else spanLineCount timestepCount rest started inSpan
    else if buf.length = 1 then spanLineCount timestepCount rest started false
    else (if inSpan then 1 else 0) + spanLineCount timestepCount rest started inSpan

/-- Whether every marker line of the input is met outside a block: each block
that a marker line opens is closed by a zero-length line before the next
marker line (`inBlock` tells whether a block is open). -/
def blocksClosed : List Line → Bool → Bool
  | [], _ => true
  | buf :: rest, inBlock =>
    if hasNodal buf then !inBlock && blocksClosed rest true
    else if buf.length = 1 then blocksClosed rest false
    else blocksClosed rest inBlock

/-- A data line whose x field ` 1.00000+000` has neither the marker `E` nor a
`-` after its first character. -/
def badLine : Line := "         2 1.00000+000 1.00000E+00 1.00000E+00\n".toList

/-- The invariant of the legacy loop started with `currStep = 0`: the values
that are not record values are those written before the loop plus one table
for every started block other than the first, and a loop that has left
through `break` has started `timestepCount` blocks. -/
def LegacyInv (ids : List Out) (timestepCount : Int) (base : List Out) (s : Conv) : Prop :=
  0 ≤ s.currStep ∧
    s.out.filter (fun o => !isRecordValue o) =
      base ++ (List.replicate (s.currStep - 1).toNat ids).flatten ∧
    (s.status = .done → s.currStep = timestepCount)

/-- A data line with identifier `2`. -/
def dataLine2 : Line := "         2 2.00000E+00 2.00000E+00 2.00000E+00\n".toList

/-! # Theorems -/

/-! ## Range clamp: bounds, sign, cases, monotonicity -/

theorem MIN_VALUE_pos {α : Type} [LinearOrderedField α] : (0 : α) < MIN_VALUE := by
  unfold MIN_VALUE; positivity

theorem MIN_VALUE_le_MAX_VALUE {α : Type} [LinearOrderedField α] :
    (MIN_VALUE : α) ≤ MAX_VALUE := by
  have h1 : (MIN_VALUE : α) ≤ 1 := by
    unfold MIN_VALUE
    rw [div_le_one (by positivity)]
    exact one_le_pow₀ (by norm_num)
  have h2 : (1 : α) ≤ MAX_VALUE := by
    unfold MAX_VALUE
    exact one_le_pow₀ (by norm_num)
  exact h1.trans h2

/-- Shape of the clamp on negative arguments. -/
theorem rangeClamp_neg {α : Type} [LinearOrderedField α] (x : α) (hx : x < 0) :
    rangeClamp x = max (-MAX_VALUE) (min x (-MIN_VALUE)) := by
  have hmin := MIN_VALUE_pos (α := α)
  have hmm := MIN_VALUE_le_MAX_VALUE (α := α)
  unfold rangeClamp
  rw [if_pos hx, abs_of_neg hx]
  by_cases h1 : -x < MIN_VALUE
  · rw [if_pos h1, min_eq_right (by linarith), max_eq_right (by linarith)]
  · rw [if_neg h1]
    by_cases h2 : -x > MAX_VALUE
    · rw [if_pos h2, min_eq_left (by linarith), max_eq_left (by linarith)]
    · rw [if_neg h2, min_eq_left (by linarith), max_eq_right (by linarith)]

/-- Shape of the clamp on nonnegative arguments. -/
theorem rangeClamp_nonneg {α : Type} [LinearOrderedField α] (x : α) (hx : 0 ≤ x) :
    rangeClamp x = min MAX_VALUE (max x MIN_VALUE) := by
  have hmm := MIN_VALUE_le_MAX_VALUE (α := α)
  unfold rangeClamp
  rw [if_neg (not_lt.mpr hx)]
  by_cases h1 : x < MIN_VALUE
  · rw [if_pos h1, max_eq_right (le_of_lt h1), min_eq_right hmm]
  · rw [if_neg h1]
    by_cases h2 : x > MAX_VALUE
    · rw [if_pos h2, max_eq_left (by linarith), min_eq_left (le_of_lt h2)]
    · rw [if_neg h2, max_eq_left (by linarith), min_eq_right (by linarith)]

/-- C5. Range Clamp is bounded and sign-preserving: for every real `x`,
`MIN ≤ |clamp x| ≤ MAX`, and for nonzero `x` the clamped value has the sign
of `x`. -/
theorem rangeClamp_bounded_sign (x : ℝ) :
    (MIN_VALUE ≤ |rangeClamp x| ∧ |rangeClamp x| ≤ MAX_VALUE) ∧
      (x ≠ 0 → ((0 < x ∧ 0 < rangeClamp x) ∨ (x < 0 ∧ rangeClamp x < 0))) := by
  have hmin := MIN_VALUE_pos (α := ℝ)
  have hmm := MIN_VALUE_le_MAX_VALUE (α := ℝ)
  rcases lt_or_le x 0 with hx | hx
  · have hle : rangeClamp x ≤ -MIN_VALUE := by
      rw [rangeClamp_neg x hx]
      exact max_le (by linarith) (min_le_right _ _)
    have hge : -MAX_VALUE ≤ rangeClamp x := by
      rw [rangeClamp_neg x hx]
      exact le_max_left _ _
    have hneg : rangeClamp x < 0 := by linarith
    refine ⟨⟨?_, ?_⟩, fun _ => Or.inr ⟨hx, hneg⟩⟩
    · rw [abs_of_neg hneg]; linarith
    · rw [abs_of_neg hneg]; linarith
  · have hge : MIN_VALUE ≤ rangeClamp x := by
      rw [rangeClamp_nonneg x hx]
      exact le_min hmm (le_max_right _ _)
    have hle : rangeClamp x ≤ MAX_VALUE := by
      rw [rangeClamp_nonneg x hx]
      exact min_le_left _ _
    have hpos : 0 < rangeClamp x := by linarith
    refine ⟨⟨?_, ?_⟩, fun h0 => Or.inl ⟨lt_of_le_of_ne hx (Ne.symm h0), hpos⟩⟩
    · rw [abs_of_pos hpos]; exact hge
    · rw [abs_of_pos hpos]; exact hle

/-- Witness for C5 at `x = -1/2`: bounds and the negative sign. -/
theorem rangeClamp_bounded_sign_witness :
    ((-1 / 2 : ℝ) ≠ 0) ∧ ((-1 / 2 : ℝ) < 0 ∧ rangeClamp (-1 / 2 : ℝ) < 0) := by
  refine ⟨by norm_num, ?_⟩
  rcases (rangeClamp_bounded_sign (-1 / 2)).2 (by norm_num) with h | h
  · exact absurd h.1 (by norm_num)
  · exact h

/-- C6. Range Clamp by cases: in-range values pass through unchanged, values
above `MAX` in magnitude become `sign x * MAX`, nonzero values below `MIN` in
magnitude become `sign x * MIN`, and zero becomes `+MIN`. -/
theorem rangeClamp_cases (x : ℝ) :
    ((MIN_VALUE ≤ |x| ∧ |x| ≤ MAX_VALUE) → rangeClamp x = x) ∧
      (MAX_VALUE < |x| → rangeClamp x = SignType.sign x * MAX_VALUE) ∧
      ((0 < |x| ∧ |x| < MIN_VALUE) → rangeClamp x = SignType.sign x * MIN_VALUE) ∧
      rangeClamp (0 : ℝ) = MIN_VALUE := by
  have hmin := MIN_VALUE_pos (α := ℝ)
  have hmm := MIN_VALUE_le_MAX_VALUE (α := ℝ)
  refine ⟨?_, ?_, ?_, ?_⟩
  · rintro ⟨h1, h2⟩
    rcases lt_or_le x 0 with hx | hx
    · rw [abs_of_neg hx] at h1 h2
      rw [rangeClamp_neg x hx, min_eq_left (by linarith), max_eq_right (by linarith)]
    · rw [abs_of_nonneg hx] at h1 h2
      rw [rangeClamp_nonneg x hx, max_eq_left h1, min_eq_right h2]
  · intro h
    rcases lt_or_le x 0 with hx | hx
    · rw [abs_of_neg hx] at h
      rw [rangeClamp_neg x hx, min_eq_left (by linarith), max_eq_left (by linarith),
        sign_neg hx]
      simp
    · rw [abs_of_nonneg hx] at h
      have hx0 : 0 < x := by linarith
      rw [rangeClamp_nonneg x hx, max_eq_left (by linarith), min_eq_left (le_of_lt h),
        sign_pos hx0]
      simp
  · rintro ⟨h0, h⟩
    rcases lt_or_le x 0 with hx | hx
    · rw [abs_of_neg hx] at h
      rw [rangeClamp_neg x hx, min_eq_right (by linarith), max_eq_right (by linarith),
        sign_neg hx]
      simp
    · rw [abs_of_nonneg hx] at h
      have hx0 : 0 < x := lt_of_le_of_ne hx (fun e => by rw [← e] at h0; simp at h0)
      rw [rangeClamp_nonneg x hx, max_eq_right (le_of_lt h), min_eq_right hmm,
        sign_pos hx0]
      simp
  · rw [rangeClamp_nonneg 0 le_rfl, max_eq_right (le_of_lt hmin), min_eq_right hmm]

/-- Witness for C6: the value `2` is in range and passes through, `-10^31`
is clamped to `-MAX`. -/
theorem rangeClamp_cases_witness :
    rangeClamp (2 : ℝ) = 2 ∧ rangeClamp (-(10 : ℝ) ^ 31) = SignType.sign (-(10 : ℝ) ^ 31) * MAX_VALUE := by
  refine ⟨(rangeClamp_cases 2).1 ?_, (rangeClamp_cases (-(10 : ℝ) ^ 31)).2.1 ?_⟩
  · rw [abs_of_pos (by norm_num : (0 : ℝ) < 2)]
    unfold MIN_VALUE MAX_VALUE
    constructor <;> norm_num
  · rw [abs_neg, abs_of_pos (by positivity : (0 : ℝ) < 10 ^ 31)]
    unfold MAX_VALUE
    norm_num

/-- C7. Range Clamp is monotonic: `x ≤ y` implies `clamp x ≤ clamp y`. -/
theorem rangeClamp_monotone (x y : ℝ) (hxy : x ≤ y) : rangeClamp x ≤ rangeClamp y := by
  have hmin := MIN_VALUE_pos (α := ℝ)
  have hmm := MIN_VALUE_le_MAX_VALUE (α := ℝ)
  rcases lt_or_le x 0 with hx | hx
  · rcases lt_or_le y 0 with hy | hy
    · rw [rangeClamp_neg x hx, rangeClamp_neg y hy]
      exact max_le_max le_rfl (min_le_min hxy le_rfl)
    · have h1 : rangeClamp x ≤ -MIN_VALUE := by
        rw [rangeClamp_neg x hx]
        exact max_le (by linarith) (min_le_right _ _)
      have h2 : MIN_VALUE ≤ rangeClamp y := by
        rw [rangeClamp_nonneg y hy]
        exact le_min hmm (le_max_right _ _)
      linarith
  · have hy : 0 ≤ y := hx.trans hxy
    rw [rangeClamp_nonneg x hx, rangeClamp_nonneg y hy]
    exact min_le_min le_rfl (max_le_max hxy le_rfl)

/-- Witness for C7 at `x = -1`, `y = 0`: the clamp takes `-1` to itself and
`0` to `MIN`. -/
theorem rangeClamp_monotone_witness :
    ((-1 : ℝ) ≤ 0) ∧ rangeClamp (-1 : ℝ) ≤ rangeClamp (0 : ℝ) :=
  ⟨by norm_num, rangeClamp_monotone (-1) 0 (by norm_num)⟩

/-! ## Exponent repair -/

theorem cstr_append (p r : List Char) :
    cstr (p ++ r) = if p.all (fun c => c != NUL) then p ++ cstr r else cstr p := by
  induction p with
  | nil => simp [cstr]
  | cons c p ih =>
    unfold cstr at ih ⊢
    by_cases hc : (c != NUL) = true
    · simp only [List.cons_append, List.takeWhile_cons, hc, List.all_cons, Bool.true_and, if_true]
      rw [ih]
      split <;> rfl
    · simp only [List.cons_append, List.takeWhile_cons, hc, List.all_cons, Bool.false_and]
      rfl

/-- The bytes `correctE` leaves in a buffer of at least 14 bytes. -/
theorem correctE_ok (f f' : List Char) (h : correctE f = .ok f') :
    strchr (f.drop 1) '-' = true ∧
      f' = f.take 8 ++ ("E-100".toList ++ NUL :: f.drop 14) := by
  unfold correctE at h
  split at h
  · rename_i hs
    refine ⟨hs, ?_⟩
    injection h with h
    rw [← h]
    have : cstr "E-100".toList = "E-100".toList := by decide
    simp only [strncpy, EXP_START, this]
    simp [List.drop_drop]
  · cases h

theorem strchr_dash_after_correctE (f : List Char) (hlen : 8 ≤ f.length)
    (h : strchr (f.drop 1) '-' = true) (t : List Char) :
    strchr ((f.take 8 ++ ("E-100".toList ++ t)).drop 1) '-' = true := by
  obtain ⟨c, p, hp⟩ : ∃ c p, f.take 8 = c :: p := by
    cases hf : f.take 8 with
    | nil =>
      have := congrArg List.length hf
      simp only [List.length_take, List.length_nil] at this
      omega
    | cons c p => exact ⟨c, p, rfl⟩
  have hf : f = c :: (p ++ f.drop 8) := by
    rw [← List.cons_append, ← hp, List.take_append_drop]
  rw [hp]
  rw [hf] at h
  simp only [List.cons_append, List.drop_succ_cons, List.drop_zero, strchr] at h ⊢
  rw [cstr_append] at h ⊢
  split
  · have hd : '-' ∈ cstr ('E' :: '-' :: '1' :: '0' :: '0' :: t) := by
      simp [cstr, List.takeWhile_cons, show ('E' != NUL) = true by decide,
        show ('-' != NUL) = true by decide]
    simp [hd]
  · rename_i hall
    rw [if_neg hall] at h
    exact h

/-- Running `correctE` on its own result changes nothing. -/
theorem correctE_fixed (f f' : List Char) (hlen : f.length = NUM_CHARS)
    (h : correctE f = .ok f') : correctE f' = .ok f' := by
  obtain ⟨hs, hf'⟩ := correctE_ok f f' h
  have hlen8 : 8 ≤ f.length := by rw [hlen]; decide
  have hs' : strchr (f'.drop 1) '-' = true := by
    rw [hf']
    exact strchr_dash_after_correctE f hlen8 hs _
  have ht : (f.take 8).length = 8 := by simp; omega
  unfold correctE
  rw [if_pos hs']
  have hc : cstr "E-100".toList = "E-100".toList := by decide
  simp only [strncpy, EXP_START, hc]
  subst hf'
  have e1 : (f.take 8 ++ ("E-100".toList ++ NUL :: f.drop 14)).take (9 - 1) = f.take 8 := by
    rw [List.take_append_of_le_length (by rw [ht])]
    simp
  have e2 : (f.take 8 ++ ("E-100".toList ++ NUL :: f.drop 14)).drop (9 - 1) =
      "E-100".toList ++ NUL :: f.drop 14 := by
    rw [show 9 - 1 = (f.take 8).length by rw [ht]]
    exact List.drop_left _ _
  rw [e1, e2]
  simp

/-- C8. Exponent Repair is idempotent-safe: a field (a `NUM_CHARS` buffer)
whose text already contains the marker `E` is returned unchanged, and
repairing a repaired field returns it unchanged. -/
theorem repair_idempotent (f f' : List Char) (hlen : f.length = NUM_CHARS) :
    (strchr f 'E' = true → repair f = .ok f) ∧
      (repair f = .ok f' → repair f' = .ok f') := by
  constructor
  · intro hE
    unfold repair
    rw [if_pos hE]
  · intro h
    unfold repair at h
    split at h
    · rename_i hE
      injection h with h
      subst h
      unfold repair
      rw [if_pos hE]
    · have hfix := correctE_fixed f f' hlen h
      unfold repair
      split
      · rfl
      · exact hfix

/-- Witness for C8: the field `1.234567-100` is repaired once, and repairing
the result again returns it unchanged. -/
theorem repair_idempotent_witness :
    ("1.234567-100".toList ++ [NUL, NUL, NUL]).length = NUM_CHARS ∧
      repair ("1.234567E-100".toList ++ [NUL, NUL]) =
        .ok ("1.234567E-100".toList ++ [NUL, NUL]) :=
  ⟨by decide,
    (repair_idempotent ("1.234567-100".toList ++ [NUL, NUL, NUL])
      ("1.234567E-100".toList ++ [NUL, NUL]) (by decide)).2 rfl⟩

theorem cstr_all_ne (f : List Char) : (cstr f).all (fun c => c != NUL) = true := by
  rw [List.all_eq_true]
  intro c hc
  unfold cstr at hc
  exact List.mem_takeWhile_imp (p := fun c => c != NUL) hc

theorem take_cstr_length (f : List Char) : f.take (cstr f).length = cstr f := by
  have h : f = cstr f ++ f.dropWhile (fun c => c != NUL) := by
    unfold cstr
    exact (List.takeWhile_append_dropWhile _ f).symm
  have := List.take_left (cstr f) (f.dropWhile (fun c => c != NUL))
  rwa [← h] at this

/-- Text of a repaired fixed-width field that had no marker. -/
theorem repair_text (f f' : List Char) (hw : (cstr f).length = NUM_DISP_CHARS)
    (hE : strchr f 'E' = false) (h : repair f = .ok f') :
    strchr f' 'E' = true ∧ "E-100".toList <:+ cstr f' ∧
      cstr f' = (cstr f).take 8 ++ "E-100".toList := by
  unfold repair at h
  rw [hE] at h
  simp only [Bool.false_eq_true, if_false] at h
  obtain ⟨-, hf'⟩ := correctE_ok f f' h
  have h12 : f.take 12 = cstr f := by
    have := take_cstr_length f
    rwa [hw] at this
  have h8 : f.take 8 = (cstr f).take 8 := by
    rw [← h12, List.take_take]
    rfl
  have hall : (f.take 8).all (fun c => c != NUL) = true := by
    rw [h8, List.all_eq_true]
    intro c hc
    exact (List.all_eq_true.mp (cstr_all_ne f)) c (List.mem_of_mem_take hc)
  have hc : cstr f' = (cstr f).take 8 ++ "E-100".toList := by
    rw [hf', cstr_append, if_pos hall, cstr_append,
      if_pos (by decide : ("E-100".toList).all (fun c => c != NUL) = true), h8]
    simp [cstr, NUL]
  refine ⟨?_, ?_, hc⟩
  · unfold strchr
    rw [hc]
    simp
  · rw [hc]
    exact List.suffix_append _ _

/-- C9. For a fixed-width field (a `NUM_CHARS` buffer holding
`NUM_DISP_CHARS` characters of text) that lacks the marker `E` and on which
Exponent Repair returns, the returned text contains the marker and ends in
`E-100`: it is the first eight characters of the field followed by `E-100`. -/
theorem repair_markerless (f f' : List Char) (_hlen : f.length = NUM_CHARS)
    (hw : (cstr f).length = NUM_DISP_CHARS) (hE : strchr f 'E' = false)
    (h : repair f = .ok f') :
    strchr f' 'E' = true ∧ "E-100".toList <:+ cstr f' ∧
      cstr f' = (cstr f).take 8 ++ "E-100".toList :=
  repair_text f f' hw hE h

/-- Witness for C9: the markerless field `-9.87654-100`. -/
theorem repair_markerless_witness :
    repair ("-9.87654-100".toList ++ [NUL, NUL, NUL]) =
        .ok ("-9.87654E-100".toList ++ [NUL, NUL]) ∧
      cstr ("-9.87654E-100".toList ++ [NUL, NUL]) =
        (cstr ("-9.87654-100".toList ++ [NUL, NUL, NUL])).take 8 ++ "E-100".toList :=
  ⟨rfl,
    (repair_markerless ("-9.87654-100".toList ++ [NUL, NUL, NUL])
      ("-9.87654E-100".toList ++ [NUL, NUL]) (by decide) (by decide) (by decide)
      rfl).2.2⟩

/-! ## The scratch buffers -/

theorem cstr_nul_tail (P t : List Char) :
    cstr (P ++ NUL :: t) = if P.all (fun c => c != NUL) then P else cstr P := by
  rw [cstr_append]
  have : cstr (NUL :: t) = [] := by simp [cstr]
  rw [this, List.append_nil]

/-- The text that exponent repair leaves does not depend on the bytes that
follow the terminator of the extracted field. -/
theorem repair_text_tail (P t t' : List Char) (hP : P.length = 12) (ht : t.length = 2)
    (ht' : t'.length = 2) :
    (repair (P ++ NUL :: t)).map cstr = (repair (P ++ NUL :: t')).map cstr := by
  obtain ⟨c, Q, rfl⟩ : ∃ c Q, P = c :: Q := by
    cases P with
    | nil => cases hP
    | cons c Q => exact ⟨c, Q, rfl⟩
  have hE : strchr (c :: Q ++ NUL :: t) 'E' = strchr (c :: Q ++ NUL :: t') 'E' := by
    unfold strchr
    rw [cstr_nul_tail, cstr_nul_tail]
  have hD : strchr ((c :: Q ++ NUL :: t).drop 1) '-' =
      strchr ((c :: Q ++ NUL :: t').drop 1) '-' := by
    simp only [List.cons_append, List.drop_succ_cons, List.drop_zero]
    unfold strchr
    rw [cstr_nul_tail, cstr_nul_tail]
  have htake : ∀ u : List Char, (c :: Q ++ NUL :: u).take 8 = (c :: Q).take 8 := by
    intro u
    rw [List.take_append_of_le_length (by rw [hP]; decide)]
  have hdrop : ∀ u : List Char, u.length = 2 →
      ∃ x, (c :: Q ++ NUL :: u).drop 14 = [x] := by
    intro u hu
    match u, hu with
    | [x, y], _ =>
      refine ⟨y, ?_⟩
      have : (c :: Q ++ NUL :: [x, y]) = (c :: Q ++ [NUL, x]) ++ [y] := by simp
      have hQ : Q.length = 11 := by simpa using hP
      rw [this, List.drop_left' (by simp [hQ])]
  have hc : cstr "E-100".toList = "E-100".toList := by decide
  have hres : ∀ u : List Char, u.length = 2 →
      cstr ((c :: Q ++ NUL :: u).take (EXP_START - 1) ++
        strncpy ((c :: Q ++ NUL :: u).drop (EXP_START - 1)) "E-100".toList 6) =
      cstr ((c :: Q).take 8 ++ ("E-100".toList ++ [NUL])) := by
    intro u hu
    obtain ⟨x, hx⟩ := hdrop u hu
    have h14 : ((c :: Q ++ NUL :: u).drop 8).drop 6 = [x] := by
      rw [List.drop_drop]
      exact hx
    simp only [strncpy, EXP_START, hc]
    have e8 : (9 : Nat) - 1 = 8 := rfl
    rw [e8, htake u, h14]
    have : (List.take 6 "E-100".toList ++
        List.replicate (6 - (List.take 6 "E-100".toList).length) NUL) =
        "E-100".toList ++ [NUL] := by decide
    rw [this, List.append_assoc, List.singleton_append, ← List.append_assoc, cstr_nul_tail,
      ← List.append_assoc, cstr_nul_tail]
  unfold repair
  rw [hE]
  split
  · simp only [Except.map]
    rw [cstr_nul_tail, cstr_nul_tail]
  · unfold correctE
    rw [hD]
    split
    · simp only [Except.map]
      rw [hres t ht, hres t' ht']
    · rfl

theorem fieldText_shape (disp mem : List Char) (start : Nat)
    (hdisp : disp.length = NUM_CHARS) :
    ∃ t, t.length = 2 ∧
      fieldText disp mem start =
        ((cstr (mem.drop start)).take 12 ++
          List.replicate (12 - ((cstr (mem.drop start)).take 12).length) NUL) ++ NUL :: t := by
  obtain ⟨a, b, c, hd⟩ : ∃ a b c, disp.drop 12 = [a, b, c] := by
    have h3 : (disp.drop 12).length = 3 := by rw [List.length_drop, hdisp]; rfl
    match hdd : disp.drop 12, h3 with
    | [a, b, c], _ => exact ⟨a, b, c, rfl⟩
  refine ⟨[b, c], rfl, ?_⟩
  unfold fieldText strncpy
  simp only [NUM_DISP_CHARS, hd]
  have hlen : ((cstr (mem.drop start)).take 12 ++
      List.replicate (12 - ((cstr (mem.drop start)).take 12).length) NUL).length = 12 := by
    have : ((cstr (mem.drop start)).take 12).length ≤ 12 := by
      rw [List.length_take]; exact Nat.min_le_left _ _
    rw [List.length_append, List.length_replicate]
    omega
  rw [List.set_append_right _ _ (by rw [hlen]), hlen]
  rfl

theorem extractField_shape (disp buf : List Char) (start : Nat)
    (hdisp : disp.length = NUM_CHARS) (hle : start ≤ buf.length) :
    ∃ t, t.length = 2 ∧
      extractField disp buf start =
        .ok (((cstr (buf.drop start)).take 12 ++
          List.replicate (12 - ((cstr (buf.drop start)).take 12).length) NUL) ++ NUL :: t) := by
  obtain ⟨t, ht, h⟩ := fieldText_shape disp buf start hdisp
  refine ⟨t, ht, ?_⟩
  unfold extractField
  rw [if_pos hle, h]

/-- The value computed for a field does not depend on what the scratch buffer
held before. -/
theorem fieldValue_scratch (disp buf : List Char) (start : Nat)
    (hdisp : disp.length = NUM_CHARS) :
    fieldValue disp buf start = fieldValue scratch buf start := by
  by_cases hle : start ≤ buf.length
  · obtain ⟨t, ht, h1⟩ := extractField_shape disp buf start hdisp hle
    obtain ⟨t', ht', h2⟩ := extractField_shape scratch buf start rfl hle
    have hP : ((cstr (buf.drop start)).take 12 ++
        List.replicate (12 - ((cstr (buf.drop start)).take 12).length) NUL).length = 12 := by
      have : ((cstr (buf.drop start)).take 12).length ≤ 12 := by
        rw [List.length_take]; exact Nat.min_le_left _ _
      rw [List.length_append, List.length_replicate]
      omega
    have key := repair_text_tail _ t t' hP ht ht'
    unfold fieldValue
    rw [h1, h2]
    simp only [bind, Except.bind]
    revert key
    cases repair (((cstr (buf.drop start)).take 12 ++
        List.replicate (12 - ((cstr (buf.drop start)).take 12).length) NUL) ++ NUL :: t) <;>
      cases repair (((cstr (buf.drop start)).take 12 ++
        List.replicate (12 - ((cstr (buf.drop start)).take 12).length) NUL) ++ NUL :: t') <;>
      simp only [Except.map] <;> intro key
    · injection key with key
      rw [key]
    · cases key
    · cases key
    · injection key with key
      rw [key]
  · unfold fieldValue extractField
    rw [if_neg hle, if_neg hle]

/-! ## Decimal literals -/

theorem isDigit_toNat (c : Char) (h : c.isDigit = true) : 48 ≤ c.toNat ∧ c.toNat ≤ 57 := by
  unfold Char.isDigit at h
  simp only [Bool.and_eq_true, decide_eq_true_eq, ge_iff_le] at h
  have h1 := h.1
  have h2 := h.2
  rw [UInt32.le_def] at h1 h2
  simp only [Char.toNat, UInt32.toNat]
  constructor
  · exact h1
  · exact h2

theorem isspace_of_isDigit (c : Char) (h : c.isDigit = true) : isspace c = false := by
  have hd := isDigit_toNat c h
  unfold isspace
  have h1 : (c == ' ') = false := by
    rw [beq_eq_false_iff_ne]
    rintro rfl
    revert hd
    decide
  rw [h1]
  simp only [Bool.false_or, Bool.and_eq_false_imp, decide_eq_true_eq, decide_eq_false_iff_not]
  omega

theorem ne_of_isDigit (c d : Char) (h : c.isDigit = true) (hd : d.isDigit = false) :
    c ≠ d := by
  rintro rfl
  rw [h] at hd
  cases hd

theorem span_stop (p : Char → Bool) (l r : List Char) (hl : ∀ c ∈ l, p c = true)
    (hr : ∀ c r', r = c :: r' → p c = false) :
    (l ++ r).takeWhile p = l ∧ (l ++ r).dropWhile p = r := by
  have ht : r.takeWhile p = [] := by
    cases r with
    | nil => rfl
    | cons c r' => simp [List.takeWhile_cons, hr c r' rfl]
  have hd : r.dropWhile p = r := by
    cases r with
    | nil => rfl
    | cons c r' => simp [List.dropWhile_cons, hr c r' rfl]
  rw [List.takeWhile_append_of_pos hl, List.dropWhile_append_of_pos hl, ht, hd]
  simp

theorem splitSign_of_head (l : List Char)
    (h : ∀ c r, l = c :: r → c ≠ '-' ∧ c ≠ '+') : splitSign l = (false, l) := by
  unfold splitSign
  split
  · exact absurd rfl (h _ _ rfl).1
  · exact absurd rfl (h _ _ rfl).2
  · rfl

theorem tail_head (tl u : List Char)
    (htl : tl = [] ∨ ∃ fp, tl = '.' :: fp ∧ ∀ c ∈ fp, c.isDigit = true) (hu : ExpStop u)
    (c : Char) (r : List Char) (h : tl ++ u = c :: r) : c = '.' ∨ c = 'E' := by
  rcases htl with rfl | ⟨fp, rfl, -⟩
  · rcases hu with rfl | ⟨r', rfl⟩
    · cases h
    · simp only [List.nil_append, List.cons.injEq] at h
      exact Or.inr h.1.symm
  · simp only [List.cons_append, List.cons.injEq] at h
    exact Or.inl h.1.symm

theorem body_head (ip tl u : List Char) (hip : ∀ c ∈ ip, c.isDigit = true)
    (htl : tl = [] ∨ ∃ fp, tl = '.' :: fp ∧ ∀ c ∈ fp, c.isDigit = true) (hu : ExpStop u)
    (c : Char) (r : List Char) (h : ip ++ (tl ++ u) = c :: r) :
    c.isDigit = true ∨ c = '.' ∨ c = 'E' := by
  cases ip with
  | nil => exact Or.inr (tail_head tl u htl hu c r h)
  | cons d ip' =>
    simp only [List.cons_append, List.cons.injEq] at h
    rw [← h.1]
    exact Or.inl (hip d (List.mem_cons_self _ _))

theorem isSpecial_body (ip tl u : List Char) (hip : ∀ c ∈ ip, c.isDigit = true)
    (htl : tl = [] ∨ ∃ fp, tl = '.' :: fp ∧ ∀ c ∈ fp, c.isDigit = true) (hu : ExpStop u) :
    isSpecial (ip ++ (tl ++ u)) = false := by
  have key : ∀ c : Char, (c.isDigit = true ∨ c = '.' ∨ c = 'E') →
      (c == 'i') = false ∧ (c == 'I') = false ∧ (c == 'n') = false ∧ (c == 'N') = false ∧
        (c == 'x') = false ∧ (c == 'X') = false := by
    intro c hc
    rcases hc with hc | rfl | rfl
    · refine ⟨?_, ?_, ?_, ?_, ?_, ?_⟩ <;>
        exact beq_eq_false_iff_ne.mpr (ne_of_isDigit c _ hc (by decide))
    · decide
    · decide
  cases hl : ip ++ (tl ++ u) with
  | nil => rfl
  | cons c r =>
    have hc := key c (body_head ip tl u hip htl hu c r hl)
    cases r with
    | nil => simp [isSpecial, hc.1, hc.2.1, hc.2.2.1, hc.2.2.2.1]
    | cons x r' =>
      have hx : (c == '0') = true → (x.isDigit = true ∨ x = '.' ∨ x = 'E') := by
        intro h0
        cases ip with
        | nil =>
          have := tail_head tl u htl hu c (x :: r') hl
          rcases this with rfl | rfl <;> exact absurd h0 (by decide)
        | cons d ip' =>
          simp only [List.cons_append, List.cons.injEq] at hl
          exact body_head ip' tl u (fun a ha => hip a (List.mem_cons_of_mem _ ha)) htl hu x r' hl.2
      by_cases h0 : (c == '0') = true
      · have hx' := key x (hx h0)
        simp [isSpecial, hc.1, hc.2.1, hc.2.2.1, hc.2.2.2.1, hx'.2.2.2.2.1, hx'.2.2.2.2.2]
      · simp [isSpecial, hc.1, hc.2.1, hc.2.2.1, hc.2.2.2.1, h0]

theorem atof_decimal (ws sg ip tl u : List Char) (hws : ∀ c ∈ ws, isspace c = true)
    (hsg : sg = [] ∨ sg = ['-'] ∨ sg = ['+']) (hip : ∀ c ∈ ip, c.isDigit = true)
    (htl : tl = [] ∨ ∃ fp, tl = '.' :: fp ∧ ∀ c ∈ fp, c.isDigit = true) (hu : ExpStop u) :
    atof (ws ++ (sg ++ (ip ++ (tl ++ u)))) =
      .ok (if ip.isEmpty && (tl.drop 1).isEmpty then 0
        else (if sg = ['-'] then -1 else 1) *
          ((digitsVal (ip ++ tl.drop 1) : ℚ) / 10 ^ (tl.drop 1).length) * 10 ^ parseExp u) := by
  have hbody : ∀ c r, ip ++ (tl ++ u) = c :: r → isspace c = false ∧ c ≠ '-' ∧ c ≠ '+' := by
    intro c r h
    rcases body_head ip tl u hip htl hu c r h with hc | rfl | rfl
    · exact ⟨isspace_of_isDigit c hc, ne_of_isDigit c _ hc (by decide),
        ne_of_isDigit c _ hc (by decide)⟩
    · decide
    · decide
  have hA : (ws ++ (sg ++ (ip ++ (tl ++ u)))).dropWhile isspace = sg ++ (ip ++ (tl ++ u)) := by
    refine (span_stop isspace ws _ hws ?_).2
    intro c r h
    rcases hsg with rfl | rfl | rfl
    · exact (hbody c r h).1
    · simp only [List.cons_append, List.nil_append, List.cons.injEq] at h
      rw [← h.1]; decide
    · simp only [List.cons_append, List.nil_append, List.cons.injEq] at h
      rw [← h.1]; decide
  have hB : splitSign (sg ++ (ip ++ (tl ++ u))) = (decide (sg = ['-']), ip ++ (tl ++ u)) := by
    rcases hsg with rfl | rfl | rfl
    · rw [List.nil_append, splitSign_of_head _ (fun c r h => (hbody c r h).2)]
      rfl
    · rfl
    · rfl
  have hC := isSpecial_body ip tl u hip htl hu
  have hD := span_stop Char.isDigit ip (tl ++ u) hip (by
    intro c r h
    rcases tail_head tl u htl hu c r h with rfl | rfl <;> decide)
  have hE : (match tl ++ u with
      | '.' :: r => r.takeWhile Char.isDigit
      | _ => []) = tl.drop 1 ∧
      (match tl ++ u with
      | '.' :: r => r.dropWhile Char.isDigit
      | _ => tl ++ u) = u := by
    rcases htl with rfl | ⟨fp, rfl, hfp⟩
    · rcases hu with rfl | ⟨r, rfl⟩
      · exact ⟨rfl, rfl⟩
      · exact ⟨rfl, rfl⟩
    · have := span_stop Char.isDigit fp u hfp (by
        intro c r h
        rcases hu with rfl | ⟨r', rfl⟩
        · cases h
        · simp only [List.cons.injEq] at h
          rw [← h.1]; decide)
      exact ⟨this.1, this.2⟩
  unfold atof
  rw [hA, hB]
  simp only [hC, hD.1, hD.2, hE.1, hE.2, Bool.false_eq_true, if_false]
  split
  · rfl
  · by_cases hs : sg = ['-'] <;> simp [hs]

/-! ## The scenario of a field with a missing marker -/

theorem rangeClamp_small (q : ℚ) (h0 : q ≠ 0) (hq : |q| < MIN_VALUE) :
    rangeClamp q = (SignType.sign q : ℚ) * MIN_VALUE := by
  have hmin := MIN_VALUE_pos (α := ℚ)
  have hmm := MIN_VALUE_le_MAX_VALUE (α := ℚ)
  rcases lt_or_le q 0 with hx | hx
  · rw [abs_of_neg hx] at hq
    rw [rangeClamp_neg q hx, min_eq_right (by linarith), max_eq_right (by linarith),
      sign_neg hx]
    simp
  · rw [abs_of_nonneg hx] at hq
    have hx0 : 0 < q := lt_of_le_of_ne hx (Ne.symm h0)
    rw [rangeClamp_nonneg q hx, max_eq_right (le_of_lt hq), min_eq_right hmm, sign_pos hx0]
    simp

theorem mantissa_chars (s : List Char) (h : DecimalMantissa s) :
    ∀ c ∈ s, c ≠ NUL ∧ c ≠ 'E' := by
  obtain ⟨ws, sg, ip, tl, rfl, hws, hsg, hip, htl⟩ := h
  have hdig : ∀ c : Char, c.isDigit = true → c ≠ NUL ∧ c ≠ 'E' := fun c hc =>
    ⟨ne_of_isDigit c _ hc (by decide), ne_of_isDigit c _ hc (by decide)⟩
  intro c hc
  simp only [List.mem_append] at hc
  rcases hc with hc | hc | hc | hc
  · have := hws c hc
    constructor <;> (rintro rfl; revert this; decide)
  · rcases hsg with rfl | rfl | rfl
    · cases hc
    · simp only [List.mem_singleton] at hc
      subst hc; decide
    · simp only [List.mem_singleton] at hc
      subst hc; decide
  · exact hdig c (hip c hc)
  · rcases htl with rfl | ⟨fp, rfl, hfp⟩
    · cases hc
    · simp only [List.mem_cons] at hc
      rcases hc with rfl | hc
      · decide
      · exact hdig c (hfp c hc)

/-- The buffer that the field extraction leaves when the line holds a full
field `F` of `NUM_DISP_CHARS` characters at column `start`. -/
theorem extractField_full (disp buf F : List Char) (start : Nat)
    (hdisp : disp.length = NUM_CHARS)
    (hF : (buf.drop start).take NUM_DISP_CHARS = F) (hlen : F.length = NUM_DISP_CHARS)
    (hnul : ∀ c ∈ F, c ≠ NUL) :
    extractField disp buf start = .ok (F ++ NUL :: disp.drop 13) := by
  have hle : start ≤ buf.length := by
    by_contra hcon
    have : buf.drop start = [] := List.drop_eq_nil_of_le (by omega)
    rw [this] at hF
    rw [← hF] at hlen
    simp [NUM_DISP_CHARS] at hlen
  have hall : F.all (fun c => c != NUL) = true := by
    rw [List.all_eq_true]
    intro c hc
    simpa using hnul c hc
  have hsplit : buf.drop start = F ++ (buf.drop start).drop NUM_DISP_CHARS := by
    rw [← hF, List.take_append_drop]
  have hs : (cstr (buf.drop start)).take NUM_DISP_CHARS = F := by
    rw [hsplit, cstr_append, if_pos hall, ← hlen]
    exact List.take_left _ _
  unfold extractField fieldText
  rw [if_pos hle]
  congr 1
  unfold strncpy
  simp only [hs, hlen, Nat.sub_self, List.replicate_zero, List.append_nil]
  obtain ⟨a, b, c, hd⟩ : ∃ a b c, disp = List.take 12 disp ++ [a, b, c] := by
    have h3 : (disp.drop 12).length = 3 := by rw [List.length_drop, hdisp]; rfl
    match hdd : disp.drop 12, h3 with
    | [a, b, c], _ => exact ⟨a, b, c, by rw [← hdd, List.take_append_drop]⟩
  have h12 : (List.take 12 disp).length = 12 := by
    rw [List.length_take, hdisp]; rfl
  have e1 : disp.drop NUM_DISP_CHARS = [a, b, c] := by
    conv_lhs => rw [hd]
    rw [show NUM_DISP_CHARS = (List.take 12 disp).length from h12.symm]
    exact List.drop_left _ _
  have e2 : disp.drop 13 = [b, c] := by
    conv_lhs => rw [hd]
    rw [show 13 = (List.take 12 disp).length + 1 by rw [h12], ← List.drop_drop]
    rw [List.drop_left]
    rfl
  rw [e1, e2]
  rw [show NUM_DISP_CHARS = F.length + 0 by rw [hlen]; rfl, List.set_append_right _ _ (by omega)]
  simp

/-- A nonzero mantissa of at most eight characters is at least `1e-8` in
magnitude. -/
theorem mantissa_lower (mant : List Char) (m : ℚ) (hmant : DecimalMantissa mant)
    (hm : atof mant = .ok m) (hm0 : m ≠ 0) (hlen : mant.length ≤ 8) :
    1 / 10 ^ 8 ≤ |m| := by
  obtain ⟨ws, sg, ip, tl, rfl, hws, hsg, hip, htl⟩ := hmant
  have h0 := atof_decimal ws sg ip tl [] hws hsg hip htl (Or.inl rfl)
  simp only [List.append_nil] at h0
  rw [h0] at hm
  injection hm with hm
  have hp0 : parseExp [] = 0 := rfl
  rw [hp0] at hm
  split at hm
  · exact absurd hm.symm hm0
  · have hk : (tl.drop 1).length ≤ 8 := by
      simp only [List.length_append] at hlen
      rw [List.length_drop]
      omega
    have hD : digitsVal (ip ++ tl.drop 1) ≠ 0 := by
      intro hz
      rw [hz] at hm
      simp at hm
      exact hm0 hm.symm
    have hD1 : (1 : ℚ) ≤ (digitsVal (ip ++ tl.drop 1) : ℚ) := by
      exact_mod_cast Nat.one_le_iff_ne_zero.mpr hD
    have hs : |(if sg = ['-'] then (-1 : ℚ) else 1)| = 1 := by
      split <;> simp
    rw [← hm, abs_mul, abs_mul, zpow_zero, abs_one, mul_one, hs, one_mul, abs_div,
      abs_of_nonneg (by positivity), abs_of_pos (by positivity)]
    calc (1 : ℚ) / 10 ^ 8 ≤ 1 / 10 ^ (tl.drop 1).length :=
          one_div_le_one_div_of_le (by positivity) (pow_le_pow_right₀ (by norm_num) hk)
      _ ≤ (digitsVal (ip ++ tl.drop 1) : ℚ) / 10 ^ (tl.drop 1).length :=
          div_le_div_of_nonneg_right hD1 (by positivity)

theorem flushToZero_of_lt (q : ℚ) (h : 1 / 2 ^ 1075 < |q|) : flushToZero q = q := by
  unfold flushToZero
  rw [if_neg (not_le.mpr h)]

theorem atof_mantissa_E100 (mant : List Char) (m : ℚ) (hmant : DecimalMantissa mant)
    (hm : atof mant = .ok m) (hm0 : m ≠ 0) :
    atof (mant ++ "E-100".toList) = .ok (m * 10 ^ (-100 : Int)) := by
  obtain ⟨ws, sg, ip, tl, rfl, hws, hsg, hip, htl⟩ := hmant
  have h0 := atof_decimal ws sg ip tl [] hws hsg hip htl (Or.inl rfl)
  have h1 := atof_decimal ws sg ip tl "E-100".toList hws hsg hip htl (Or.inr ⟨_, rfl⟩)
  simp only [List.append_nil] at h0
  rw [h0] at hm
  injection hm with hm
  have hp0 : parseExp [] = 0 := rfl
  have hp1 : parseExp "E-100".toList = -100 := by decide
  rw [hp0] at hm
  rw [hp1] at h1
  simp only [List.append_assoc]
  rw [h1]
  congr 1
  split at hm
  · exact absurd hm.symm hm0
  · rename_i hne
    rw [if_neg hne, ← hm]
    simp

/-- C10. For a 12-character field at column `start` of a line, made of an
8-character decimal mantissa of nonzero value `m` with `|m| < 1e70`, then `-`
and three digits (no marker `E`): Exponent Repair returns the mantissa
followed by `E-100`, and the value computed for the field after `atof` and
Range Clamp is `MIN` in magnitude with the sign of `m`. -/
theorem missing_marker_scenario (disp buf mant : List Char) (d1 d2 d3 : Char)
    (start : Nat) (m : ℚ) (hdisp : disp.length = NUM_CHARS)
    (hfield : (buf.drop start).take NUM_DISP_CHARS = mant ++ ['-', d1, d2, d3])
    (hmlen : mant.length = 8) (hmant : DecimalMantissa mant)
    (hd1 : d1.isDigit = true) (hd2 : d2.isDigit = true) (hd3 : d3.isDigit = true)
    (hm : atof mant = .ok m) (hm0 : m ≠ 0) (hmb : |m| < 10 ^ 70) :
    (∃ d d', extractField disp buf start = .ok d ∧ repair d = .ok d' ∧
        cstr d' = mant ++ "E-100".toList) ∧
      fieldValue disp buf start = .ok ((SignType.sign m : ℚ) * MIN_VALUE) := by
  have hdig : ∀ c : Char, c.isDigit = true → c ≠ NUL ∧ c ≠ 'E' := fun c hc =>
    ⟨ne_of_isDigit c _ hc (by decide), ne_of_isDigit c _ hc (by decide)⟩
  have hchars : ∀ c ∈ mant ++ ['-', d1, d2, d3], c ≠ NUL ∧ c ≠ 'E' := by
    intro c hc
    simp only [List.mem_append, List.mem_cons, List.mem_singleton, List.not_mem_nil,
      or_false] at hc
    rcases hc with hc | rfl | rfl | rfl | rfl
    · exact mantissa_chars mant hmant c hc
    · decide
    · exact hdig _ hd1
    · exact hdig _ hd2
    · exact hdig _ hd3
  have hFlen : (mant ++ ['-', d1, d2, d3]).length = NUM_DISP_CHARS := by
    rw [List.length_append, hmlen]; rfl
  have hext := extractField_full disp buf _ start hdisp hfield hFlen
    (fun c hc => (hchars c hc).1)
  have hall : (mant ++ ['-', d1, d2, d3]).all (fun c => c != NUL) = true := by
    rw [List.all_eq_true]
    intro c hc
    simpa using (hchars c hc).1
  have hcs : cstr (mant ++ ['-', d1, d2, d3] ++ NUL :: disp.drop 13) =
      mant ++ ['-', d1, d2, d3] := by
    rw [cstr_append, if_pos hall]
    simp [cstr]
  have hE : strchr (mant ++ ['-', d1, d2, d3] ++ NUL :: disp.drop 13) 'E' = false := by
    unfold strchr
    rw [hcs]
    simp only [List.contains_eq_any_beq, List.any_eq_false, beq_iff_eq]
    intro c hc heq
    exact (hchars c hc).2 heq.symm
  obtain ⟨c0, mant', hm'⟩ : ∃ c0 mant', mant = c0 :: mant' := by
    cases mant with
    | nil => cases hmlen
    | cons c0 mant' => exact ⟨c0, mant', rfl⟩
  have hdash : strchr ((mant ++ ['-', d1, d2, d3] ++ NUL :: disp.drop 13).drop 1) '-' = true := by
    have hall' : (mant' ++ ['-', d1, d2, d3]).all (fun c => c != NUL) = true := by
      rw [List.all_eq_true]
      intro c hc
      have : c ∈ mant ++ ['-', d1, d2, d3] := by
        rw [hm']; exact List.mem_cons_of_mem _ hc
      simpa using (hchars c this).1
    rw [hm']
    simp only [List.cons_append, List.drop_succ_cons, List.drop_zero, strchr]
    rw [cstr_append, if_pos hall']
    simp
  obtain ⟨d', hrep⟩ : ∃ d', repair (mant ++ ['-', d1, d2, d3] ++ NUL :: disp.drop 13) = .ok d' := by
    unfold repair correctE
    rw [hE, if_pos hdash]
    exact ⟨_, rfl⟩
  have htext := (repair_text _ d' (by rw [hcs]; exact hFlen) hE hrep).2.2
  rw [hcs, ← hmlen, List.take_left] at htext
  have hatof := atof_mantissa_E100 mant m hmant hm hm0
  have hsmall : |m * 10 ^ (-100 : Int)| < (MIN_VALUE : ℚ) := by
    rw [abs_mul, abs_of_pos (by positivity : (0 : ℚ) < 10 ^ (-100 : Int))]
    calc |m| * 10 ^ (-100 : Int) < 10 ^ 70 * 10 ^ (-100 : Int) :=
          mul_lt_mul_of_pos_right hmb (by positivity)
      _ = MIN_VALUE := by unfold MIN_VALUE; norm_num
  have hne : m * 10 ^ (-100 : Int) ≠ 0 := mul_ne_zero hm0 (by positivity)
  have hsign : SignType.sign (m * 10 ^ (-100 : Int)) = SignType.sign m := by
    rw [sign_mul, sign_pos (by positivity : (0 : ℚ) < 10 ^ (-100 : Int)), mul_one]
  have hlow := mantissa_lower mant m hmant hm hm0 (le_of_eq hmlen)
  have hflush : flushToZero (m * 10 ^ (-100 : Int)) = m * 10 ^ (-100 : Int) := by
    apply flushToZero_of_lt
    rw [abs_mul, abs_of_pos (by positivity : (0 : ℚ) < 10 ^ (-100 : Int))]
    calc (1 : ℚ) / 2 ^ 1075 < 1 / 10 ^ 8 * 10 ^ (-100 : Int) := by norm_num
      _ ≤ |m| * 10 ^ (-100 : Int) := mul_le_mul_of_nonneg_right hlow (by positivity)
  refine ⟨⟨_, d', hext, hrep, htext⟩, ?_⟩
  unfold fieldValue
  rw [hext]
  simp only [bind, Except.bind, hrep, htext, hatof, pure, Except.pure]
  rw [hflush, rangeClamp_small _ hne hsmall, hsign]

/-- Witness for C10: the y-field `-1.23456-100` of a data line. -/
theorem missing_marker_scenario_witness :
    atof "-1.23456".toList = .ok (-3858 / 3125) ∧
      fieldValue (List.replicate 15 NUL)
          "         1 1.23456E-05-1.23456-100 0.00000E+00\n".toList 22 =
        .ok ((SignType.sign (-3858 / 3125 : ℚ) : ℚ) * MIN_VALUE) := by
  have hm : atof "-1.23456".toList = .ok (-3858 / 3125) := by
    have h := atof_decimal [] ['-'] ['1'] ".23456".toList [] (by simp) (by simp)
      (by decide) (Or.inr ⟨_, rfl, by decide⟩) (Or.inl rfl)
    have hv : digitsVal (['1'] ++ (".23456".toList).drop 1) = 123456 := by decide
    have hp0 : parseExp [] = 0 := rfl
    rw [hv, hp0] at h
    rw [show "-1.23456".toList = [] ++ (['-'] ++ (['1'] ++ (".23456".toList ++ []))) from rfl, h]
    norm_num
  exact ⟨hm,
    (missing_marker_scenario (List.replicate 15 NUL)
      "         1 1.23456E-05-1.23456-100 0.00000E+00\n".toList "-1.23456".toList
      '1' '0' '0' 22 (-3858 / 3125) (by decide) (by decide) (by decide)
      ⟨[], ['-'], ['1'], ".23456".toList, rfl, by simp, by simp, by decide,
        Or.inr ⟨_, rfl, by decide⟩⟩
      (by decide) (by decide) (by decide) hm (by norm_num)
      (by rw [abs_lt]; constructor <;> norm_num)).2⟩

/-! ## Discovery pass -/

theorem strstr_iff (hay needle : List Char) : strstr hay needle = true ↔ needle <:+: hay := by
  induction hay with
  | nil =>
    unfold strstr
    rw [List.infix_nil, List.isEmpty_iff]
  | cons c cs ih =>
    unfold strstr
    rw [Bool.or_eq_true, ih, List.infix_cons_iff, List.isPrefixOf_iff_prefix]

theorem grepCount_eq (lines : List Line) :
    grepCount lines = (lines.filter (fun l => decide ("nodal".toList <:+: l))).length := by
  unfold grepCount
  rw [List.countP_eq_length_filter]
  congr 2
  funext l
  unfold hasNodal
  rw [Bool.eq_iff_iff, strstr_iff]
  simp

theorem convertStep_out (fuel : Nat) (legacyNodes : Bool) (numNodes timestepCount : Int)
    (s : Conv) (buf : Line) :
    ∃ more, (convertStep fuel legacyNodes numNodes timestepCount s buf).out = s.out ++ more := by
  unfold convertStep
  split
  · exact ⟨[], by simp⟩
  · split
    · split
      · exact ⟨[], by simp⟩
      · split
        · split
          · exact ⟨_, rfl⟩
          · exact ⟨[], by simp⟩
        · exact ⟨[], by simp⟩
    · split
      · split
        · exact ⟨[], by simp⟩
        · split
          · exact ⟨_, rfl⟩
          · exact ⟨[], by simp⟩
      · exact ⟨[], by simp⟩

theorem foldl_convertStep_out (fuel : Nat) (legacyNodes : Bool) (numNodes timestepCount : Int)
    (lines : List Line) (s : Conv) :
    ∃ more, (lines.foldl (convertStep fuel legacyNodes numNodes timestepCount) s).out =
      s.out ++ more := by
  induction lines generalizing s with
  | nil => exact ⟨[], by simp⟩
  | cons l ls ih =>
    obtain ⟨m1, h1⟩ := convertStep_out fuel legacyNodes numNodes timestepCount s l
    obtain ⟨m2, h2⟩ := ih (convertStep fuel legacyNodes numNodes timestepCount s l)
    exact ⟨m1 ++ m2, by rw [List.foldl_cons, h2, h1, List.append_assoc]⟩

/-- The header is the start of whatever `main` writes. -/
theorem main_header (mem : List Char) (fuel : Nat) (legacyNodes : Bool) (lines : List Line) :
    ∃ n more, (main mem fuel legacyNodes lines).out =
      n :: Out.ofInt NUM_DIMS :: Out.ofInt (doCount lines).2 :: more := by
  unfold main
  split
  · exact ⟨_, [], rfl⟩
  · split
    · exact ⟨_, [], rfl⟩
    · rename_i numNodes _ _ ids _
      obtain ⟨more, h⟩ := foldl_convertStep_out fuel legacyNodes numNodes (doCount lines).2 lines
        { timestepRead := false, currStep := 0,
          out := [Out.ofInt numNodes, Out.ofInt NUM_DIMS, Out.ofInt (doCount lines).2] ++ ids,
          status := .reading, buf := mem }
      exact ⟨Out.ofInt numNodes, ids ++ more, by unfold conversionPass; rw [h]; simp⟩

/-- C2. For an input with `T` lines containing the marker token `nodal`, the
timestep count of the Discovery Pass is `T - 1`, and it is the third header
value that `main` writes (in either mode, whatever the line buffer holds). -/
theorem timestep_count (mem : List Char) (fuel : Nat) (legacyNodes : Bool)
    (lines : List Line) (T : Nat)
    (hT : (lines.filter (fun l => decide ("nodal".toList <:+: l))).length = T) :
    (doCount lines).2 = (T : Int) - 1 ∧
      (main mem fuel legacyNodes lines).out[2]? = some (Out.ofInt ((T : Int) - 1)) := by
  have h1 : (doCount lines).2 = (T : Int) - 1 := by
    unfold doCount
    rw [grepCount_eq, hT]
  refine ⟨h1, ?_⟩
  obtain ⟨n, more, h⟩ := main_header mem fuel legacyNodes lines
  rw [h, h1]
  simp

/-- Witness for C2: three marker lines give the count `2`. -/
theorem timestep_count_witness :
    (main staleBuf 5 false ["nodal\n".toList, "x nodal\n".toList, "nodal".toList]).out[2]? =
      some (Out.ofInt ((3 : Nat) - 1 : Int)) :=
  (timestep_count staleBuf 5 false ["nodal\n".toList, "x nodal\n".toList, "nodal".toList] 3
    (by decide)).2

theorem hasNodal_of_length_one (buf : Line) (h : buf.length = 1) : hasNodal buf = false := by
  match buf, h with
  | [c], _ =>
    unfold hasNodal strstr strstr
    simp [List.isPrefixOf]

theorem doCountLoop_skip (pre rest : List Line) (hpre : ∀ l ∈ pre, hasNodal l = false) :
    doCountLoop (pre ++ rest) false none = doCountLoop rest false none := by
  induction pre with
  | nil => rfl
  | cons l ls ih =>
    rw [List.cons_append, doCountLoop, if_neg (by simp [hpre l (List.mem_cons_self _ _)])]
    simp only [Bool.false_eq_true, if_false]
    exact ih (fun a ha => hpre a (List.mem_cons_of_mem _ ha))

theorem doCountLoop_block (ds post : List Line) (blank : Line) (node : Option Int)
    (hds : ∀ l ∈ ds, l.length ≠ 1) (hblank : blank.length = 1) :
    doCountLoop (ds ++ blank :: post) true node =
      match (ds.filter (fun l => !hasNodal l)).getLast? with
      | some d => some (atoi ((cstr d).take 10))
      | none => node := by
  induction ds generalizing node with
  | nil =>
    rw [List.nil_append, doCountLoop, if_neg (by simp [hasNodal_of_length_one blank hblank])]
    simp [hblank]
  | cons l ls ih =>
    have hls : ∀ a ∈ ls, a.length ≠ 1 := fun a ha => hds a (List.mem_cons_of_mem _ ha)
    have hl : l.length ≠ 1 := hds l (List.mem_cons_self _ _)
    rw [List.cons_append, doCountLoop]
    by_cases hn : hasNodal l = true
    · rw [if_pos hn, ih node hls]
      simp [List.filter_cons, hn]
    · rw [if_neg hn]
      simp only [if_true, if_neg hl]
      rw [ih _ hls]
      simp only [Bool.not_eq_true] at hn
      simp only [List.filter_cons, hn, Bool.not_false, if_true, List.getLast?_cons]
      cases (ls.filter (fun l => !hasNodal l)).getLast? <;> rfl

/-- C3. When the first marker line is followed by lines of which none is
zero-length, among them at least one data line (a line without the marker),
and then by a zero-length line, the node count of the Discovery Pass is the
integer that `atoi` reads in the first 10 characters of the last of these
data lines. -/
theorem node_count (pre ds post : List Line) (m blank d : Line)
    (hpre : ∀ l ∈ pre, hasNodal l = false) (hm : hasNodal m = true)
    (hds : ∀ l ∈ ds, l.length ≠ 1) (hblank : blank.length = 1)
    (hlast : (ds.filter (fun l => !hasNodal l)).getLast? = some d) :
    (doCount (pre ++ m :: (ds ++ blank :: post))).1 = some (atoi ((cstr d).take 10)) := by
  unfold doCount
  simp only
  rw [doCountLoop_skip pre _ hpre, doCountLoop, if_pos hm, doCountLoop_block ds post blank none
    hds hblank, hlast]

/-- Witness for C3: a header line, a marker, two data lines, a blank line. -/
theorem node_count_witness :
    (doCount ["title\n".toList, "nodal\n".toList, "         1 x\n".toList,
        "         2 y\n".toList, "\n".toList, "rest\n".toList]).1 =
      some (atoi ((cstr "         2 y\n".toList).take 10)) ∧
      atoi ((cstr "         2 y\n".toList).take 10) = 2 :=
  ⟨node_count ["title\n".toList] ["         1 x\n".toList, "         2 y\n".toList]
      ["rest\n".toList] "nodal\n".toList "\n".toList "         2 y\n".toList
      (by decide) (by decide) (by decide) (by decide) (by decide), by decide⟩

/-! ## Conversion pass: the step limit -/

theorem convertStep_halted (fuel : Nat) (legacyNodes : Bool) (numNodes timestepCount : Int)
    (s : Conv) (buf : Line) (h : s.status ≠ .reading) :
    convertStep fuel legacyNodes numNodes timestepCount s buf = s := by
  unfold convertStep
  rw [if_pos h]

theorem foldl_convertStep_halted (fuel : Nat) (legacyNodes : Bool)
    (numNodes timestepCount : Int) (lines : List Line) (s : Conv) (h : s.status ≠ .reading) :
    lines.foldl (convertStep fuel legacyNodes numNodes timestepCount) s = s := by
  induction lines with
  | nil => rfl
  | cons l ls ih => rw [List.foldl_cons, convertStep_halted _ _ _ _ _ _ h, ih]

/-- One iteration raises `currStep` by at most one, on a marker line only;
while the loop keeps reading, it counts the marker lines exactly. -/
theorem convertStep_currStep (fuel : Nat) (legacyNodes : Bool) (numNodes timestepCount : Int)
    (s : Conv) (buf : Line) :
    (convertStep fuel legacyNodes numNodes timestepCount s buf).currStep ≤
        s.currStep + (if hasNodal buf then 1 else 0) ∧
      ((convertStep fuel legacyNodes numNodes timestepCount s buf).status = .reading →
        s.status = .reading ∧
          (convertStep fuel legacyNodes numNodes timestepCount s buf).currStep =
            s.currStep + (if hasNodal buf then 1 else 0)) := by
  unfold convertStep
  by_cases hs : s.status ≠ .reading
  · rw [if_pos hs]
    refine ⟨by split <;> omega, fun h => absurd h hs⟩
  · rw [if_neg hs]
    have hs' : s.status = .reading := not_not.mp hs
    by_cases hn : hasNodal buf = true
    · simp only [hn, if_true]
      split
      · exact ⟨by simp, fun h => by cases h⟩
      · split
        · split
          · exact ⟨le_refl _, fun _ => ⟨hs', rfl⟩⟩
          · exact ⟨le_refl _, fun h => by cases h⟩
        · exact ⟨le_refl _, fun _ => ⟨hs', rfl⟩⟩
    · simp only [hn, Bool.false_eq_true, if_false, add_zero]
      split
      · split
        · exact ⟨le_refl _, fun _ => ⟨hs', rfl⟩⟩
        · split
          · exact ⟨le_refl _, fun _ => ⟨hs', rfl⟩⟩
          · exact ⟨le_refl _, fun h => by cases h⟩
      · exact ⟨le_refl _, fun _ => ⟨hs', rfl⟩⟩

theorem foldl_convertStep_currStep (fuel : Nat) (legacyNodes : Bool)
    (numNodes timestepCount : Int) (lines : List Line) (s : Conv) :
    (lines.foldl (convertStep fuel legacyNodes numNodes timestepCount) s).currStep ≤
        s.currStep + (lines.countP hasNodal : Int) ∧
      ((lines.foldl (convertStep fuel legacyNodes numNodes timestepCount) s).status = .reading →
        (lines.foldl (convertStep fuel legacyNodes numNodes timestepCount) s).currStep =
          s.currStep + (lines.countP hasNodal : Int)) := by
  induction lines generalizing s with
  | nil => simp
  | cons l ls ih =>
    have h1 := convertStep_currStep fuel legacyNodes numNodes timestepCount s l
    have h2 := ih (convertStep fuel legacyNodes numNodes timestepCount s l)
    rw [List.foldl_cons, List.countP_cons]
    constructor
    · have a := h1.1
      have b := h2.1
      by_cases hn : hasNodal l = true
      · simp only [hn, if_true] at a ⊢
        push_cast
        omega
      · simp only [hn, Bool.false_eq_true, if_false] at a ⊢
        push_cast
        omega
    · intro hr
      have e2 := h2.2 hr
      have hmid : (convertStep fuel legacyNodes numNodes timestepCount s l).status = .reading := by
        by_contra hne
        rw [foldl_convertStep_halted _ _ _ _ _ _ hne] at hr
        exact hne hr
      have e1 := (h1.2 hmid).2
      rw [e2, e1]
      by_cases hn : hasNodal l = true
      · simp only [hn, if_true]
        push_cast
        omega
      · simp only [hn, Bool.false_eq_true, if_false]
        push_cast
        omega

/-- After the marker line that reaches the step limit the loop has stopped:
the state after `pre ++ [m]` is final, whatever follows. -/
theorem conversionPass_last_marker (mem : List Char) (fuel : Nat) (legacyNodes : Bool)
    (numNodes : Int) (out : List Out) (pre tail : List Line) (m : Line)
    (hm : hasNodal m = true) :
    conversionPass mem fuel legacyNodes numNodes (pre.countP hasNodal : Int) out
        (pre ++ m :: tail) =
      conversionPass mem fuel legacyNodes numNodes (pre.countP hasNodal : Int) out
        (pre ++ [m]) ∧
    (conversionPass mem fuel legacyNodes numNodes (pre.countP hasNodal : Int) out
        (pre ++ [m])).currStep ≤ (pre.countP hasNodal : Int) := by
  unfold conversionPass
  have hinv := foldl_convertStep_currStep fuel legacyNodes numNodes (pre.countP hasNodal : Int)
    pre { timestepRead := false, currStep := 0, out := out, status := .reading, buf := mem }
  simp only [zero_add] at hinv
  rw [List.foldl_append, List.foldl_append, List.foldl_cons, List.foldl_cons, List.foldl_nil]
  generalize List.foldl (convertStep fuel legacyNodes numNodes (pre.countP hasNodal : Int))
    { timestepRead := false, currStep := 0, out := out, status := .reading, buf := mem } pre =
      s1 at hinv ⊢
  by_cases hs : s1.status = .reading
  · have hc := hinv.2 hs
    have hstep : convertStep fuel legacyNodes numNodes (pre.countP hasNodal : Int) s1 m =
        { s1 with timestepRead := true, status := .done, buf := getline s1.buf m } := by
      unfold convertStep
      rw [if_neg (not_not.mpr hs), if_pos hm, if_pos hc]
    rw [hstep]
    refine ⟨foldl_convertStep_halted _ _ _ _ _ _ (by simp), ?_⟩
    exact le_of_eq hc
  · rw [convertStep_halted _ _ _ _ _ _ hs]
    exact ⟨foldl_convertStep_halted _ _ _ _ _ _ hs, hinv.1⟩

theorem doCount_steps_last_marker (pre tail : List Line) (m : Line) (hm : hasNodal m = true)
    (htail : ∀ l ∈ tail, hasNodal l = false) :
    (doCount (pre ++ m :: tail)).2 = (pre.countP hasNodal : Int) ∧
      (grepCount (pre ++ m :: tail) : Int) - 1 = (pre.countP hasNodal : Int) := by
  have ht : tail.countP hasNodal = 0 := by
    rw [List.countP_eq_zero]
    intro l hl
    simp [htail l hl]
  have : grepCount (pre ++ m :: tail) = pre.countP hasNodal + 1 := by
    unfold grepCount
    rw [List.countP_append, List.countP_cons, if_pos hm, ht]
  unfold doCount
  simp only [this]
  constructor <;> push_cast <;> ring

/-! ## The node-ID table -/

theorem f32Round_small (n : Nat) (h : n < 2 ^ 24) : f32Round n = n := by
  unfold f32Round
  rw [if_pos h]

theorem f32Round_ge (n : Nat) (h : 2 ^ 24 ≤ n) : 2 ^ 24 ≤ f32Round n := by
  have hn0 : n ≠ 0 := by
    intro h0
    rw [h0] at h
    exact absurd h (by decide)
  have hlog : 24 ≤ Nat.log2 n := (Nat.le_log2 hn0).mpr h
  have hpow : 2 ^ Nat.log2 n ≤ n := Nat.log2_self_le hn0
  obtain ⟨e, he⟩ : ∃ e, Nat.log2 n = e + 24 := ⟨Nat.log2 n - 24, by omega⟩
  have hq : 2 ^ 23 ≤ n / 2 ^ (e + 1) := by
    rw [Nat.le_div_iff_mul_le (by positivity)]
    calc 2 ^ 23 * 2 ^ (e + 1) = 2 ^ (e + 24) := by ring
      _ ≤ n := by rw [← he]; exact hpow
  have hbase : 2 ^ 24 ≤ n / 2 ^ (e + 1) * 2 ^ (e + 1) := by
    calc 2 ^ 24 = 2 ^ 23 * 2 ^ 1 := by norm_num
      _ ≤ n / 2 ^ (e + 1) * 2 ^ (e + 1) :=
        Nat.mul_le_mul hq (Nat.pow_le_pow_right (by norm_num) (by omega))
  have hnext : n / 2 ^ (e + 1) * 2 ^ (e + 1) ≤ (n / 2 ^ (e + 1) + 1) * 2 ^ (e + 1) :=
    Nat.mul_le_mul_right _ (Nat.le_succ _)
  unfold f32Round
  rw [if_neg (by omega)]
  have hsub : Nat.log2 n - 23 = e + 1 := by omega
  simp only [hsub]
  split
  · exact hbase
  · split
    · exact hbase.trans hnext
    · split
      · exact hbase
      · exact hbase.trans hnext

theorem f32Round_succ_two_pow : f32Round (2 ^ 24 + 1) = 2 ^ 24 := by
  have hlog : Nat.log2 (2 ^ 24 + 1) = 24 := by
    have h1 : 24 ≤ Nat.log2 (2 ^ 24 + 1) := (Nat.le_log2 (by norm_num)).mpr (by norm_num)
    have h2 : Nat.log2 (2 ^ 24 + 1) < 25 := (Nat.log2_lt (by norm_num)).mpr (by norm_num)
    omega
  unfold f32Round
  rw [if_neg (by norm_num)]
  simp only [hlog]
  norm_num

theorem f32Round_two_pow : f32Round (2 ^ 24) = 2 ^ 24 := by
  have hlog : Nat.log2 (2 ^ 24) = 24 := by
    have h1 : 24 ≤ Nat.log2 (2 ^ 24) := (Nat.le_log2 (by norm_num)).mpr (by norm_num)
    have h2 : Nat.log2 (2 ^ 24) < 25 := (Nat.log2_lt (by norm_num)).mpr (by norm_num)
    omega
  unfold f32Round
  rw [if_neg (by norm_num)]
  simp only [hlog]
  norm_num

theorem f32Round_le_two_pow (n : Nat) (h : n ≤ 2 ^ 24) : f32Round n = n := by
  rcases Nat.lt_or_ge n (2 ^ 24) with h1 | h1
  · exact f32Round_small n h1
  · have : n = 2 ^ 24 := Nat.le_antisymm h h1
    rw [this, f32Round_two_pow]

theorem f32OfInt_small (n : Nat) (h : n < 2 ^ 24) : f32OfInt (n : Int) = n := by
  unfold f32OfInt
  rw [if_neg (by omega), Int.toNat_ofNat, f32Round_small n h]

theorem f32OfInt_ge (n : Nat) (h : 2 ^ 24 ≤ n) : (2 ^ 24 : Int) ≤ f32OfInt (n : Int) := by
  unfold f32OfInt
  rw [if_neg (by omega), Int.toNat_ofNat]
  exact_mod_cast f32Round_ge n h

/-- Below `2^24` the counter is exact and the loop writes `node, ..., num`. -/
theorem writeNodeIDsLoop_small (num : Nat) (hnum : num < 2 ^ 24) (k fuel node : Nat)
    (hk : node + k = num + 1) (hfuel : k < fuel) :
    writeNodeIDsLoop fuel node (num : Int) =
      some ((List.range' node k).map (fun (i : Nat) => Out.ofInt (i : Int))) := by
  induction k generalizing fuel node with
  | zero =>
    obtain ⟨f, rfl⟩ : ∃ f, fuel = f + 1 := ⟨fuel - 1, by omega⟩
    unfold writeNodeIDsLoop
    rw [f32OfInt_small num hnum, if_neg (by omega)]
    rfl
  | succ k ih =>
    obtain ⟨f, rfl⟩ : ∃ f, fuel = f + 1 := ⟨fuel - 1, by omega⟩
    unfold writeNodeIDsLoop
    rw [f32OfInt_small num hnum, if_pos (by omega), f32Round_le_two_pow (node + 1) (by omega),
      ih f (node + 1) (by omega) (by omega)]
    rfl

theorem writeNodeIDs_small (num fuel : Nat) (hnum : num < 2 ^ 24) (hfuel : num < fuel) :
    writeNodeIDs fuel (num : Int) =
      some ((List.range' 1 num).map (fun (i : Nat) => Out.ofInt (i : Int))) :=
  writeNodeIDsLoop_small num hnum num fuel 1 (by omega) hfuel

/-- From `2^24` on the counter sticks at `2^24` and the loop does not return. -/
theorem writeNodeIDsLoop_hangs (num : Nat) (hnum : 2 ^ 24 ≤ num) (fuel node : Nat)
    (hnode : node ≤ 2 ^ 24) : writeNodeIDsLoop fuel node (num : Int) = none := by
  induction fuel generalizing node with
  | zero => rfl
  | succ f ih =>
    have hle : (node : Int) ≤ f32OfInt (num : Int) := by
      have h1 := f32OfInt_ge num hnum
      have h2 : (node : Int) ≤ 2 ^ 24 := by exact_mod_cast hnode
      exact h2.trans h1
    have hnext : f32Round (node + 1) ≤ 2 ^ 24 := by
      rcases Nat.lt_or_ge node (2 ^ 24) with h | h
      · rw [f32Round_le_two_pow _ h]; exact h
      · have : node = 2 ^ 24 := Nat.le_antisymm hnode h
        rw [this, f32Round_succ_two_pow]
    unfold writeNodeIDsLoop
    rw [if_pos hle, ih _ hnext]
    rfl

theorem writeNodeIDs_hangs (num fuel : Nat) (hnum : 2 ^ 24 ≤ num) :
    writeNodeIDs fuel (num : Int) = none :=
  writeNodeIDsLoop_hangs num hnum fuel 1 (by norm_num)

/-! ## The line buffer -/

theorem cstr_nul_tail_eq (P t : List Char) : cstr (P ++ NUL :: t) = cstr P := by
  rw [cstr_nul_tail]
  split
  · rename_i h
    have h0 := cstr_append P []
    rw [if_pos h, List.append_nil] at h0
    rw [h0]
    simp [cstr]
  · rfl

/-- A field that the line reaches is copied from the characters of the line
and its terminator: the bytes that were in the buffer before play no part. -/
theorem fieldText_getline (disp mem : List Char) (line : Line) (start : Nat)
    (hle : start ≤ line.length) :
    fieldText disp (getline mem line) start = fieldText disp line start := by
  have h : cstr ((getline mem line).drop start) = cstr (line.drop start) := by
    unfold getline
    rw [List.drop_append_of_le_length hle, cstr_nul_tail_eq]
  unfold fieldText strncpy
  simp only [h]

/-- Where the line alone determines the value of a field, the loop of `main`
computes this value. -/
theorem fieldOut_getline (disp mem : List Char) (line : Line) (start : Nat) (q : ℚ)
    (h : fieldValue disp line start = .ok q) :
    fieldOut disp (getline mem line) start = .ok (Out.ofDouble q) := by
  unfold fieldValue extractField at h
  by_cases hle : start ≤ line.length
  · rw [if_pos hle] at h
    unfold fieldOut
    rw [fieldText_getline disp mem line start hle]
    simp only [bind, Except.bind, pure, Except.pure] at h ⊢
    cases hr : repair (fieldText disp line start) with
    | error e => rw [hr] at h; cases h
    | ok d =>
      rw [hr] at h
      simp only at h ⊢
      cases ha : atof (cstr d) with
      | error e => rw [ha] at h; cases h
      | ok t =>
        rw [ha] at h
        simp only at h ⊢
        injection h with h
        rw [h]
  · rw [if_neg hle] at h
    cases h

/-- Where the line alone determines the record, the loop of `main` writes this
record, whatever the buffer held before. -/
theorem recordAt_getline (mem : List Char) (line : Line) (r : List Out)
    (h : record line = .ok r) : recordAt (getline mem line) = .ok r := by
  unfold record at h
  simp only [bind, Except.bind, pure, Except.pure] at h
  cases hx : fieldValue scratch line XDISP_START with
  | error e => rw [hx] at h; cases h
  | ok x =>
    cases hy : fieldValue scratch line YDISP_START with
    | error e => rw [hx, hy] at h; cases h
    | ok y =>
      cases hz : fieldValue scratch line ZDISP_START with
      | error e => rw [hx, hy, hz] at h; cases h
      | ok z =>
        rw [hx, hy, hz] at h
        simp only at h
        injection h with h
        unfold recordAt
        rw [fieldOut_getline _ mem line _ x hx, fieldOut_getline _ mem line _ y hy,
          fieldOut_getline _ mem line _ z hz, ← h]
        rfl

theorem recordAt_convertible (mem : List Char) (d : Line) (h : convertible d = true) :
    recordAt (getline mem d) = .ok (recordOut d) := by
  apply recordAt_getline
  unfold convertible at h
  unfold recordOut
  split
  · rename_i heq
    rw [heq]
  · rename_i heq
    rw [heq] at h
    cases h

/-! ## Well-formed inputs -/

theorem grepCount_block (N : Nat) (b : Block) (h : WellFormedBlock N b) :
    b.lines.countP hasNodal = 1 := by
  obtain ⟨hm, hb, -, hd, -⟩ := h
  have h0 : b.data.countP hasNodal = 0 := by
    rw [List.countP_eq_zero]
    intro l hl
    simp [(hd l hl).1]
  unfold Block.lines
  rw [List.countP_cons, if_pos hm, List.countP_append, h0, List.countP_cons,
    if_neg (by simp [hasNodal_of_length_one b.blank hb])]
  rfl

theorem grepCount_inputOf (N : Nat) (blocks : List Block)
    (h : ∀ b ∈ blocks, WellFormedBlock N b) : grepCount (inputOf blocks) = blocks.length := by
  unfold grepCount inputOf
  induction blocks with
  | nil => rfl
  | cons b bs ih =>
    rw [List.flatMap_cons, List.countP_append, grepCount_block N b (h b (List.mem_cons_self _ _)),
      ih (fun a ha => h a (List.mem_cons_of_mem _ ha)), List.length_cons]
    omega

theorem doCount_nodes_inputOf (N : Nat) (b : Block) (bs : List Block)
    (h : WellFormedBlock N b) : doCountLoop (inputOf (b :: bs)) false none = some (N : Int) := by
  obtain ⟨hm, hb, -, hd, d, hlast, hid⟩ := h
  have hfilter : b.data.filter (fun l => !hasNodal l) = b.data := by
    rw [List.filter_eq_self]
    intro l hl
    simp [(hd l hl).1]
  have hshape : inputOf (b :: bs) = b.marker :: (b.data ++ b.blank :: inputOf bs) := by
    unfold inputOf
    rw [List.flatMap_cons]
    unfold Block.lines
    simp
  rw [hshape, doCountLoop, if_pos hm,
    doCountLoop_block b.data (inputOf bs) b.blank none (fun l hl => (hd l hl).2.1) hb,
    hfilter, hlast]
  simp only [hid]

theorem foldl_data (fuel : Nat) (numNodes timestepCount : Int) (ds : List Line) (s : Conv)
    (hs : s.status = .reading) (ht : s.timestepRead = true)
    (hd : ∀ d ∈ ds, hasNodal d = false ∧ d.length ≠ 1 ∧ convertible d = true) :
    ds.foldl (convertStep fuel false numNodes timestepCount) s =
      { s with out := s.out ++ ds.flatMap recordOut, buf := ds.foldl getline s.buf } := by
  induction ds generalizing s with
  | nil => simp
  | cons d ds ih =>
    obtain ⟨h1, h2, h3⟩ := hd d (List.mem_cons_self _ _)
    have hstep : convertStep fuel false numNodes timestepCount s d =
        { s with out := s.out ++ recordOut d, buf := getline s.buf d } := by
      unfold convertStep
      rw [if_neg (not_not.mpr hs), if_neg (by simp [h1]), if_pos ht, if_neg h2,
        recordAt_convertible s.buf d h3]
    rw [List.foldl_cons, hstep,
      ih { s with out := s.out ++ recordOut d, buf := getline s.buf d } hs ht
      (fun a ha => hd a (List.mem_cons_of_mem _ ha))]
    simp [List.flatMap_cons, List.append_assoc]

theorem foldl_block (fuel : Nat) (N : Nat) (numNodes timestepCount : Int) (b : Block)
    (s : Conv) (hb : WellFormedBlock N b) (hs : s.status = .reading)
    (hc : s.currStep ≠ timestepCount) :
    b.lines.foldl (convertStep fuel false numNodes timestepCount) s =
      { timestepRead := false, currStep := s.currStep + 1,
        out := s.out ++ b.data.flatMap recordOut, status := .reading,
        buf := b.lines.foldl getline s.buf } := by
  obtain ⟨hm, hbl, -, hd, -⟩ := hb
  unfold Block.lines
  have hmark : convertStep fuel false numNodes timestepCount s b.marker =
      { s with timestepRead := true, currStep := s.currStep + 1,
               buf := getline s.buf b.marker } := by
    unfold convertStep
    rw [if_neg (not_not.mpr hs), if_pos hm, if_neg hc]
    simp
  rw [List.foldl_cons, hmark, List.foldl_append, foldl_data fuel numNodes timestepCount b.data
    { s with timestepRead := true, currStep := s.currStep + 1,
             buf := getline s.buf b.marker } hs rfl hd, List.foldl_cons,
    List.foldl_nil]
  unfold convertStep
  simp only [hs, ne_eq, not_true_eq_false, if_false, hasNodal_of_length_one b.blank hbl,
    Bool.false_eq_true, if_true, hbl, List.foldl_cons, List.foldl_append, List.foldl_nil]

theorem foldl_blocks (fuel : Nat) (N : Nat) (numNodes timestepCount : Int)
    (bs : List Block) (rest : List Line) (s : Conv)
    (hwf : ∀ b ∈ bs, WellFormedBlock N b) (hs : s.status = .reading)
    (ht : s.timestepRead = false)
    (hc : s.currStep + (bs.length : Int) ≤ timestepCount) :
    (inputOf bs ++ rest).foldl (convertStep fuel false numNodes timestepCount) s =
      rest.foldl (convertStep fuel false numNodes timestepCount)
        { timestepRead := false, currStep := s.currStep + (bs.length : Int),
          out := s.out ++ bs.flatMap (fun b => b.data.flatMap recordOut),
          status := .reading, buf := (inputOf bs).foldl getline s.buf } := by
  induction bs generalizing s with
  | nil =>
    cases s
    simp only at hs ht
    simp [inputOf, hs, ht]
  | cons b bs ih =>
    rw [List.length_cons] at hc
    push_cast at hc
    have hb := hwf b (List.mem_cons_self _ _)
    have hne : s.currStep ≠ timestepCount := by omega
    have hshape : inputOf (b :: bs) ++ rest = b.lines ++ (inputOf bs ++ rest) := by
      unfold inputOf
      rw [List.flatMap_cons, List.append_assoc]
    have hshape' : inputOf (b :: bs) = b.lines ++ inputOf bs := by
      unfold inputOf
      rw [List.flatMap_cons]
    have ih' := ih (Conv.mk false (s.currStep + 1) (s.out ++ b.data.flatMap recordOut) .reading
        (b.lines.foldl getline s.buf))
      (fun a ha => hwf a (List.mem_cons_of_mem _ ha)) rfl rfl (by simp only; omega)
    rw [hshape, List.foldl_append, foldl_block fuel N numNodes timestepCount b s hb hs hne, ih',
      hshape', List.foldl_append]
    simp only [List.length_cons, List.flatMap_cons, List.append_assoc]
    push_cast
    rw [add_assoc, add_comm (1 : Int)]

theorem recordOut_length (d : Line) (h : convertible d = true) : (recordOut d).length = 3 := by
  unfold convertible at h
  unfold recordOut
  split
  · rename_i r heq
    unfold record at heq
    simp only [bind, Except.bind, pure, Except.pure] at heq
    split at heq
    · cases heq
    · split at heq
      · cases heq
      · split at heq
        · cases heq
        · injection heq with heq
          rw [← heq]
          rfl
  · rename_i heq
    rw [heq] at h
    cases h

theorem flatMap_recordOut_length (ds : List Line)
    (hd : ∀ d ∈ ds, hasNodal d = false ∧ d.length ≠ 1 ∧ convertible d = true) :
    (ds.flatMap recordOut).length = 3 * ds.length := by
  induction ds with
  | nil => rfl
  | cons d ds ih =>
    rw [List.flatMap_cons, List.length_append, recordOut_length d (hd d (List.mem_cons_self _ _)).2.2,
      ih (fun a ha => hd a (List.mem_cons_of_mem _ ha)), List.length_cons]
    omega

theorem records_length (N : Nat) (bs : List Block) (h : ∀ b ∈ bs, WellFormedBlock N b) :
    (bs.flatMap (fun b => b.data.flatMap recordOut)).length = 3 * N * bs.length := by
  induction bs with
  | nil => rfl
  | cons b bs ih =>
    rw [List.flatMap_cons, List.length_append,
      flatMap_recordOut_length b.data (h b (List.mem_cons_self _ _)).2.2.2.1,
      (h b (List.mem_cons_self _ _)).2.2.1,
      ih (fun a ha => h a (List.mem_cons_of_mem _ ha)), List.length_cons]
    ring

/-- The run of `main` (legacy mode off) on a well-formed input of `T` blocks
(`bs` followed by the last block `bT`) of `N < 2^24` data lines each: the
header `(N, 4, T - 1)`, the node IDs `1..N`, then the records of the data
lines of the first `T - 1` blocks in order, `3 + N + 3 * N * (T - 1)` values in
all, ending at the last marker line. -/
theorem main_wellformed (mem : List Char) (fuel N : Nat) (bs : List Block) (bT : Block)
    (hN : N < 2 ^ 24) (hfuel : N < fuel) (hwf : ∀ b ∈ bs ++ [bT], WellFormedBlock N b) :
    main mem fuel false (inputOf (bs ++ [bT])) =
        { timestepRead := true, currStep := (bs.length : Int),
          out := [Out.ofInt (N : Int), Out.ofInt NUM_DIMS, Out.ofInt (bs.length : Int)] ++
            (List.range' 1 N).map (fun (i : Nat) => Out.ofInt (i : Int)) ++
            bs.flatMap (fun b => b.data.flatMap recordOut),
          status := .done, buf := getline ((inputOf bs).foldl getline mem) bT.marker } ∧
      (main mem fuel false (inputOf (bs ++ [bT]))).out.length = 3 + N + 3 * N * bs.length := by
  have hbs : ∀ b ∈ bs, WellFormedBlock N b := fun b hb => hwf b (List.mem_append_left _ hb)
  have hbT : WellFormedBlock N bT := hwf bT (List.mem_append_right _ (List.mem_singleton_self _))
  have hsteps : (doCount (inputOf (bs ++ [bT]))).2 = (bs.length : Int) := by
    unfold doCount
    simp only
    rw [grepCount_inputOf N _ hwf, List.length_append]
    simp
  have hnodes : (doCount (inputOf (bs ++ [bT]))).1 = some (N : Int) := by
    obtain ⟨b0, rest, h0⟩ : ∃ b0 rest, bs ++ [bT] = b0 :: rest := by
      cases bs with
      | nil => exact ⟨bT, [], rfl⟩
      | cons b bs' => exact ⟨b, bs' ++ [bT], rfl⟩
    unfold doCount
    simp only
    rw [h0]
    exact doCount_nodes_inputOf N b0 rest (by rw [h0] at hwf; exact hwf b0 (List.mem_cons_self _ _))
  have hmain : main mem fuel false (inputOf (bs ++ [bT])) =
      { timestepRead := true, currStep := (bs.length : Int),
        out := [Out.ofInt (N : Int), Out.ofInt NUM_DIMS, Out.ofInt (bs.length : Int)] ++
          (List.range' 1 N).map (fun (i : Nat) => Out.ofInt (i : Int)) ++
          bs.flatMap (fun b => b.data.flatMap recordOut),
        status := .done, buf := getline ((inputOf bs).foldl getline mem) bT.marker } := by
    unfold main
    simp only [hnodes, hsteps, writeNodeIDs_small N fuel hN hfuel]
    unfold conversionPass
    have hshape : inputOf (bs ++ [bT]) = inputOf bs ++ bT.lines := by
      unfold inputOf
      rw [List.flatMap_append]
      simp
    rw [hshape, foldl_blocks fuel N (N : Int) (bs.length : Int) bs bT.lines _ hbs rfl rfl
      (by simp)]
    unfold Block.lines
    rw [List.foldl_cons]
    have hstop : convertStep fuel false (N : Int) (bs.length : Int)
        { timestepRead := false, currStep := 0 + (bs.length : Int),
          out := [Out.ofInt (N : Int), Out.ofInt NUM_DIMS, Out.ofInt (bs.length : Int)] ++
            (List.range' 1 N).map (fun (i : Nat) => Out.ofInt (i : Int)) ++
            bs.flatMap (fun b => b.data.flatMap recordOut),
          status := .reading, buf := (inputOf bs).foldl getline mem } bT.marker =
        { timestepRead := true, currStep := (bs.length : Int),
          out := [Out.ofInt (N : Int), Out.ofInt NUM_DIMS, Out.ofInt (bs.length : Int)] ++
            (List.range' 1 N).map (fun (i : Nat) => Out.ofInt (i : Int)) ++
            bs.flatMap (fun b => b.data.flatMap recordOut),
          status := .done, buf := getline ((inputOf bs).foldl getline mem) bT.marker } := by
      unfold convertStep
      simp [hbT.1]
    rw [hstop]
    exact foldl_convertStep_halted _ _ _ _ _ _ (by simp)
  refine ⟨hmain, ?_⟩
  rw [hmain]
  show ([Out.ofInt (N : Int), Out.ofInt NUM_DIMS, Out.ofInt (bs.length : Int)] ++
      (List.range' 1 N).map (fun (i : Nat) => Out.ofInt (i : Int)) ++
      bs.flatMap (fun b => b.data.flatMap recordOut)).length = 3 + N + 3 * N * bs.length
  rw [List.length_append, List.length_append, List.length_map, List.length_range',
    records_length N bs hbs]
  rfl

theorem largeBlock_wellFormed : WellFormedBlock (2 ^ 24) largeBlock := by
  refine ⟨by decide, by decide, ?_, ?_, lastLine, ?_, by decide⟩
  · show (List.replicate (2 ^ 24 - 1) dataLine ++ [lastLine]).length = 2 ^ 24
    rw [List.length_append, List.length_replicate]
    rfl
  · intro d hd
    have hd' : d ∈ List.replicate (2 ^ 24 - 1) dataLine ++ [lastLine] := hd
    rw [List.mem_append, List.mem_singleton] at hd'
    rcases hd' with h | h
    · rw [List.eq_of_mem_replicate h]
      exact ⟨by decide, by decide, by decide⟩
    · rw [h]
      exact ⟨by decide, by decide, by decide⟩
  · show (List.replicate (2 ^ 24 - 1) dataLine ++ [lastLine]).getLast? = some lastLine
    exact List.getLast?_concat _

theorem doCount_fst (lines : List Line) : (doCount lines).1 = doCountLoop lines false none :=
  rfl

theorem doCount_snd (lines : List Line) : (doCount lines).2 = (grepCount lines : Int) - 1 :=
  rfl

/-- With a node count of `2^24` or more, `main` writes the header and then
stays in `writeNodeIDs`. -/
theorem main_hangs (mem : List Char) (fuel : Nat) (legacyNodes : Bool) (lines : List Line)
    (n : Nat) (hn : 2 ^ 24 ≤ n) (hnodes : (doCount lines).1 = some (n : Int)) :
    (main mem fuel legacyNodes lines).status = .hung ∧
      (main mem fuel legacyNodes lines).out =
        [Out.ofInt (n : Int), Out.ofInt NUM_DIMS, Out.ofInt (doCount lines).2] := by
  unfold main
  simp only [hnodes, writeNodeIDs_hangs n fuel hn]
  exact ⟨trivial, trivial⟩

/-- C1 at a well-formed input of one block with `N = 2^24` data lines: the
header `(16777216, 4, 0)` is written, and then the node-ID loop of
`writeNodeIDs` never returns (its `float` counter sticks at `2^24`), whatever
the number of iterations allowed and the bytes in the line buffer; the output
of the claim is not produced. -/
theorem main_hangs_large_node_count :
    WellFormedBlock (2 ^ 24) largeBlock ∧
      ∀ (mem : List Char) (fuel : Nat),
        (main mem fuel false (inputOf [largeBlock])).status = .hung ∧
          (main mem fuel false (inputOf [largeBlock])).out =
            [Out.ofInt ((2 ^ 24 : Nat) : Int), Out.ofInt NUM_DIMS, Out.ofInt 0] := by
  refine ⟨largeBlock_wellFormed, fun mem fuel => ?_⟩
  have hwf : ∀ b ∈ [largeBlock], WellFormedBlock (2 ^ 24) b := by
    intro b hb
    rw [List.mem_singleton] at hb
    rw [hb]
    exact largeBlock_wellFormed
  have hnodes : (doCount (inputOf [largeBlock])).1 = some (((2 ^ 24 : Nat) : Int)) := by
    rw [doCount_fst]
    exact doCount_nodes_inputOf (2 ^ 24) largeBlock [] largeBlock_wellFormed
  have hsteps : (doCount (inputOf [largeBlock])).2 = 0 := by
    rw [doCount_snd, grepCount_inputOf (2 ^ 24) _ hwf]
    rfl
  have h := main_hangs mem fuel false (inputOf [largeBlock]) (2 ^ 24) (le_refl _) hnodes
  rw [hsteps] at h
  exact h


/-! ## Range clamp: idempotence and the three copies -/

theorem rangeClamp_range {α : Type} [LinearOrderedField α] (x : α) :
    (x < 0 → -MAX_VALUE ≤ rangeClamp x ∧ rangeClamp x ≤ -MIN_VALUE) ∧
      (0 ≤ x → MIN_VALUE ≤ rangeClamp x ∧ rangeClamp x ≤ MAX_VALUE) := by
  have hmm := MIN_VALUE_le_MAX_VALUE (α := α)
  constructor
  · intro hx
    rw [rangeClamp_neg x hx]
    exact ⟨le_max_left _ _, max_le (by linarith) (min_le_right _ _)⟩
  · intro hx
    rw [rangeClamp_nonneg x hx]
    exact ⟨le_min hmm (le_max_right _ _), min_le_left _ _⟩

theorem rangeClamp_idem {α : Type} [LinearOrderedField α] (x : α) :
    rangeClamp (rangeClamp x) = rangeClamp x := by
  have hmin := MIN_VALUE_pos (α := α)
  rcases lt_or_le x 0 with hx | hx
  · obtain ⟨h1, h2⟩ := (rangeClamp_range x).1 hx
    have hneg : rangeClamp x < 0 := by linarith
    rw [rangeClamp_neg _ hneg, min_eq_left h2, max_eq_right h1]
  · obtain ⟨h1, h2⟩ := (rangeClamp_range x).2 hx
    have hpos : 0 ≤ rangeClamp x := by linarith
    rw [rangeClamp_nonneg _ hpos, max_eq_left h1, min_eq_right h2]

/-- C19. Range Clamp is idempotent, `clamp (clamp x) = clamp x` for every
real `x`, and the three inline copies, for the x, y and z components, compute
the same function (the one used for every component of a record). -/
theorem rangeClamp_idempotent_copies (x : ℝ) :
    clampX (clampX x) = clampX x ∧ clampY (clampY x) = clampY x ∧
      clampZ (clampZ x) = clampZ x ∧
      clampX x = clampY x ∧ clampY x = clampZ x ∧ clampZ x = rangeClamp x := by
  have hx : ∀ y : ℝ, clampX y = rangeClamp y := fun _ => rfl
  have hy : ∀ y : ℝ, clampY y = rangeClamp y := fun _ => rfl
  have hz : ∀ y : ℝ, clampZ y = rangeClamp y := fun _ => rfl
  refine ⟨?_, ?_, ?_, ?_, ?_, hz x⟩
  · rw [hx, hx, rangeClamp_idem]
  · rw [hy, hy, rangeClamp_idem]
  · rw [hz, hz, rangeClamp_idem]
  · rw [hx, hy]
  · rw [hy, hz]

/-! ## The node-ID table: termination -/

theorem writeNodeIDs_nonpos (fuel : Nat) (num : Int) (hnum : num ≤ 0) :
    writeNodeIDs (fuel + 1) num = some [] := by
  have h : f32OfInt num ≤ 0 := by
    unfold f32OfInt
    split
    · have : (0 : Int) ≤ (f32Round num.natAbs : Int) := Int.ofNat_nonneg _
      omega
    · have h0 : num = 0 := by omega
      rw [h0]
      simp [f32Round]
  unfold writeNodeIDs writeNodeIDsLoop
  rw [if_neg (by push_cast; omega)]

/-- C16 at the node count `n = 2^24 = 16777216`: the loop of `writeNodeIDs`
does not return, however many iterations it is given (the `float` counter
sticks at `2^24`), while for `n = 3` it writes `1, 2, 3` and returns. -/
theorem writeNodeIDs_diverges :
    (∀ fuel : Nat, writeNodeIDs fuel ((2 ^ 24 : Nat) : Int) = none) ∧
      writeNodeIDs 4 3 = some [Out.ofInt 1, Out.ofInt 2, Out.ofInt 3] :=
  ⟨fun fuel => writeNodeIDs_hangs (2 ^ 24) fuel (le_refl _), by decide⟩

/-! ## Exponent repair: the text that is returned -/

theorem cstr_length_le (l : List Char) : (cstr l).length ≤ l.length := by
  unfold cstr
  exact (List.takeWhile_sublist _).length_le

theorem cstr_of_all (l : List Char) (h : l.all (fun c => c != NUL) = true) : cstr l = l := by
  have := cstr_append l []
  rw [List.append_nil, if_pos h] at this
  rw [this]
  simp [cstr]

theorem cstr_length_lt (l : List Char) (h : ¬ l.all (fun c => c != NUL) = true) :
    (cstr l).length < l.length := by
  rcases Nat.lt_or_ge (cstr l).length l.length with h1 | h1
  · exact h1
  · exfalso
    apply h
    have hle := cstr_length_le l
    have hlen : (cstr l).length = l.length := Nat.le_antisymm hle h1
    have htake := take_cstr_length l
    rw [hlen, List.take_length] at htake
    rw [htake]
    exact cstr_all_ne l

/-- The text in the buffer after `correctE`: when the field holds at least
eight characters, its first eight characters followed by `E-100`; when it
holds fewer, the text is unchanged (the marker lands behind the terminator). -/
theorem correctE_text (f f' : List Char) (hlen : 8 ≤ f.length) (h : correctE f = .ok f') :
    cstr f' =
      if 8 ≤ (cstr f).length then (cstr f).take 8 ++ "E-100".toList else cstr f := by
  obtain ⟨-, hf'⟩ := correctE_ok f f' h
  have ht : (f.take 8).length = 8 := by rw [List.length_take]; omega
  have hsplit : cstr f = cstr (f.take 8 ++ f.drop 8) := by rw [List.take_append_drop]
  have hE : cstr ("E-100".toList ++ NUL :: f.drop 14) = "E-100".toList := by
    rw [cstr_nul_tail, if_pos (by decide)]
  rw [hf', cstr_append, hE]
  by_cases hall : (f.take 8).all (fun c => c != NUL) = true
  · rw [if_pos hall]
    rw [cstr_append, if_pos hall] at hsplit
    have h8 : 8 ≤ (cstr f).length := by
      rw [hsplit, List.length_append, ht]
      omega
    have htk : (cstr f).take 8 = f.take 8 := by
      rw [hsplit]
      exact List.take_left' ht
    rw [if_pos h8, htk]
  · rw [if_neg hall]
    rw [cstr_append, if_neg hall] at hsplit
    have hlt := cstr_length_lt (f.take 8) hall
    rw [ht] at hlt
    rw [if_neg (by rw [hsplit]; omega), hsplit]

/-- C20 (counterexample). For the markerless field `1.234567-100`, of twelve
characters with a `-` after the first, `correctE` does not return the first
nine characters followed by `E-100` (that would be `1.234567-E-100`): it
returns `1.234567E-100`. -/
theorem correctE_not_nine :
    strchr ("1.234567-100".toList ++ [NUL, NUL, NUL]) 'E' = false ∧
      9 ≤ (cstr ("1.234567-100".toList ++ [NUL, NUL, NUL])).length ∧
      strchr (("1.234567-100".toList ++ [NUL, NUL, NUL]).drop 1) '-' = true ∧
      ∃ f', correctE ("1.234567-100".toList ++ [NUL, NUL, NUL]) = .ok f' ∧
        cstr f' = "1.234567E-100".toList ∧
        cstr f' ≠ (cstr ("1.234567-100".toList ++ [NUL, NUL, NUL])).take 9 ++ "E-100".toList :=
  ⟨by decide, by decide, by decide, "1.234567E-100".toList ++ [NUL, NUL], rfl, by decide,
    by decide⟩

/-- C20 (amended). For every markerless field (a `NUM_CHARS` buffer) whose
text has at least nine characters and a `-` after its first character,
`correctE` returns, and the text it leaves is the first eight characters of
the field followed by `E-100`. -/
theorem correctE_keeps_eight (f : List Char) (hlen : f.length = NUM_CHARS)
    (_hE : strchr f 'E' = false) (h9 : 9 ≤ (cstr f).length)
    (hdash : strchr (f.drop 1) '-' = true) :
    ∃ f', correctE f = .ok f' ∧ cstr f' = (cstr f).take 8 ++ "E-100".toList := by
  obtain ⟨f', hf'⟩ : ∃ f', correctE f = .ok f' := by
    unfold correctE
    rw [if_pos hdash]
    exact ⟨_, rfl⟩
  refine ⟨f', hf', ?_⟩
  rw [correctE_text f f' (by rw [hlen]; decide) hf', if_pos (by omega)]

/-- Witness for C20: the field `-9.87654-100` becomes `-9.87654E-100`. -/
theorem correctE_keeps_eight_witness :
    ∃ f', correctE ("-9.87654-100".toList ++ [NUL, NUL, NUL]) = .ok f' ∧
      cstr f' = (cstr ("-9.87654-100".toList ++ [NUL, NUL, NUL])).take 8 ++ "E-100".toList :=
  correctE_keeps_eight ("-9.87654-100".toList ++ [NUL, NUL, NUL]) (by decide) (by decide)
    (by decide) (by decide)

/-- C18. Exponent Repair does not look at the characters from the truncation
offset (8) on: two markerless fields (`NUM_CHARS` buffers) whose texts agree
on the first eight characters, each with a `-` after its first character, are
both repaired, and the repaired texts are equal. -/
theorem repair_ignores_tail (f g : List Char) (hf : f.length = NUM_CHARS)
    (hg : g.length = NUM_CHARS) (hfE : strchr f 'E' = false) (hgE : strchr g 'E' = false)
    (hfd : strchr (f.drop 1) '-' = true) (hgd : strchr (g.drop 1) '-' = true)
    (hagree : (cstr f).take 8 = (cstr g).take 8) :
    ∃ f' g', repair f = .ok f' ∧ repair g = .ok g' ∧ cstr f' = cstr g' := by
  have hrf : repair f = correctE f := by unfold repair; rw [hfE]; rfl
  have hrg : repair g = correctE g := by unfold repair; rw [hgE]; rfl
  obtain ⟨f', hf'⟩ : ∃ f', correctE f = .ok f' := by
    unfold correctE; rw [if_pos hfd]; exact ⟨_, rfl⟩
  obtain ⟨g', hg'⟩ : ∃ g', correctE g = .ok g' := by
    unfold correctE; rw [if_pos hgd]; exact ⟨_, rfl⟩
  refine ⟨f', g', by rw [hrf, hf'], by rw [hrg, hg'], ?_⟩
  rw [correctE_text f f' (by rw [hf]; decide) hf', correctE_text g g' (by rw [hg]; decide) hg']
  have hl := congrArg List.length hagree
  rw [List.length_take, List.length_take] at hl
  by_cases h8 : 8 ≤ (cstr f).length
  · have h8g : 8 ≤ (cstr g).length := by omega
    rw [if_pos h8, if_pos h8g, hagree]
  · have h8g : ¬ 8 ≤ (cstr g).length := by omega
    rw [if_neg h8, if_neg h8g]
    have e1 : (cstr f).take 8 = cstr f := List.take_of_length_le (by omega)
    have e2 : (cstr g).take 8 = cstr g := List.take_of_length_le (by omega)
    rw [← e1, ← e2, hagree]

/-- Witness for C18: `1.234567-100` and `1.234567-299` are repaired to the
same text. -/
theorem repair_ignores_tail_witness :
    ∃ f' g', repair ("1.234567-100".toList ++ [NUL, NUL, NUL]) = .ok f' ∧
      repair ("1.234567-299".toList ++ [NUL, NUL, NUL]) = .ok g' ∧ cstr f' = cstr g' :=
  repair_ignores_tail ("1.234567-100".toList ++ [NUL, NUL, NUL])
    ("1.234567-299".toList ++ [NUL, NUL, NUL]) (by decide) (by decide) (by decide)
    (by decide) (by decide) (by decide) (by decide)

/-! ## Exponent repair: when it fails -/

theorem extractField_le (disp buf f : List Char) (start : Nat)
    (h : extractField disp buf start = .ok f) : start ≤ buf.length := by
  unfold extractField at h
  split at h
  · assumption
  · cases h

/-- In an extracted field the text after the first character is the text
that starts at the second byte of the buffer. -/
theorem extractField_drop_one (disp buf f : List Char) (start : Nat)
    (hdisp : disp.length = NUM_CHARS) (h : extractField disp buf start = .ok f) :
    cstr (f.drop 1) = (cstr f).drop 1 := by
  obtain ⟨t, -, hshape⟩ := extractField_shape disp buf start hdisp (extractField_le _ _ _ _ h)
  rw [h] at hshape
  injection hshape with hshape
  have hs : ((cstr (buf.drop start)).take 12).all (fun c => c != NUL) = true := by
    rw [List.all_eq_true]
    intro c hc
    exact (List.all_eq_true.mp (cstr_all_ne _)) c (List.mem_of_mem_take hc)
  rw [hshape]
  generalize (cstr (buf.drop start)).take 12 = s at hs
  cases s with
  | nil =>
    have e : List.replicate (12 - ([] : List Char).length) NUL = NUL :: List.replicate 11 NUL := rfl
    rw [e]
    simp [cstr]
  | cons c s' =>
    have hc : (c != NUL) = true := by
      rw [List.all_cons, Bool.and_eq_true] at hs
      exact hs.1
    simp only [List.cons_append, List.drop_succ_cons, List.drop_zero]
    conv_rhs => rw [cstr, List.takeWhile_cons, if_pos hc]
    rfl

/-- C11. For a field extracted from a line that lacks the marker `E`,
Exponent Repair aborts (`exit(EXIT_FAILURE)`) exactly when no `-` occurs
after the first character of the field; when a `-` occurs there it returns a
buffer without failing. -/
theorem repair_fails_iff (disp buf f : List Char) (start : Nat)
    (hdisp : disp.length = NUM_CHARS) (hext : extractField disp buf start = .ok f)
    (hE : strchr f 'E' = false) :
    (repair f = .error .exitFailure ↔ '-' ∉ (cstr f).drop 1) ∧
      ('-' ∈ (cstr f).drop 1 → ∃ f', repair f = .ok f') := by
  have hd := extractField_drop_one disp buf f start hdisp hext
  have hs : strchr (f.drop 1) '-' = true ↔ '-' ∈ (cstr f).drop 1 := by
    unfold strchr
    rw [hd]
    simp
  have hr : repair f = correctE f := by unfold repair; rw [hE]; rfl
  rw [hr]
  unfold correctE
  constructor
  · constructor
    · intro h hmem
      rw [if_pos (hs.mpr hmem)] at h
      cases h
    · intro hmem
      rw [if_neg (fun hc => hmem (hs.mp hc))]
  · intro hmem
    rw [if_pos (hs.mpr hmem)]
    exact ⟨_, rfl⟩

/-- Witness for C11: the field ` 1.23456-100` of a line has no marker and a
`-` after its first character, and Exponent Repair returns on it. -/
theorem repair_fails_iff_witness :
    extractField scratch "         1 1.23456-100\n".toList 10 =
        .ok (" 1.23456-100".toList ++ [NUL, NUL, NUL]) ∧
      ∃ f', repair (" 1.23456-100".toList ++ [NUL, NUL, NUL]) = .ok f' :=
  ⟨rfl,
    (repair_fails_iff scratch "         1 1.23456-100\n".toList
      (" 1.23456-100".toList ++ [NUL, NUL, NUL]) 10 (by decide) rfl (by decide)).2
      (by decide)⟩

/-! ## Field columns -/

theorem extractField_column (disp buf : List Char) (start : Nat)
    (hdisp : disp.length = NUM_CHARS) (hlen : start + 12 ≤ buf.length)
    (hnul : ∀ c ∈ buf, c ≠ NUL) :
    ∃ d, extractField disp buf start = .ok d ∧ cstr d = (buf.drop start).take 12 := by
  have hmem : ∀ c ∈ (buf.drop start).take 12, c ≠ NUL := fun c hc =>
    hnul c (List.mem_of_mem_drop (List.mem_of_mem_take hc))
  have hl : ((buf.drop start).take 12).length = NUM_DISP_CHARS := by
    rw [List.length_take, List.length_drop]
    show min 12 (buf.length - start) = 12
    omega
  have hall : ((buf.drop start).take 12).all (fun c => c != NUL) = true := by
    rw [List.all_eq_true]
    intro c hc
    simpa using hmem c hc
  refine ⟨(buf.drop start).take 12 ++ NUL :: disp.drop 13,
    extractField_full disp buf _ start hdisp rfl hl hmem, ?_⟩
  rw [cstr_nul_tail, if_pos hall]

/-- C15. For a data line of at least 46 characters the three fields that the
Conversion Pass extracts are the 12-character substrings at columns
`[10, 22)`, `[22, 34)` and `[34, 46)`, and the values computed from them are
written as x, y and z in this order. -/
theorem fields_at_columns (disp buf : List Char) (hdisp : disp.length = NUM_CHARS)
    (hlen : 46 ≤ buf.length) (hnul : ∀ c ∈ buf, c ≠ NUL) :
    (∃ dx dy dz, extractField disp buf XDISP_START = .ok dx ∧
        cstr dx = (buf.drop 10).take 12 ∧
        extractField disp buf YDISP_START = .ok dy ∧ cstr dy = (buf.drop 22).take 12 ∧
        extractField disp buf ZDISP_START = .ok dz ∧ cstr dz = (buf.drop 34).take 12) ∧
      ∀ x y z, fieldValue scratch buf XDISP_START = .ok x →
        fieldValue scratch buf YDISP_START = .ok y →
        fieldValue scratch buf ZDISP_START = .ok z →
        record buf = .ok [Out.ofDouble x, Out.ofDouble y, Out.ofDouble z] := by
  constructor
  · obtain ⟨dx, hx, hcx⟩ := extractField_column disp buf 10 hdisp (by omega) hnul
    obtain ⟨dy, hy, hcy⟩ := extractField_column disp buf 22 hdisp (by omega) hnul
    obtain ⟨dz, hz, hcz⟩ := extractField_column disp buf 34 hdisp (by omega) hnul
    exact ⟨dx, dy, dz, hx, hcx, hy, hcy, hz, hcz⟩
  · intro x y z hx hy hz
    unfold record
    rw [hx, hy, hz]
    rfl

/-- Witness for C15: a data line of 47 characters. -/
theorem fields_at_columns_witness :
    ∃ dx dy dz,
      extractField scratch "         1 1.00000E+00 2.00000E+00 3.00000E+00\n".toList
          XDISP_START = .ok dx ∧
        cstr dx = ("         1 1.00000E+00 2.00000E+00 3.00000E+00\n".toList.drop 10).take 12 ∧
        extractField scratch "         1 1.00000E+00 2.00000E+00 3.00000E+00\n".toList
          YDISP_START = .ok dy ∧
        cstr dy = ("         1 1.00000E+00 2.00000E+00 3.00000E+00\n".toList.drop 22).take 12 ∧
        extractField scratch "         1 1.00000E+00 2.00000E+00 3.00000E+00\n".toList
          ZDISP_START = .ok dz ∧
        cstr dz = ("         1 1.00000E+00 2.00000E+00 3.00000E+00\n".toList.drop 34).take 12 :=
  (fields_at_columns scratch "         1 1.00000E+00 2.00000E+00 3.00000E+00\n".toList
    (by decide) (by decide) (by decide)).1

/-! ## Discovery pass: input without a terminating line -/

theorem doCountLoop_no_blank (rest : List Line) (timestepRead : Bool) (node : Option Int)
    (h : ∀ l ∈ rest, l.length ≠ 1) : doCountLoop rest timestepRead node = none := by
  induction rest generalizing timestepRead node with
  | nil => rfl
  | cons l ls ih =>
    have hl := h l (List.mem_cons_self _ _)
    have hls : ∀ a ∈ ls, a.length ≠ 1 := fun a ha => h a (List.mem_cons_of_mem _ ha)
    unfold doCountLoop
    split
    · exact ih _ _ hls
    · split
      · exact ih _ _ hls
      · exact ih _ _ hls

/-- When no zero-length line follows the first marker line, `doCount` still
returns: the step count is set and `*nodes` is never assigned. -/
theorem doCount_unterminated (pre rest : List Line) (m : Line)
    (hpre : ∀ l ∈ pre, hasNodal l = false) (hm : hasNodal m = true)
    (hrest : ∀ l ∈ rest, l.length ≠ 1) :
    doCount (pre ++ m :: rest) = (none, (grepCount (pre ++ m :: rest) : Int) - 1) := by
  unfold doCount
  rw [doCountLoop_skip pre _ hpre, doCountLoop, if_pos hm, doCountLoop_no_blank rest _ _ hrest]

/-- C12 at the input of a marker line and one data line, with no zero-length
line before the end of the input: `doCount` returns the pair of an unassigned
node count and the step count `0`; nothing aborts, `main` goes on to write a
header whose first value is the unassigned `numNodes` (in either mode,
whatever the line buffer holds). -/
theorem doCount_returns_without_blank :
    doCount ["nodal\n".toList, dataLine] = (none, 0) ∧
      (∀ mem fuel legacyNodes,
        (main mem fuel legacyNodes ["nodal\n".toList, dataLine]).out =
          [Out.indeterminate, Out.ofInt 4, Out.ofInt 0] ∧
        (main mem fuel legacyNodes ["nodal\n".toList, dataLine]).status ≠
          .fault .exitFailure) := by
  have h : doCount ["nodal\n".toList, dataLine] = (none, 0) := by decide
  refine ⟨h, fun mem fuel legacyNodes => ?_⟩
  unfold main
  rw [h]
  refine ⟨rfl, ?_⟩
  intro hc
  cases hc

/-! ## Legacy mode against default mode -/

theorem TablesInserted.rfl' (ids l : List Out) : TablesInserted ids l l := by
  induction l with
  | nil => exact .nil
  | cons o l ih => exact .keep o ih

theorem TablesInserted.append {ids l d l' d' : List Out} (h : TablesInserted ids l d)
    (h' : TablesInserted ids l' d') : TablesInserted ids (l ++ l') (d ++ d') := by
  induction h with
  | nil => exact h'
  | keep o _ ih => exact .keep o ih
  | table _ ih =>
    rw [List.append_assoc]
    exact .table ih

theorem TablesInserted.filter {ids l d : List Out} (p : Out → Bool)
    (h : TablesInserted ids l d) (hids : ids.filter p = []) : l.filter p = d.filter p := by
  induction h with
  | nil => rfl
  | keep o _ ih => rw [List.filter_cons, List.filter_cons, ih]
  | table _ ih => rw [List.filter_append, hids, List.nil_append, ih]

theorem writeNodeIDsLoop_ofInt (fuel node : Nat) (num : Int) (ids : List Out)
    (h : writeNodeIDsLoop fuel node num = some ids) : ids.filter isRecordValue = [] := by
  induction fuel generalizing node ids with
  | zero => cases h
  | succ f ih =>
    unfold writeNodeIDsLoop at h
    split at h
    · cases hrec : writeNodeIDsLoop f (f32Round (node + 1)) num with
      | none => rw [hrec] at h; cases h
      | some tl =>
        rw [hrec] at h
        injection h with h
        rw [← h, List.filter_cons]
        simp only [isRecordValue, Bool.false_eq_true, if_false]
        exact ih _ tl hrec
    · injection h with h
      rw [← h]
      rfl

theorem writeNodeIDs_ofInt (fuel : Nat) (num : Int) (ids : List Out)
    (h : writeNodeIDs fuel num = some ids) : ids.filter isRecordValue = [] :=
  writeNodeIDsLoop_ofInt fuel 1 num ids h

/-- One iteration in legacy mode against one in default mode: the states
stay equal except for the output, where legacy mode has inserted the table. -/
theorem convertStep_legacy (fuel : Nat) (numNodes timestepCount : Int) (ids : List Out)
    (hids : writeNodeIDs fuel numNodes = some ids) (sL sD : Conv) (buf : Line)
    (ht : sL.timestepRead = sD.timestepRead) (hc : sL.currStep = sD.currStep)
    (hs : sL.status = sD.status) (ho : TablesInserted ids sL.out sD.out)
    (hb : sL.buf = sD.buf) :
    (convertStep fuel true numNodes timestepCount sL buf).timestepRead =
        (convertStep fuel false numNodes timestepCount sD buf).timestepRead ∧
      (convertStep fuel true numNodes timestepCount sL buf).currStep =
        (convertStep fuel false numNodes timestepCount sD buf).currStep ∧
      (convertStep fuel true numNodes timestepCount sL buf).status =
        (convertStep fuel false numNodes timestepCount sD buf).status ∧
      TablesInserted ids (convertStep fuel true numNodes timestepCount sL buf).out
        (convertStep fuel false numNodes timestepCount sD buf).out ∧
      (convertStep fuel true numNodes timestepCount sL buf).buf =
        (convertStep fuel false numNodes timestepCount sD buf).buf := by
  unfold convertStep
  rw [ht, hc, hs, hids, hb]
  by_cases h1 : sD.status ≠ .reading
  · rw [if_pos h1, if_pos h1]
    exact ⟨ht, hc, hs, ho, hb⟩
  · rw [if_neg h1, if_neg h1]
    by_cases h2 : hasNodal buf = true
    · rw [if_pos h2, if_pos h2]
      by_cases h3 : sD.currStep = timestepCount
      · rw [if_pos h3, if_pos h3]
        exact ⟨rfl, rfl, rfl, ho, rfl⟩
      · rw [if_neg h3, if_neg h3]
        simp only [Bool.true_and, Bool.false_and, Bool.false_eq_true, if_false]
        split
        · refine ⟨rfl, rfl, rfl, ?_, rfl⟩
          have := ho.append (TablesInserted.table (TablesInserted.nil : TablesInserted ids [] []))
          simpa using this
        · exact ⟨rfl, rfl, rfl, ho, rfl⟩
    · rw [if_neg h2, if_neg h2]
      by_cases h4 : sD.timestepRead = true
      · rw [if_pos h4, if_pos h4]
        by_cases h5 : buf.length = 1
        · rw [if_pos h5, if_pos h5]
          exact ⟨rfl, rfl, rfl, ho, rfl⟩
        · rw [if_neg h5, if_neg h5]
          cases recordAt (getline sD.buf buf) with
          | error e => exact ⟨rfl, rfl, rfl, ho, rfl⟩
          | ok r => exact ⟨rfl, rfl, rfl, ho.append (TablesInserted.rfl' ids r), rfl⟩
      · rw [if_neg h4, if_neg h4]
        exact ⟨rfl, rfl, rfl, ho, rfl⟩

theorem foldl_convertStep_legacy (fuel : Nat) (numNodes timestepCount : Int) (ids : List Out)
    (hids : writeNodeIDs fuel numNodes = some ids) (lines : List Line) (sL sD : Conv)
    (ht : sL.timestepRead = sD.timestepRead) (hc : sL.currStep = sD.currStep)
    (hs : sL.status = sD.status) (ho : TablesInserted ids sL.out sD.out)
    (hb : sL.buf = sD.buf) :
    (lines.foldl (convertStep fuel true numNodes timestepCount) sL).timestepRead =
        (lines.foldl (convertStep fuel false numNodes timestepCount) sD).timestepRead ∧
      (lines.foldl (convertStep fuel true numNodes timestepCount) sL).currStep =
        (lines.foldl (convertStep fuel false numNodes timestepCount) sD).currStep ∧
      (lines.foldl (convertStep fuel true numNodes timestepCount) sL).status =
        (lines.foldl (convertStep fuel false numNodes timestepCount) sD).status ∧
      TablesInserted ids (lines.foldl (convertStep fuel true numNodes timestepCount) sL).out
        (lines.foldl (convertStep fuel false numNodes timestepCount) sD).out ∧
      (lines.foldl (convertStep fuel true numNodes timestepCount) sL).buf =
        (lines.foldl (convertStep fuel false numNodes timestepCount) sD).buf := by
  induction lines generalizing sL sD with
  | nil => exact ⟨ht, hc, hs, ho, hb⟩
  | cons l ls ih =>
    obtain ⟨h1, h2, h3, h4, h5⟩ :=
      convertStep_legacy fuel numNodes timestepCount ids hids sL sD l ht hc hs ho hb
    exact ih _ _ h1 h2 h3 h4 h5

theorem main_eq_unassigned (mem : List Char) (fuel : Nat) (legacyNodes : Bool)
    (lines : List Line) (h : (doCount lines).1 = none) :
    main mem fuel legacyNodes lines =
      Conv.mk false 0 [Out.indeterminate, Out.ofInt NUM_DIMS, Out.ofInt (doCount lines).2]
        (.fault .indeterminate) mem := by
  unfold main
  simp only [h]

theorem main_eq_hung (mem : List Char) (fuel : Nat) (legacyNodes : Bool) (lines : List Line)
    (numNodes : Int) (h : (doCount lines).1 = some numNodes)
    (hw : writeNodeIDs fuel numNodes = none) :
    main mem fuel legacyNodes lines =
      Conv.mk false 0 [Out.ofInt numNodes, Out.ofInt NUM_DIMS, Out.ofInt (doCount lines).2]
        .hung mem := by
  unfold main
  simp only [h, hw]

theorem main_eq_conversionPass (mem : List Char) (fuel : Nat) (legacyNodes : Bool)
    (lines : List Line) (numNodes : Int) (ids : List Out)
    (h : (doCount lines).1 = some numNodes) (hw : writeNodeIDs fuel numNodes = some ids) :
    main mem fuel legacyNodes lines =
      conversionPass mem fuel legacyNodes numNodes (doCount lines).2
        ([Out.ofInt numNodes, Out.ofInt NUM_DIMS, Out.ofInt (doCount lines).2] ++ ids)
        lines := by
  unfold main
  simp only [h, hw]

/-- C14. The legacy toggle only repeats the node-ID table: for every input
(and every content of the line buffer at the start) the
header and the sequence of displacement record values written in legacy mode
are those written in default mode, the legacy output is the default output
with copies of the node-ID table inserted (deleting them yields the default
output), and both runs end in the same way. -/
theorem legacy_only_repeats_table (mem : List Char) (fuel : Nat) (lines : List Line) :
    (main mem fuel true lines).out.take 3 = (main mem fuel false lines).out.take 3 ∧
      (main mem fuel true lines).out.filter isRecordValue =
        (main mem fuel false lines).out.filter isRecordValue ∧
      TablesInserted (nodeTable fuel lines) (main mem fuel true lines).out
        (main mem fuel false lines).out ∧
      (main mem fuel true lines).status = (main mem fuel false lines).status := by
  cases hn : (doCount lines).1 with
  | none =>
    rw [main_eq_unassigned mem fuel true lines hn, main_eq_unassigned mem fuel false lines hn]
    exact ⟨rfl, rfl, TablesInserted.rfl' _ _, rfl⟩
  | some numNodes =>
    cases hw : writeNodeIDs fuel numNodes with
    | none =>
      rw [main_eq_hung mem fuel true lines numNodes hn hw,
        main_eq_hung mem fuel false lines numNodes hn hw]
      exact ⟨rfl, rfl, TablesInserted.rfl' _ _, rfl⟩
    | some ids =>
      have htable : nodeTable fuel lines = ids := by
        unfold nodeTable
        simp only [hn, hw, Option.getD_some]
      rw [main_eq_conversionPass mem fuel true lines numNodes ids hn hw,
        main_eq_conversionPass mem fuel false lines numNodes ids hn hw, htable]
      unfold conversionPass
      obtain ⟨-, -, h3, h4, -⟩ := foldl_convertStep_legacy fuel numNodes (doCount lines).2 ids hw
        lines
        (Conv.mk false 0
          ([Out.ofInt numNodes, Out.ofInt NUM_DIMS, Out.ofInt (doCount lines).2] ++ ids)
          .reading mem)
        (Conv.mk false 0
          ([Out.ofInt numNodes, Out.ofInt NUM_DIMS, Out.ofInt (doCount lines).2] ++ ids)
          .reading mem)
        rfl rfl rfl (TablesInserted.rfl' _ _) rfl
      obtain ⟨mL, hL⟩ := foldl_convertStep_out fuel true numNodes (doCount lines).2 lines
        (Conv.mk false 0
          ([Out.ofInt numNodes, Out.ofInt NUM_DIMS, Out.ofInt (doCount lines).2] ++ ids)
          .reading mem)
      obtain ⟨mD, hD⟩ := foldl_convertStep_out fuel false numNodes (doCount lines).2 lines
        (Conv.mk false 0
          ([Out.ofInt numNodes, Out.ofInt NUM_DIMS, Out.ofInt (doCount lines).2] ++ ids)
          .reading mem)
      refine ⟨?_, h4.filter isRecordValue (writeNodeIDs_ofInt fuel numNodes ids hw), h4, h3⟩
      rw [hL, hD]
      rfl

/-! ## Legacy mode on well-formed inputs -/

theorem foldl_data_any (fuel : Nat) (legacyNodes : Bool) (numNodes timestepCount : Int)
    (ds : List Line) (s : Conv) (hs : s.status = .reading) (ht : s.timestepRead = true)
    (hd : ∀ d ∈ ds, hasNodal d = false ∧ d.length ≠ 1 ∧ convertible d = true) :
    ds.foldl (convertStep fuel legacyNodes numNodes timestepCount) s =
      { s with out := s.out ++ ds.flatMap recordOut, buf := ds.foldl getline s.buf } := by
  induction ds generalizing s with
  | nil => simp
  | cons d ds ih =>
    obtain ⟨h1, h2, h3⟩ := hd d (List.mem_cons_self _ _)
    have hstep : convertStep fuel legacyNodes numNodes timestepCount s d =
        { s with out := s.out ++ recordOut d, buf := getline s.buf d } := by
      unfold convertStep
      rw [if_neg (not_not.mpr hs), if_neg (by simp [h1]), if_pos ht, if_neg h2,
        recordAt_convertible s.buf d h3]
    rw [List.foldl_cons, hstep,
      ih { s with out := s.out ++ recordOut d, buf := getline s.buf d } hs ht
      (fun a ha => hd a (List.mem_cons_of_mem _ ha))]
    simp [List.flatMap_cons, List.append_assoc]

/-- A well-formed block read in legacy mode: the table is written before the
records of the block unless the block is the first one. -/
theorem foldl_block_legacy (fuel N : Nat) (numNodes timestepCount : Int) (ids : List Out)
    (hids : writeNodeIDs fuel numNodes = some ids) (b : Block) (s : Conv)
    (hb : WellFormedBlock N b) (hs : s.status = .reading)
    (hc : s.currStep ≠ timestepCount) :
    b.lines.foldl (convertStep fuel true numNodes timestepCount) s =
      Conv.mk false (s.currStep + 1)
        (s.out ++ ((if s.currStep + 1 > 1 then ids else []) ++ b.data.flatMap recordOut))
        .reading (b.lines.foldl getline s.buf) := by
  obtain ⟨hm, hbl, -, hd, -⟩ := hb
  unfold Block.lines
  have hmark : convertStep fuel true numNodes timestepCount s b.marker =
      Conv.mk true (s.currStep + 1) (s.out ++ (if s.currStep + 1 > 1 then ids else []))
        .reading (getline s.buf b.marker) := by
    unfold convertStep
    rw [if_neg (not_not.mpr hs), if_pos hm, if_neg hc, hids]
    by_cases h1 : s.currStep + 1 > 1
    · simp [h1, hs]
    · simp [h1, hs]
  rw [List.foldl_cons, hmark, List.foldl_append, foldl_data_any fuel true numNodes timestepCount
    b.data _ rfl rfl hd, List.foldl_cons, List.foldl_nil]
  unfold convertStep
  simp only [ne_eq, not_true_eq_false, if_false, hasNodal_of_length_one b.blank hbl,
    Bool.false_eq_true, if_true, hbl, List.append_assoc, List.foldl_cons, List.foldl_append,
    List.foldl_nil]

theorem foldl_blocks_legacy (fuel N : Nat) (numNodes timestepCount : Int) (ids : List Out)
    (hids : writeNodeIDs fuel numNodes = some ids) (bs : List Block) (rest : List Line)
    (s : Conv) (hwf : ∀ b ∈ bs, WellFormedBlock N b) (hs : s.status = .reading)
    (ht : s.timestepRead = false) (h1 : 1 ≤ s.currStep)
    (hc : s.currStep + (bs.length : Int) ≤ timestepCount) :
    (inputOf bs ++ rest).foldl (convertStep fuel true numNodes timestepCount) s =
      rest.foldl (convertStep fuel true numNodes timestepCount)
        (Conv.mk false (s.currStep + (bs.length : Int))
          (s.out ++ bs.flatMap (fun b => ids ++ b.data.flatMap recordOut)) .reading
          ((inputOf bs).foldl getline s.buf)) := by
  induction bs generalizing s with
  | nil =>
    cases s
    simp only at hs ht
    simp [inputOf, hs, ht]
  | cons b bs ih =>
    rw [List.length_cons] at hc
    push_cast at hc
    have hb := hwf b (List.mem_cons_self _ _)
    have hne : s.currStep ≠ timestepCount := by omega
    have hshape : inputOf (b :: bs) ++ rest = b.lines ++ (inputOf bs ++ rest) := by
      unfold inputOf
      rw [List.flatMap_cons, List.append_assoc]
    have hshape' : inputOf (b :: bs) = b.lines ++ inputOf bs := by
      unfold inputOf
      rw [List.flatMap_cons]
    have ih' := ih (Conv.mk false (s.currStep + 1)
        (s.out ++ ((if s.currStep + 1 > 1 then ids else []) ++ b.data.flatMap recordOut))
        .reading (b.lines.foldl getline s.buf))
      (fun a ha => hwf a (List.mem_cons_of_mem _ ha)) rfl rfl (by simp only; omega)
      (by simp only; omega)
    rw [hshape, List.foldl_append,
      foldl_block_legacy fuel N numNodes timestepCount ids hids b s hb hs hne, ih', hshape',
      List.foldl_append]
    have hgt : s.currStep + 1 > 1 := by omega
    simp only [List.length_cons, List.flatMap_cons, List.append_assoc, if_pos hgt]
    push_cast
    rw [add_assoc, add_comm (1 : Int)]

/-- The run of `main` in legacy mode on a well-formed input of the blocks
`bs` followed by the last block `bT`, with `N < 2^24` data lines each: the
header, the node-ID table, the records of the first block, then for every
further block of `bs` the table again followed by the records of the block. -/
theorem main_legacy_wellformed (mem : List Char) (fuel N : Nat) (bs : List Block)
    (bT : Block) (hN : N < 2 ^ 24) (hfuel : N < fuel)
    (hwf : ∀ b ∈ bs ++ [bT], WellFormedBlock N b) :
    main mem fuel true (inputOf (bs ++ [bT])) =
      Conv.mk true (bs.length : Int)
        ([Out.ofInt (N : Int), Out.ofInt NUM_DIMS, Out.ofInt (bs.length : Int)] ++
          (List.range' 1 N).map (fun (i : Nat) => Out.ofInt (i : Int)) ++
          ((bs.take 1).flatMap (fun b => b.data.flatMap recordOut) ++
            (bs.drop 1).flatMap (fun b =>
              (List.range' 1 N).map (fun (i : Nat) => Out.ofInt (i : Int)) ++
                b.data.flatMap recordOut)))
        .done (getline ((inputOf bs).foldl getline mem) bT.marker) := by
  have hbT : WellFormedBlock N bT := hwf bT (List.mem_append_right _ (List.mem_singleton_self _))
  have hsteps : (doCount (inputOf (bs ++ [bT]))).2 = (bs.length : Int) := by
    rw [doCount_snd, grepCount_inputOf N _ hwf, List.length_append]
    simp
  have hnodes : (doCount (inputOf (bs ++ [bT]))).1 = some (N : Int) := by
    obtain ⟨b0, rest, h0⟩ : ∃ b0 rest, bs ++ [bT] = b0 :: rest := by
      cases bs with
      | nil => exact ⟨bT, [], rfl⟩
      | cons b bs' => exact ⟨b, bs' ++ [bT], rfl⟩
    rw [doCount_fst, h0]
    exact doCount_nodes_inputOf N b0 rest (by rw [h0] at hwf; exact hwf b0 (List.mem_cons_self _ _))
  have hids := writeNodeIDs_small N fuel hN hfuel
  rw [main_eq_conversionPass mem fuel true _ (N : Int) _ hnodes hids, hsteps]
  unfold conversionPass
  have hstop : ∀ (o : List Out) (m0 : List Char) (rest : List Line),
      (bT.lines ++ rest).foldl (convertStep fuel true (N : Int) (bs.length : Int))
        (Conv.mk false (bs.length : Int) o .reading m0) =
      Conv.mk true (bs.length : Int) o .done (getline m0 bT.marker) := by
    intro o m0 rest
    unfold Block.lines
    rw [List.cons_append, List.foldl_cons]
    have : convertStep fuel true (N : Int) (bs.length : Int)
        (Conv.mk false (bs.length : Int) o .reading m0) bT.marker =
        Conv.mk true (bs.length : Int) o .done (getline m0 bT.marker) := by
      unfold convertStep
      simp [hbT.1]
    rw [this]
    exact foldl_convertStep_halted _ _ _ _ _ _ (by simp)
  cases bs with
  | nil =>
    have := hstop ([Out.ofInt (N : Int), Out.ofInt NUM_DIMS, Out.ofInt (0 : Int)] ++
      (List.range' 1 N).map (fun (i : Nat) => Out.ofInt (i : Int))) mem []
    simpa [inputOf] using this
  | cons b1 bs' =>
    have hb1 : WellFormedBlock N b1 := hwf b1 (by simp)
    have hbs' : ∀ b ∈ bs', WellFormedBlock N b := fun b hb => hwf b (by simp [hb])
    have hshape : inputOf (b1 :: bs' ++ [bT]) = b1.lines ++ (inputOf bs' ++ (bT.lines ++ [])) := by
      unfold inputOf
      simp [List.flatMap_cons, List.flatMap_append]
    have hlen : (((b1 :: bs').length : Nat) : Int) = 0 + 1 + (bs'.length : Int) := by
      rw [List.length_cons]
      push_cast
      ring
    rw [hshape, List.foldl_append,
      foldl_block_legacy fuel N (N : Int) _ _ hids b1 _ hb1 rfl (by
        show (0 : Int) ≠ ((b1 :: bs').length : Int)
        rw [List.length_cons]
        push_cast
        omega),
      foldl_blocks_legacy fuel N (N : Int) _ _ hids bs' _ _ hbs' rfl rfl (by simp) (by
        rw [hlen]),
      ← hlen, hstop]
    simp [inputOf, List.flatMap_cons, List.foldl_append]

/-- Legacy mode on a well-formed input of three blocks with `N = 2^24` data
lines each: the run writes the header and then never leaves the first call
of `writeNodeIDs`, whatever the number of iterations allowed, so no block is
started and no table is completed. -/
theorem legacy_tables_hang :
    (∀ b ∈ [largeBlock, largeBlock, largeBlock], WellFormedBlock (2 ^ 24) b) ∧
      ∀ (mem : List Char) (fuel : Nat),
        (main mem fuel true (inputOf [largeBlock, largeBlock, largeBlock])).status = .hung ∧
          (main mem fuel true (inputOf [largeBlock, largeBlock, largeBlock])).out =
            [Out.ofInt ((2 ^ 24 : Nat) : Int), Out.ofInt NUM_DIMS, Out.ofInt 2] ∧
          (main mem fuel true (inputOf [largeBlock, largeBlock, largeBlock])).currStep = 0 := by
  have hwf : ∀ b ∈ [largeBlock, largeBlock, largeBlock], WellFormedBlock (2 ^ 24) b := by
    intro b hb
    simp only [List.mem_cons, List.mem_singleton, List.not_mem_nil, or_false, or_self] at hb
    rw [hb]
    exact largeBlock_wellFormed
  refine ⟨hwf, fun mem fuel => ?_⟩
  have hnodes : (doCount (inputOf [largeBlock, largeBlock, largeBlock])).1 =
      some (((2 ^ 24 : Nat) : Int)) := by
    rw [doCount_fst]
    exact doCount_nodes_inputOf (2 ^ 24) largeBlock [largeBlock, largeBlock]
      largeBlock_wellFormed
  have hsteps : (doCount (inputOf [largeBlock, largeBlock, largeBlock])).2 = 2 := by
    rw [doCount_snd, grepCount_inputOf (2 ^ 24) _ hwf]
    rfl
  have h := main_eq_hung mem fuel true (inputOf [largeBlock, largeBlock, largeBlock])
    ((2 ^ 24 : Nat) : Int) hnodes (writeNodeIDs_hangs (2 ^ 24) fuel (le_refl _))
  rw [hsteps] at h
  rw [h]
  exact ⟨rfl, rfl, rfl⟩

/-! ## What a record holds, and how the loop can end -/

theorem repair_error (d : List Char) (f : Fault) (h : repair d = .error f) :
    f = .exitFailure := by
  unfold repair correctE at h
  split at h
  · cases h
  · split at h
    · cases h
    · injection h with h
      exact h.symm

/-- A component of a record is written as a record value unless Exponent
Repair calls `exit`; no other step of the field conversion stops the program. -/
theorem fieldOut_cases (disp mem : List Char) (start : Nat) :
    (∃ o, fieldOut disp mem start = .ok o ∧ isRecordValue o = true) ∨
      fieldOut disp mem start = .error .exitFailure := by
  unfold fieldOut
  cases hr : repair (fieldText disp mem start) with
  | error f =>
    right
    rw [repair_error _ f hr]
    rfl
  | ok d =>
    left
    simp only [bind, Except.bind]
    cases atof (cstr d) with
    | ok t => exact ⟨_, rfl, rfl⟩
    | error e => exact ⟨_, rfl, rfl⟩

/-- The record of a line is three record values, unless Exponent Repair calls
`exit` on one of the fields. -/
theorem recordAt_cases (mem : List Char) :
    (∃ x y z, recordAt mem = .ok [x, y, z] ∧ isRecordValue x = true ∧
        isRecordValue y = true ∧ isRecordValue z = true) ∨
      recordAt mem = .error .exitFailure := by
  unfold recordAt
  rcases fieldOut_cases scratch mem XDISP_START with ⟨x, hx, hx'⟩ | hx
  · rcases fieldOut_cases scratch mem YDISP_START with ⟨y, hy, hy'⟩ | hy
    · rcases fieldOut_cases scratch mem ZDISP_START with ⟨z, hz, hz'⟩ | hz
      · left
        exact ⟨x, y, z, by rw [hx, hy, hz]; rfl, hx', hy', hz'⟩
      · right
        rw [hx, hy, hz]
        rfl
    · right
      rw [hx, hy]
      rfl
  · right
    rw [hx]
    rfl

/-- The bytes that the scratch buffer held before do not matter to the value
written for a field. -/
theorem fieldOut_scratch (disp mem : List Char) (start : Nat)
    (hdisp : disp.length = NUM_CHARS) :
    fieldOut disp mem start = fieldOut scratch mem start := by
  obtain ⟨t, ht, h1⟩ := fieldText_shape disp mem start hdisp
  obtain ⟨t', ht', h2⟩ := fieldText_shape scratch mem start rfl
  have hP : ((cstr (mem.drop start)).take 12 ++
      List.replicate (12 - ((cstr (mem.drop start)).take 12).length) NUL).length = 12 := by
    have : ((cstr (mem.drop start)).take 12).length ≤ 12 := by
      rw [List.length_take]; exact Nat.min_le_left _ _
    rw [List.length_append, List.length_replicate]
    omega
  have key := repair_text_tail _ t t' hP ht ht'
  unfold fieldOut
  rw [h1, h2]
  simp only [bind, Except.bind]
  revert key
  cases repair (((cstr (mem.drop start)).take 12 ++
      List.replicate (12 - ((cstr (mem.drop start)).take 12).length) NUL) ++ NUL :: t) <;>
    cases repair (((cstr (mem.drop start)).take 12 ++
      List.replicate (12 - ((cstr (mem.drop start)).take 12).length) NUL) ++ NUL :: t') <;>
    simp only [Except.map] <;> intro key
  · injection key with key
    rw [key]
  · cases key
  · cases key
  · injection key with key
    rw [key]

/-- The counter `currStep` never passes the step limit. -/
theorem convertStep_le_limit (fuel : Nat) (legacyNodes : Bool) (numNodes timestepCount : Int)
    (s : Conv) (line : Line) (h : s.currStep ≤ timestepCount) :
    (convertStep fuel legacyNodes numNodes timestepCount s line).currStep ≤ timestepCount := by
  unfold convertStep
  split
  · exact h
  · split
    · split
      · exact h
      · rename_i hne
        have hlt : s.currStep + 1 ≤ timestepCount := by omega
        split
        · split
          · exact hlt
          · exact hlt
        · exact hlt
    · split
      · split
        · exact h
        · split
          · exact h
          · exact h
      · exact h

theorem foldl_convertStep_le_limit (fuel : Nat) (legacyNodes : Bool)
    (numNodes timestepCount : Int) (lines : List Line) (s : Conv)
    (h : s.currStep ≤ timestepCount) :
    (lines.foldl (convertStep fuel legacyNodes numNodes timestepCount) s).currStep ≤
      timestepCount := by
  induction lines generalizing s with
  | nil => exact h
  | cons l ls ih => exact ih _ (convertStep_le_limit _ _ _ _ s l h)

/-- While `writeNodeIDs` returns, an iteration leaves the loop reading, at
the `break`, or through the `exit` of Exponent Repair. -/
theorem convertStep_status (fuel : Nat) (legacyNodes : Bool) (numNodes timestepCount : Int)
    (ids : List Out) (hw : writeNodeIDs fuel numNodes = some ids) (s : Conv) (line : Line)
    (h : s.status = .reading ∨ s.status = .done ∨ s.status = .fault .exitFailure) :
    (convertStep fuel legacyNodes numNodes timestepCount s line).status = .reading ∨
      (convertStep fuel legacyNodes numNodes timestepCount s line).status = .done ∨
      (convertStep fuel legacyNodes numNodes timestepCount s line).status =
        .fault .exitFailure := by
  unfold convertStep
  rw [hw]
  by_cases h1 : s.status ≠ .reading
  · rw [if_pos h1]
    exact h
  · rw [if_neg h1]
    have hs : s.status = .reading := not_not.mp h1
    split
    · split
      · exact Or.inr (Or.inl rfl)
      · split
        · exact Or.inl hs
        · exact Or.inl hs
    · split
      · split
        · exact Or.inl hs
        · rcases recordAt_cases (getline s.buf line) with ⟨x, y, z, hr, -⟩ | hr
          · rw [hr]
            exact Or.inl hs
          · rw [hr]
            exact Or.inr (Or.inr rfl)
      · exact Or.inl hs

theorem foldl_convertStep_status (fuel : Nat) (legacyNodes : Bool)
    (numNodes timestepCount : Int) (ids : List Out)
    (hw : writeNodeIDs fuel numNodes = some ids) (lines : List Line) (s : Conv)
    (h : s.status = .reading ∨ s.status = .done ∨ s.status = .fault .exitFailure) :
    (lines.foldl (convertStep fuel legacyNodes numNodes timestepCount) s).status = .reading ∨
      (lines.foldl (convertStep fuel legacyNodes numNodes timestepCount) s).status = .done ∨
      (lines.foldl (convertStep fuel legacyNodes numNodes timestepCount) s).status =
        .fault .exitFailure := by
  induction lines generalizing s with
  | nil => exact h
  | cons l ls ih => exact ih _ (convertStep_status _ _ _ _ ids hw s l h)

/-- With the step limit of the Discovery Pass on an input that has a marker
line, the loop does not run to the end of the input: once `writeNodeIDs`
returns, it ends at the `break` or through the `exit` of Exponent Repair. -/
theorem conversionPass_ends (mem : List Char) (fuel : Nat) (legacyNodes : Bool)
    (numNodes : Int) (ids out : List Out) (hw : writeNodeIDs fuel numNodes = some ids)
    (lines : List Line) (hT : 1 ≤ grepCount lines) :
    (conversionPass mem fuel legacyNodes numNodes ((grepCount lines : Int) - 1) out
        lines).status = .done ∨
      (conversionPass mem fuel legacyNodes numNodes ((grepCount lines : Int) - 1) out
        lines).status = .fault .exitFailure := by
  unfold conversionPass
  have h1 := foldl_convertStep_status fuel legacyNodes numNodes ((grepCount lines : Int) - 1)
    ids hw lines (Conv.mk false 0 out .reading mem) (Or.inl rfl)
  have h2 := foldl_convertStep_le_limit fuel legacyNodes numNodes ((grepCount lines : Int) - 1)
    lines (Conv.mk false 0 out .reading mem) (by
      show (0 : Int) ≤ (grepCount lines : Int) - 1
      omega)
  have h3 := (foldl_convertStep_currStep fuel legacyNodes numNodes
    ((grepCount lines : Int) - 1) lines (Conv.mk false 0 out .reading mem)).2
  rcases h1 with h | h | h
  · exfalso
    have h4 := h3 h
    rw [h4] at h2
    unfold grepCount at h2
    simp only at h2
    omega
  · exact Or.inl h
  · exact Or.inr h

/-! ## Legacy mode: how often the table is written -/

theorem filter_nonRecord_of_no_record (l : List Out) (h : l.filter isRecordValue = []) :
    l.filter (fun o => !isRecordValue o) = l := by
  rw [List.filter_eq_self]
  intro o ho
  have : ¬ isRecordValue o = true := by
    intro hc
    have hmem : o ∈ l.filter isRecordValue := List.mem_filter.mpr ⟨ho, hc⟩
    rw [h] at hmem
    cases hmem
  simpa using this

theorem flatten_replicate_succ (ids : List Out) (n : Nat) :
    (List.replicate (n + 1) ids).flatten = (List.replicate n ids).flatten ++ ids := by
  rw [List.replicate_succ', List.flatten_append]
  simp

theorem convertStep_legacyInv (fuel : Nat) (numNodes timestepCount : Int) (ids : List Out)
    (hids : writeNodeIDs fuel numNodes = some ids) (base : List Out) (s : Conv) (line : Line)
    (h : LegacyInv ids timestepCount base s) :
    LegacyInv ids timestepCount base (convertStep fuel true numNodes timestepCount s line) := by
  obtain ⟨h0, hcount, hdone⟩ := h
  have hnr := filter_nonRecord_of_no_record ids (writeNodeIDs_ofInt fuel numNodes ids hids)
  unfold convertStep
  by_cases h1 : s.status ≠ .reading
  · rw [if_pos h1]
    exact ⟨h0, hcount, hdone⟩
  · rw [if_neg h1]
    have hs : s.status = .reading := not_not.mp h1
    by_cases h2 : hasNodal line = true
    · rw [if_pos h2]
      by_cases h3 : s.currStep = timestepCount
      · rw [if_pos h3]
        exact ⟨h0, hcount, fun _ => h3⟩
      · rw [if_neg h3, hids]
        by_cases h4 : s.currStep + 1 > 1
        · simp only [Bool.true_and, h4, decide_True, if_true]
          refine ⟨by simp only; omega, ?_, fun hc => by rw [hs] at hc; cases hc⟩
          have e : (s.currStep + 1 - 1).toNat = (s.currStep - 1).toNat + 1 := by omega
          simp only
          rw [List.filter_append, hnr, hcount, e, flatten_replicate_succ, List.append_assoc]
        · simp only [Bool.true_and, h4, decide_False, Bool.false_eq_true, if_false]
          refine ⟨by simp only; omega, ?_, fun hc => by rw [hs] at hc; cases hc⟩
          have e : (s.currStep + 1 - 1).toNat = (s.currStep - 1).toNat := by omega
          simp only
          rw [e]
          exact hcount
    · rw [if_neg h2]
      by_cases h5 : s.timestepRead = true
      · rw [if_pos h5]
        by_cases h6 : line.length = 1
        · rw [if_pos h6]
          exact ⟨h0, hcount, hdone⟩
        · rw [if_neg h6]
          rcases recordAt_cases (getline s.buf line) with ⟨x, y, z, hr, hx, hy, hz⟩ | hr
          · rw [hr]
            refine ⟨h0, ?_, hdone⟩
            simp only [List.filter_append, List.filter_cons, List.filter_nil, hx, hy, hz,
              Bool.not_true, Bool.false_eq_true, if_false, List.append_nil]
            exact hcount
          · rw [hr]
            exact ⟨h0, hcount, fun hc => by cases hc⟩
      · rw [if_neg h5]
        exact ⟨h0, hcount, hdone⟩

theorem foldl_legacyInv (fuel : Nat) (numNodes timestepCount : Int) (ids : List Out)
    (hids : writeNodeIDs fuel numNodes = some ids) (base : List Out) (lines : List Line)
    (s : Conv) (h : LegacyInv ids timestepCount base s) :
    LegacyInv ids timestepCount base
      (lines.foldl (convertStep fuel true numNodes timestepCount) s) := by
  induction lines generalizing s with
  | nil => exact h
  | cons l ls ih =>
    exact ih _ (convertStep_legacyInv fuel numNodes timestepCount ids hids base s l h)

/-- C13 (counterexample). Legacy mode, an input with three marker lines: two
timesteps are retained (the header says `2`), yet the node-ID table `1, 2`
appears once in the output, not twice, because Exponent Repair aborts on
`badLine` inside the first block (the values that are not record values are
the header and one table). -/
theorem legacy_table_once_on_abort :
    doCount ["nodal\n".toList, dataLine, badLine, "\n".toList, "nodal\n".toList, dataLine,
        "\n".toList, "nodal\n".toList] = (some 2, 2) ∧
      (main staleBuf 5 true ["nodal\n".toList, dataLine, badLine, "\n".toList,
        "nodal\n".toList, dataLine, "\n".toList, "nodal\n".toList]).out.filter
          (fun o => !isRecordValue o) =
        [Out.ofInt 2, Out.ofInt 4, Out.ofInt 2, Out.ofInt 1, Out.ofInt 2] ∧
      (main staleBuf 5 true ["nodal\n".toList, dataLine, badLine, "\n".toList,
        "nodal\n".toList, dataLine, "\n".toList, "nodal\n".toList]).status =
          .fault .exitFailure := by
  refine ⟨by decide, by decide, by decide⟩

/-- C13 (amended). In legacy mode, whenever the node count is assigned and
`writeNodeIDs` returns the table `ids`: the output starts with the header
followed by the table; a marker line that starts a block appends the table
at once, before any record of the block, exactly when the block is not the
first; the values that are not record values are the header followed by one
table per started block (one table when no block is started); and a run that
Exponent Repair does not abort reaches the step limit having started all
`k = timestepCount` retained blocks, so that for `k ≥ 1` the values that are
not record values are the header followed by exactly `k` tables. -/
theorem legacy_table_count (mem : List Char) (fuel : Nat) (lines : List Line)
    (numNodes : Int) (ids : List Out) (hn : (doCount lines).1 = some numNodes)
    (hw : writeNodeIDs fuel numNodes = some ids) :
    (main mem fuel true lines).out.take (3 + ids.length) =
        [Out.ofInt numNodes, Out.ofInt NUM_DIMS, Out.ofInt (doCount lines).2] ++ ids ∧
      (∀ (s : Conv) (line : Line), s.status = .reading → hasNodal line = true →
        s.currStep ≠ (doCount lines).2 →
        convertStep fuel true numNodes (doCount lines).2 s line =
          Conv.mk true (s.currStep + 1) (s.out ++ if s.currStep + 1 > 1 then ids else [])
            .reading (getline s.buf line)) ∧
      (main mem fuel true lines).out.filter (fun o => !isRecordValue o) =
        [Out.ofInt numNodes, Out.ofInt NUM_DIMS, Out.ofInt (doCount lines).2] ++
          (List.replicate (max 1 (main mem fuel true lines).currStep.toNat) ids).flatten ∧
      ((main mem fuel true lines).status ≠ .fault .exitFailure → 1 ≤ (doCount lines).2 →
        (main mem fuel true lines).status = .done ∧
          (main mem fuel true lines).currStep = (doCount lines).2 ∧
          (main mem fuel true lines).out.filter (fun o => !isRecordValue o) =
            [Out.ofInt numNodes, Out.ofInt NUM_DIMS, Out.ofInt (doCount lines).2] ++
              (List.replicate (doCount lines).2.toNat ids).flatten) := by
  have hnr := filter_nonRecord_of_no_record ids (writeNodeIDs_ofInt fuel numNodes ids hw)
  have hends : 1 ≤ (doCount lines).2 →
      (main mem fuel true lines).status = .done ∨
        (main mem fuel true lines).status = .fault .exitFailure := by
    intro hk
    rw [main_eq_conversionPass mem fuel true lines numNodes ids hn hw, doCount_snd]
    rw [doCount_snd] at hk
    exact conversionPass_ends mem fuel true numNodes ids _ hw lines (by omega)
  rw [main_eq_conversionPass mem fuel true lines numNodes ids hn hw] at hends ⊢
  unfold conversionPass at hends ⊢
  have hinit : LegacyInv ids (doCount lines).2
      ([Out.ofInt numNodes, Out.ofInt NUM_DIMS, Out.ofInt (doCount lines).2] ++ ids)
      (Conv.mk false 0
        ([Out.ofInt numNodes, Out.ofInt NUM_DIMS, Out.ofInt (doCount lines).2] ++ ids)
        .reading mem) := by
    refine ⟨le_refl _, ?_, fun hc => by cases hc⟩
    show ([Out.ofInt numNodes, Out.ofInt NUM_DIMS, Out.ofInt (doCount lines).2] ++ ids).filter
      (fun o => !isRecordValue o) =
        ([Out.ofInt numNodes, Out.ofInt NUM_DIMS, Out.ofInt (doCount lines).2] ++ ids) ++
          (List.replicate ((0 : Int) - 1).toNat ids).flatten
    rw [List.filter_append, hnr]
    have e : ((0 : Int) - 1).toNat = 0 := rfl
    rw [e]
    simp [isRecordValue]
  obtain ⟨h0, hcount, hdone⟩ :=
    foldl_legacyInv fuel numNodes (doCount lines).2 ids hw _ lines _ hinit
  obtain ⟨more, hmore⟩ := foldl_convertStep_out fuel true numNodes (doCount lines).2 lines
    (Conv.mk false 0
      ([Out.ofInt numNodes, Out.ofInt NUM_DIMS, Out.ofInt (doCount lines).2] ++ ids)
      .reading mem)
  have htables : ∀ c : Int, 0 ≤ c →
      ([Out.ofInt numNodes, Out.ofInt NUM_DIMS, Out.ofInt (doCount lines).2] ++ ids) ++
          (List.replicate (c - 1).toNat ids).flatten =
        [Out.ofInt numNodes, Out.ofInt NUM_DIMS, Out.ofInt (doCount lines).2] ++
          (List.replicate (max 1 c.toNat) ids).flatten := by
    intro c hc0
    have hc : max 1 c.toNat = (c - 1).toNat + 1 := by omega
    rw [hc, List.replicate_succ, List.flatten_cons, List.append_assoc]
  refine ⟨?_, ?_, ?_, ?_⟩
  · rw [hmore]
    have hl : ([Out.ofInt numNodes, Out.ofInt NUM_DIMS, Out.ofInt (doCount lines).2] ++
        ids).length = 3 + ids.length := by
      rw [List.length_append]
      rfl
    exact List.take_left' hl
  · intro s line hs hm hc
    unfold convertStep
    rw [if_neg (not_not.mpr hs), if_pos hm, if_neg hc, hw]
    by_cases h1 : s.currStep + 1 > 1
    · simp [h1, hs]
    · simp [h1, hs]
  · rw [hcount]
    exact htables _ h0
  · intro hfault hk
    have hd : (lines.foldl (convertStep fuel true numNodes (doCount lines).2)
        (Conv.mk false 0
          ([Out.ofInt numNodes, Out.ofInt NUM_DIMS, Out.ofInt (doCount lines).2] ++ ids)
          .reading mem)).status = .done := by
      rcases hends hk with h | h
      · exact h
      · exact absurd h hfault
    have hc := hdone hd
    refine ⟨hd, hc, ?_⟩
    rw [hcount, hc, htables _ (by omega)]
    have hm : max 1 (doCount lines).2.toNat = (doCount lines).2.toNat := by omega
    rw [hm]

/-- Witness for C13: legacy mode with three marker lines and two data lines
per block.  The run is not aborted, two timesteps are retained, the loop
ends at the step limit with `currStep = 2`, and the values that are not
record values are the header `(2, 4, 2)` followed by the table `1, 2` twice. -/
theorem legacy_table_count_witness :
    (main staleBuf 5 true ["nodal\n".toList, dataLine, dataLine2, "\n".toList,
        "nodal\n".toList, dataLine, dataLine2, "\n".toList, "nodal\n".toList, dataLine,
        dataLine2, "\n".toList]).status = .done ∧
      (main staleBuf 5 true ["nodal\n".toList, dataLine, dataLine2, "\n".toList,
        "nodal\n".toList, dataLine, dataLine2, "\n".toList, "nodal\n".toList, dataLine,
        dataLine2, "\n".toList]).currStep = 2 ∧
      (main staleBuf 5 true ["nodal\n".toList, dataLine, dataLine2, "\n".toList,
        "nodal\n".toList, dataLine, dataLine2, "\n".toList, "nodal\n".toList, dataLine,
        dataLine2, "\n".toList]).out.filter (fun o => !isRecordValue o) =
        [Out.ofInt 2, Out.ofInt 4, Out.ofInt 2, Out.ofInt 1, Out.ofInt 2, Out.ofInt 1,
          Out.ofInt 2] :=
  (legacy_table_count staleBuf 5 ["nodal\n".toList, dataLine, dataLine2, "\n".toList,
    "nodal\n".toList, dataLine, dataLine2, "\n".toList, "nodal\n".toList, dataLine, dataLine2,
    "\n".toList] 2 [Out.ofInt 1, Out.ofInt 2] (by decide) (by decide)).2.2.2 (by decide)
    (by decide)

/-! ## Records are written in state `ReadingNodeData` only -/

theorem spanLineCount_limit (timestepCount : Int) (lines : List Line) (started : Int)
    (h : timestepCount ≤ started) : spanLineCount timestepCount lines started false = 0 := by
  induction lines with
  | nil => rfl
  | cons l ls ih =>
    unfold spanLineCount
    split
    · rw [if_neg (by omega)]
      exact ih
    · split
      · exact ih
      · rw [ih]
        rfl

/-- Without a marker line the Discovery Pass assigns no node count. -/
theorem doCountLoop_no_marker (lines : List Line) (node : Option Int)
    (h : lines.countP hasNodal = 0) : doCountLoop lines false node = none := by
  induction lines with
  | nil => rfl
  | cons l ls ih =>
    rw [List.countP_cons] at h
    have hl : hasNodal l = false := by
      by_contra hc
      rw [if_pos (by simpa using hc)] at h
      omega
    rw [hl] at h
    unfold doCountLoop
    rw [if_neg (by simp [hl])]
    simp only [Bool.false_eq_true, if_false]
    exact ih (by simpa using h)

theorem grepCount_pos_of_assigned (lines : List Line) (numNodes : Int)
    (h : (doCount lines).1 = some numNodes) : 1 ≤ grepCount lines := by
  by_contra hc
  have h0 : lines.countP hasNodal = 0 := by
    unfold grepCount at hc
    omega
  rw [doCount_fst, doCountLoop_no_marker lines none h0] at h
  cases h

/-- The records of a run that ends at the step limit or at the end of the
input, counted on the input: from a state of the running loop, on lines whose
blocks are closed before the next marker line, the loop adds three record
values for every non-empty, non-marker line between a started marker line and
the next zero-length line. -/
theorem foldl_convertStep_span (fuel : Nat) (legacyNodes : Bool)
    (numNodes timestepCount : Int) (lines : List Line) (s : Conv)
    (hs : s.status = .reading) (hle : s.currStep ≤ timestepCount)
    (hclosed : blocksClosed lines s.timestepRead = true)
    (hend : (lines.foldl (convertStep fuel legacyNodes numNodes timestepCount) s).status =
        .done ∨
      (lines.foldl (convertStep fuel legacyNodes numNodes timestepCount) s).status =
        .reading) :
    ((lines.foldl (convertStep fuel legacyNodes numNodes timestepCount) s).out.filter
        isRecordValue).length =
      (s.out.filter isRecordValue).length +
        3 * spanLineCount timestepCount lines s.currStep s.timestepRead := by
  induction lines generalizing s with
  | nil => simp [spanLineCount]
  | cons l ls ih =>
    rw [List.foldl_cons] at hend ⊢
    unfold blocksClosed at hclosed
    unfold spanLineCount
    have hne : ¬ s.status ≠ .reading := not_not.mpr hs
    by_cases h1 : hasNodal l = true
    · rw [if_pos h1] at hclosed ⊢
      simp only [Bool.and_eq_true, Bool.not_eq_true'] at hclosed
      obtain ⟨htr, hcl⟩ := hclosed
      by_cases h2 : s.currStep = timestepCount
      · have hstep : convertStep fuel legacyNodes numNodes timestepCount s l =
            { s with timestepRead := true, status := .done, buf := getline s.buf l } := by
          unfold convertStep
          rw [if_neg hne, if_pos h1, if_pos h2]
        rw [hstep, foldl_convertStep_halted _ _ _ _ _ _ (by simp), if_neg (by omega), htr,
          spanLineCount_limit timestepCount ls s.currStep (by omega)]
        rfl
      · have hlt : s.currStep < timestepCount := by omega
        rw [if_pos hlt]
        by_cases h3 : (legacyNodes && decide (s.currStep + 1 > 1)) = true
        · cases hw : writeNodeIDs fuel numNodes with
          | none =>
            have hstep : convertStep fuel legacyNodes numNodes timestepCount s l =
                { s with timestepRead := true, currStep := s.currStep + 1, status := .hung,
                         buf := getline s.buf l } := by
              unfold convertStep
              rw [if_neg hne, if_pos h1, if_neg h2, if_pos h3, hw]
            rw [hstep, foldl_convertStep_halted _ _ _ _ _ _ (by simp)] at hend
            rcases hend with h | h <;> cases h
          | some ids =>
            have hstep : convertStep fuel legacyNodes numNodes timestepCount s l =
                { s with timestepRead := true, currStep := s.currStep + 1,
                         out := s.out ++ ids, buf := getline s.buf l } := by
              unfold convertStep
              rw [if_neg hne, if_pos h1, if_neg h2, if_pos h3, hw]
            rw [hstep] at hend ⊢
            rw [ih (Conv.mk true (s.currStep + 1) (s.out ++ ids) s.status (getline s.buf l))
              hs (by simp only; omega) hcl hend]
            simp only [List.filter_append, writeNodeIDs_ofInt fuel numNodes ids hw,
              List.append_nil]
        · have hstep : convertStep fuel legacyNodes numNodes timestepCount s l =
              { s with timestepRead := true, currStep := s.currStep + 1,
                       buf := getline s.buf l } := by
            unfold convertStep
            rw [if_neg hne, if_pos h1, if_neg h2, if_neg h3]
          rw [hstep] at hend ⊢
          rw [ih (Conv.mk true (s.currStep + 1) s.out s.status (getline s.buf l))
            hs (by simp only; omega) hcl hend]
    · rw [if_neg h1] at hclosed ⊢
      by_cases h4 : l.length = 1
      · rw [if_pos h4] at hclosed ⊢
        by_cases h5 : s.timestepRead = true
        · have hstep : convertStep fuel legacyNodes numNodes timestepCount s l =
              { s with timestepRead := false, buf := getline s.buf l } := by
            unfold convertStep
            rw [if_neg hne, if_neg h1, if_pos h5, if_pos h4]
          rw [hstep] at hend ⊢
          rw [ih (Conv.mk false s.currStep s.out s.status (getline s.buf l))
            hs hle hclosed hend]
        · have hstep : convertStep fuel legacyNodes numNodes timestepCount s l =
              { s with buf := getline s.buf l } := by
            unfold convertStep
            rw [if_neg hne, if_neg h1, if_neg h5]
          have hf : s.timestepRead = false := by simpa using h5
          rw [hstep] at hend ⊢
          rw [ih (Conv.mk s.timestepRead s.currStep s.out s.status (getline s.buf l))
            hs hle (by simp only; rw [hf]; exact hclosed) hend]
          simp only [hf]
      · rw [if_neg h4] at hclosed ⊢
        by_cases h5 : s.timestepRead = true
        · rcases recordAt_cases (getline s.buf l) with ⟨x, y, z, hr, hx, hy, hz⟩ | hr
          · have hstep : convertStep fuel legacyNodes numNodes timestepCount s l =
                { s with out := s.out ++ [x, y, z], buf := getline s.buf l } := by
              unfold convertStep
              rw [if_neg hne, if_neg h1, if_pos h5, if_neg h4, hr]
            rw [hstep] at hend ⊢
            rw [ih (Conv.mk s.timestepRead s.currStep (s.out ++ [x, y, z]) s.status
              (getline s.buf l)) hs hle hclosed hend]
            simp only [List.filter_append, List.filter_cons, List.filter_nil, hx, hy, hz,
              if_true, List.length_append, List.length_cons, List.length_nil, h5]
            omega
          · have hstep : convertStep fuel legacyNodes numNodes timestepCount s l =
                { s with status := .fault .exitFailure, buf := getline s.buf l } := by
              unfold convertStep
              rw [if_neg hne, if_neg h1, if_pos h5, if_neg h4, hr]
            rw [hstep, foldl_convertStep_halted _ _ _ _ _ _ (by simp)] at hend
            rcases hend with h | h <;> cases h
        · have hstep : convertStep fuel legacyNodes numNodes timestepCount s l =
              { s with buf := getline s.buf l } := by
            unfold convertStep
            rw [if_neg hne, if_neg h1, if_neg h5]
          have hf : s.timestepRead = false := by simpa using h5
          rw [hstep] at hend ⊢
          rw [ih (Conv.mk s.timestepRead s.currStep s.out s.status (getline s.buf l))
            hs hle hclosed hend]
          simp only [hf, Bool.false_eq_true, if_false, Nat.zero_add]

/-- C17 (counterexample). Two inputs on which the records written are fewer
than the non-empty, non-marker lines between a started marker line and the
next zero-length line.  In the first, three such lines follow the started
marker line, but Exponent Repair aborts on the second one (`badLine`), so one
record is written.  In the second, two such lines lie between the started
marker line and the zero-length line, but the loop stops at the marker line
between them (the step limit), so one record is written. -/
theorem records_fewer_than_span_lines :
    (doCount ["nodal\n".toList, dataLine, badLine, dataLine, "\n".toList, "nodal\n".toList] =
        (some 1, 1) ∧
      spanLineCount 1
        ["nodal\n".toList, dataLine, badLine, dataLine, "\n".toList, "nodal\n".toList]
        0 false = 3 ∧
      ((main staleBuf 5 false
        ["nodal\n".toList, dataLine, badLine, dataLine, "\n".toList, "nodal\n".toList]).out.filter
          isRecordValue).length = 3 * 1 ∧
      (main staleBuf 5 false
        ["nodal\n".toList, dataLine, badLine, dataLine, "\n".toList, "nodal\n".toList]).status =
          .fault .exitFailure) ∧
    (doCount ["nodal\n".toList, dataLine, "nodal\n".toList, dataLine, "\n".toList] =
        (some 1, 1) ∧
      spanLineCount 1 ["nodal\n".toList, dataLine, "nodal\n".toList, dataLine, "\n".toList]
        0 false = 2 ∧
      blocksClosed ["nodal\n".toList, dataLine, "nodal\n".toList, dataLine, "\n".toList]
        false = false ∧
      ((main staleBuf 5 false
        ["nodal\n".toList, dataLine, "nodal\n".toList, dataLine, "\n".toList]).out.filter
          isRecordValue).length = 3 * 1 ∧
      (main staleBuf 5 false
        ["nodal\n".toList, dataLine, "nodal\n".toList, dataLine, "\n".toList]).status =
          .done) := by
  refine ⟨⟨by decide, by decide, by decide, by decide⟩, by decide, by decide, by decide,
    by decide, by decide⟩

/-- C17 (amended). The Conversion Pass writes a record only in state
`ReadingNodeData`: a line that is not a marker line, read while
`timestepRead` is unset (before the first marker line, or after a zero-length
line), changes nothing but the line buffer; a zero-length line read inside a
block writes nothing and unsets `timestepRead`; and when the node count is
assigned, `writeNodeIDs` returns, Exponent Repair does not abort the run and
every block is closed by a zero-length line before the next marker line, the
number of record values written is three times the number of non-empty,
non-marker lines of the input that lie between a started marker line and the
next zero-length line. -/
theorem records_while_reading (mem : List Char) (fuel : Nat) (legacyNodes : Bool)
    (lines : List Line) (numNodes : Int) (ids : List Out)
    (hn : (doCount lines).1 = some numNodes) (hw : writeNodeIDs fuel numNodes = some ids)
    (hrun : (main mem fuel legacyNodes lines).status ≠ .fault .exitFailure)
    (hclosed : blocksClosed lines false = true) :
    (∀ (s : Conv) (line : Line), s.status = .reading → s.timestepRead = false →
        hasNodal line = false →
        convertStep fuel legacyNodes numNodes (doCount lines).2 s line =
          { s with buf := getline s.buf line }) ∧
      (∀ (s : Conv) (line : Line), s.status = .reading → s.timestepRead = true →
        line.length = 1 →
        convertStep fuel legacyNodes numNodes (doCount lines).2 s line =
          { s with timestepRead := false, buf := getline s.buf line }) ∧
      ((main mem fuel legacyNodes lines).out.filter isRecordValue).length =
        3 * spanLineCount (doCount lines).2 lines 0 false := by
  refine ⟨?_, ?_, ?_⟩
  · intro s line hs ht hm
    unfold convertStep
    rw [if_neg (not_not.mpr hs), if_neg (by simp [hm]), if_neg (by simp [ht])]
  · intro s line hs ht hl
    unfold convertStep
    rw [if_neg (not_not.mpr hs), if_neg (by simp [hasNodal_of_length_one line hl]), if_pos ht,
      if_pos hl]
  · have hT := grepCount_pos_of_assigned lines numNodes hn
    have hends := conversionPass_ends mem fuel legacyNodes numNodes ids
      ([Out.ofInt numNodes, Out.ofInt NUM_DIMS, Out.ofInt (doCount lines).2] ++ ids) hw lines hT
    rw [main_eq_conversionPass mem fuel legacyNodes lines numNodes ids hn hw] at hrun ⊢
    rw [← doCount_snd] at hends
    have hdone : (conversionPass mem fuel legacyNodes numNodes (doCount lines).2
        ([Out.ofInt numNodes, Out.ofInt NUM_DIMS, Out.ofInt (doCount lines).2] ++ ids)
        lines).status = .done := by
      rcases hends with h | h
      · exact h
      · exact absurd h hrun
    unfold conversionPass at hdone ⊢
    have h := foldl_convertStep_span fuel legacyNodes numNodes (doCount lines).2 lines
      (Conv.mk false 0
        ([Out.ofInt numNodes, Out.ofInt NUM_DIMS, Out.ofInt (doCount lines).2] ++ ids)
        .reading mem) rfl (by
          show (0 : Int) ≤ (doCount lines).2
          rw [doCount_snd]
          omega) hclosed (Or.inl hdone)
    rw [h]
    simp only [List.filter_append, writeNodeIDs_ofInt fuel numNodes ids hw, List.append_nil]
    simp [isRecordValue]

/-- Witness for C17: on the input of a title line, a marker line, two data
lines, a zero-length line, a stray line and the last marker line, two lines
lie between the started marker line and the zero-length line, and six record
values are written. -/
theorem records_while_reading_witness :
    ((main staleBuf 5 false
        ["title\n".toList, "nodal\n".toList, dataLine, dataLine, "\n".toList,
          "stray\n".toList, "nodal\n".toList]).out.filter isRecordValue).length = 3 * 2 ∧
      spanLineCount 1
        ["title\n".toList, "nodal\n".toList, dataLine, dataLine, "\n".toList,
          "stray\n".toList, "nodal\n".toList] 0 false = 2 :=
  ⟨(records_while_reading staleBuf 5 false
      ["title\n".toList, "nodal\n".toList, dataLine, dataLine, "\n".toList,
        "stray\n".toList, "nodal\n".toList] 1 [Out.ofInt 1] (by decide) (by decide)
      (by decide) (by decide)).2.2, by decide⟩

/-! ## The lines after the last marker line -/

/-- The record of a line that reaches the column of the z field does not
depend on the bytes that the buffer held before. -/
theorem recordAt_getline_long (mem mem' : List Char) (line : Line)
    (h : ZDISP_START ≤ line.length) :
    recordAt (getline mem line) = recordAt (getline mem' line) := by
  have hz : ZDISP_START ≤ line.length := h
  have hy : YDISP_START ≤ line.length := by
    unfold YDISP_START
    unfold ZDISP_START at h
    omega
  have hx : XDISP_START ≤ line.length := by
    unfold XDISP_START
    unfold ZDISP_START at h
    omega
  unfold recordAt fieldOut
  rw [fieldText_getline _ mem line _ hx, fieldText_getline _ mem line _ hy,
    fieldText_getline _ mem line _ hz, fieldText_getline _ mem' line _ hx,
    fieldText_getline _ mem' line _ hy, fieldText_getline _ mem' line _ hz]

/-- One iteration from two states that differ in the bytes of the line buffer
only, on a line that, if it is a data line, reaches the column of the z field:
the states after it differ in the line buffer only. -/
theorem convertStep_mem (fuel : Nat) (legacyNodes : Bool) (numNodes timestepCount : Int)
    (s s' : Conv) (line : Line)
    (hlong : hasNodal line = false → line.length ≠ 1 → ZDISP_START ≤ line.length)
    (ht : s.timestepRead = s'.timestepRead) (hc : s.currStep = s'.currStep)
    (hs : s.status = s'.status) (ho : s.out = s'.out) :
    (convertStep fuel legacyNodes numNodes timestepCount s line).timestepRead =
        (convertStep fuel legacyNodes numNodes timestepCount s' line).timestepRead ∧
      (convertStep fuel legacyNodes numNodes timestepCount s line).currStep =
        (convertStep fuel legacyNodes numNodes timestepCount s' line).currStep ∧
      (convertStep fuel legacyNodes numNodes timestepCount s line).status =
        (convertStep fuel legacyNodes numNodes timestepCount s' line).status ∧
      (convertStep fuel legacyNodes numNodes timestepCount s line).out =
        (convertStep fuel legacyNodes numNodes timestepCount s' line).out := by
  unfold convertStep
  rw [ht, hc, hs, ho]
  by_cases h1 : s'.status ≠ .reading
  · rw [if_pos h1, if_pos h1]
    exact ⟨ht, hc, hs, ho⟩
  · rw [if_neg h1, if_neg h1]
    by_cases h2 : hasNodal line = true
    · rw [if_pos h2, if_pos h2]
      split
      · exact ⟨rfl, rfl, rfl, rfl⟩
      · split
        · split
          · exact ⟨rfl, rfl, rfl, rfl⟩
          · exact ⟨rfl, rfl, rfl, rfl⟩
        · exact ⟨rfl, rfl, rfl, rfl⟩
    · rw [if_neg h2, if_neg h2]
      split
      · by_cases h4 : line.length = 1
        · rw [if_pos h4, if_pos h4]
          exact ⟨rfl, rfl, rfl, rfl⟩
        · rw [if_neg h4, if_neg h4,
            recordAt_getline_long s.buf s'.buf line (hlong (by simpa using h2) h4)]
          cases recordAt (getline s'.buf line) with
          | error e => exact ⟨rfl, rfl, rfl, rfl⟩
          | ok r => exact ⟨rfl, rfl, rfl, rfl⟩
      · exact ⟨rfl, rfl, rfl, rfl⟩

theorem foldl_convertStep_mem (fuel : Nat) (legacyNodes : Bool) (numNodes timestepCount : Int)
    (lines : List Line) (s s' : Conv)
    (hlong : ∀ l ∈ lines, hasNodal l = false → l.length ≠ 1 → ZDISP_START ≤ l.length)
    (ht : s.timestepRead = s'.timestepRead) (hc : s.currStep = s'.currStep)
    (hs : s.status = s'.status) (ho : s.out = s'.out) :
    (lines.foldl (convertStep fuel legacyNodes numNodes timestepCount) s).timestepRead =
        (lines.foldl (convertStep fuel legacyNodes numNodes timestepCount) s').timestepRead ∧
      (lines.foldl (convertStep fuel legacyNodes numNodes timestepCount) s).currStep =
        (lines.foldl (convertStep fuel legacyNodes numNodes timestepCount) s').currStep ∧
      (lines.foldl (convertStep fuel legacyNodes numNodes timestepCount) s).status =
        (lines.foldl (convertStep fuel legacyNodes numNodes timestepCount) s').status ∧
      (lines.foldl (convertStep fuel legacyNodes numNodes timestepCount) s).out =
        (lines.foldl (convertStep fuel legacyNodes numNodes timestepCount) s').out := by
  induction lines generalizing s s' with
  | nil => exact ⟨ht, hc, hs, ho⟩
  | cons l ls ih =>
    obtain ⟨h1, h2, h3, h4⟩ := convertStep_mem fuel legacyNodes numNodes timestepCount s s' l
      (hlong l (List.mem_cons_self _ _)) ht hc hs ho
    exact ih (convertStep fuel legacyNodes numNodes timestepCount s l)
      (convertStep fuel legacyNodes numNodes timestepCount s' l)
      (fun a ha => hlong a (List.mem_cons_of_mem _ ha)) h1 h2 h3 h4

/-- On an input whose data lines reach the column of the z field, what a run
of `main` writes and how it ends do not depend on the bytes that the line
buffer held at the start. -/
theorem main_mem (mem mem' : List Char) (fuel : Nat) (legacyNodes : Bool) (lines : List Line)
    (hlong : ∀ l ∈ lines, hasNodal l = false → l.length ≠ 1 → ZDISP_START ≤ l.length) :
    (main mem fuel legacyNodes lines).status = (main mem' fuel legacyNodes lines).status ∧
      (main mem fuel legacyNodes lines).out = (main mem' fuel legacyNodes lines).out := by
  cases hn : (doCount lines).1 with
  | none =>
    rw [main_eq_unassigned mem fuel legacyNodes lines hn,
      main_eq_unassigned mem' fuel legacyNodes lines hn]
    exact ⟨rfl, rfl⟩
  | some numNodes =>
    cases hw : writeNodeIDs fuel numNodes with
    | none =>
      rw [main_eq_hung mem fuel legacyNodes lines numNodes hn hw,
        main_eq_hung mem' fuel legacyNodes lines numNodes hn hw]
      exact ⟨rfl, rfl⟩
    | some ids =>
      rw [main_eq_conversionPass mem fuel legacyNodes lines numNodes ids hn hw,
        main_eq_conversionPass mem' fuel legacyNodes lines numNodes ids hn hw]
      unfold conversionPass
      obtain ⟨-, -, h3, h4⟩ := foldl_convertStep_mem fuel legacyNodes numNodes
        (doCount lines).2 lines
        (Conv.mk false 0
          ([Out.ofInt numNodes, Out.ofInt NUM_DIMS, Out.ofInt (doCount lines).2] ++ ids)
          .reading mem)
        (Conv.mk false 0
          ([Out.ofInt numNodes, Out.ofInt NUM_DIMS, Out.ofInt (doCount lines).2] ++ ids)
          .reading mem')
        hlong rfl rfl rfl rfl
      exact ⟨h3, h4⟩

/-- One iteration of two runs that differ in the node count and in the values
written so far, but agree on the record values among them: as long as
`writeNodeIDs` returns for both node counts, the runs stay in step and keep
agreeing on the record values. -/
theorem convertStep_records_eq (fuel : Nat) (legacyNodes : Bool) (n n' timestepCount : Int)
    (ids ids' : List Out) (hw : writeNodeIDs fuel n = some ids)
    (hw' : writeNodeIDs fuel n' = some ids') (s s' : Conv) (line : Line)
    (ht : s.timestepRead = s'.timestepRead) (hc : s.currStep = s'.currStep)
    (hs : s.status = s'.status) (hb : s.buf = s'.buf)
    (ho : s.out.filter isRecordValue = s'.out.filter isRecordValue) :
    (convertStep fuel legacyNodes n timestepCount s line).timestepRead =
        (convertStep fuel legacyNodes n' timestepCount s' line).timestepRead ∧
      (convertStep fuel legacyNodes n timestepCount s line).currStep =
        (convertStep fuel legacyNodes n' timestepCount s' line).currStep ∧
      (convertStep fuel legacyNodes n timestepCount s line).status =
        (convertStep fuel legacyNodes n' timestepCount s' line).status ∧
      (convertStep fuel legacyNodes n timestepCount s line).buf =
        (convertStep fuel legacyNodes n' timestepCount s' line).buf ∧
      (convertStep fuel legacyNodes n timestepCount s line).out.filter isRecordValue =
        (convertStep fuel legacyNodes n' timestepCount s' line).out.filter isRecordValue := by
  have hi := writeNodeIDs_ofInt fuel n ids hw
  have hi' := writeNodeIDs_ofInt fuel n' ids' hw'
  unfold convertStep
  rw [ht, hc, hs, hb, hw, hw']
  by_cases h1 : s'.status ≠ .reading
  · rw [if_pos h1, if_pos h1]
    exact ⟨ht, hc, hs, hb, ho⟩
  · rw [if_neg h1, if_neg h1]
    by_cases h2 : hasNodal line = true
    · rw [if_pos h2, if_pos h2]
      split
      · exact ⟨rfl, rfl, rfl, rfl, ho⟩
      · split
        · refine ⟨rfl, rfl, rfl, rfl, ?_⟩
          simp only [List.filter_append, hi, hi', List.append_nil]
          exact ho
        · exact ⟨rfl, rfl, rfl, rfl, ho⟩
    · rw [if_neg h2, if_neg h2]
      split
      · split
        · exact ⟨rfl, rfl, rfl, rfl, ho⟩
        · cases recordAt (getline s'.buf line) with
          | error e => exact ⟨rfl, rfl, rfl, rfl, ho⟩
          | ok r =>
            refine ⟨rfl, rfl, rfl, rfl, ?_⟩
            simp only [List.filter_append, ho]
      · exact ⟨rfl, rfl, rfl, rfl, ho⟩

theorem foldl_convertStep_records_eq (fuel : Nat) (legacyNodes : Bool)
    (n n' timestepCount : Int) (ids ids' : List Out) (hw : writeNodeIDs fuel n = some ids)
    (hw' : writeNodeIDs fuel n' = some ids') (lines : List Line) (s s' : Conv)
    (ht : s.timestepRead = s'.timestepRead) (hc : s.currStep = s'.currStep)
    (hs : s.status = s'.status) (hb : s.buf = s'.buf)
    (ho : s.out.filter isRecordValue = s'.out.filter isRecordValue) :
    (lines.foldl (convertStep fuel legacyNodes n timestepCount) s).out.filter isRecordValue =
      (lines.foldl (convertStep fuel legacyNodes n' timestepCount) s').out.filter
        isRecordValue := by
  induction lines generalizing s s' with
  | nil => exact ho
  | cons l ls ih =>
    obtain ⟨h1, h2, h3, h4, h5⟩ := convertStep_records_eq fuel legacyNodes n n' timestepCount
      ids ids' hw hw' s s' l ht hc hs hb ho
    exact ih (convertStep fuel legacyNodes n timestepCount s l)
      (convertStep fuel legacyNodes n' timestepCount s' l) h1 h2 h3 h4 h5

/-- The last block is left out whenever the table of node IDs gets written.
For an input `pre ++ m :: tail` whose last marker line is `m`, and the input
with `tail` replaced by lines `tail'` without the marker: if in both runs the
node count is assigned and `writeNodeIDs` returns, the run starts at most
`T - 1` blocks for the `T` marker lines, its final state is the one reached at
`m` (no line of `tail` adds a record), and both runs write the same sequence
of record values. -/
theorem records_unchanged_by_tail (mem : List Char) (fuel : Nat) (legacyNodes : Bool)
    (pre tail tail' : List Line) (m : Line) (hm : hasNodal m = true)
    (htail : ∀ l ∈ tail, hasNodal l = false) (htail' : ∀ l ∈ tail', hasNodal l = false)
    (n n' : Int) (ids ids' : List Out)
    (hn : (doCount (pre ++ m :: tail)).1 = some n) (hw : writeNodeIDs fuel n = some ids)
    (hn' : (doCount (pre ++ m :: tail')).1 = some n')
    (hw' : writeNodeIDs fuel n' = some ids') :
    (main mem fuel legacyNodes (pre ++ m :: tail)).currStep ≤
        (grepCount (pre ++ m :: tail) : Int) - 1 ∧
      main mem fuel legacyNodes (pre ++ m :: tail) =
        conversionPass mem fuel legacyNodes n (doCount (pre ++ m :: tail)).2
          ([Out.ofInt n, Out.ofInt NUM_DIMS, Out.ofInt (doCount (pre ++ m :: tail)).2] ++ ids)
          (pre ++ [m]) ∧
      (main mem fuel legacyNodes (pre ++ m :: tail')).out.filter isRecordValue =
        (main mem fuel legacyNodes (pre ++ m :: tail)).out.filter isRecordValue := by
  have h1 := doCount_steps_last_marker pre tail m hm htail
  have h2 := doCount_steps_last_marker pre tail' m hm htail'
  rw [main_eq_conversionPass mem fuel legacyNodes _ n ids hn hw,
    main_eq_conversionPass mem fuel legacyNodes _ n' ids' hn' hw', h1.1, h1.2, h2.1]
  have k1 := conversionPass_last_marker mem fuel legacyNodes n
    ([Out.ofInt n, Out.ofInt NUM_DIMS, Out.ofInt (pre.countP hasNodal : Int)] ++ ids)
    pre tail m hm
  have k2 := conversionPass_last_marker mem fuel legacyNodes n'
    ([Out.ofInt n', Out.ofInt NUM_DIMS, Out.ofInt (pre.countP hasNodal : Int)] ++ ids')
    pre tail' m hm
  refine ⟨?_, k1.1, ?_⟩
  · rw [k1.1]
    exact k1.2
  · rw [k1.1, k2.1]
    unfold conversionPass
    refine foldl_convertStep_records_eq fuel legacyNodes n' n _ ids' ids hw' hw (pre ++ [m])
      (Conv.mk false 0
        ([Out.ofInt n', Out.ofInt NUM_DIMS, Out.ofInt (pre.countP hasNodal : Int)] ++ ids')
        .reading mem)
      (Conv.mk false 0
        ([Out.ofInt n, Out.ofInt NUM_DIMS, Out.ofInt (pre.countP hasNodal : Int)] ++ ids)
        .reading mem) rfl rfl rfl rfl ?_
    simp only [List.filter_append, writeNodeIDs_ofInt fuel n ids hw,
      writeNodeIDs_ofInt fuel n' ids' hw']
    rfl

/-- C4 at two inputs that differ only after the last marker line: a marker
line, a data line and the last marker line, followed either by the data line
`dataLine` (identifier `1`) and a zero-length line, or by the data line
`lastLine` (identifier `16777216`) and a zero-length line; neither line after
the last marker line contains the marker.  On the first input the run ends at
the step limit with one record (three record values).  On the second the
node count is `2^24`, the node-ID loop of `writeNodeIDs` never returns and
no record is written, whatever the number of iterations allowed: the lines
after the last marker line have changed the records that are written. -/
theorem last_block_tail_decides_records :
    hasNodal dataLine = false ∧ hasNodal lastLine = false ∧
      hasNodal "\n".toList = false ∧
      ∀ (mem : List Char) (legacyNodes : Bool),
        ((main mem 5 legacyNodes
            (["nodal\n".toList, dataLine] ++ "nodal\n".toList :: [dataLine, "\n".toList])).status =
              .done ∧
          ((main mem 5 legacyNodes
            (["nodal\n".toList, dataLine] ++
              "nodal\n".toList :: [dataLine, "\n".toList])).out.filter isRecordValue).length =
                3) ∧
        ∀ fuel : Nat,
          (main mem fuel legacyNodes
            (["nodal\n".toList, dataLine] ++ "nodal\n".toList :: [lastLine, "\n".toList])).status =
              .hung ∧
          (main mem fuel legacyNodes
            (["nodal\n".toList, dataLine] ++
              "nodal\n".toList :: [lastLine, "\n".toList])).out.filter isRecordValue = [] := by
  refine ⟨by decide, by decide, by decide, fun mem legacyNodes => ⟨?_, fun fuel => ?_⟩⟩
  · obtain ⟨hs, ho⟩ := main_mem mem staleBuf 5 legacyNodes
      (["nodal\n".toList, dataLine] ++ "nodal\n".toList :: [dataLine, "\n".toList])
      (by decide)
    rw [hs, ho]
    cases legacyNodes
    · exact ⟨by decide, by decide⟩
    · exact ⟨by decide, by decide⟩
  · have hnodes : (doCount (["nodal\n".toList, dataLine] ++
        "nodal\n".toList :: [lastLine, "\n".toList])).1 = some (((2 ^ 24 : Nat) : Int)) := by
      decide
    obtain ⟨hs, ho⟩ := main_hangs mem fuel legacyNodes _ (2 ^ 24) (le_refl _) hnodes
    rw [hs, ho]
    exact ⟨rfl, rfl⟩

end ProcessDyna
